import Mathlib

/-!
Verification of the butler-prototype registry and export core.

This file gives a shallow embedding of the two core modules the claims are
about, translated from the Python source:

* `lsst/daf/butler/transfers/_context.py` (`RepoExportContext`): the
  accumulation maps, `saveCollection`, `saveDimensionData`, `saveDataIds`,
  `saveDatasets`, `_finish`, `_computeSortedCollections` and
  `_computeDatasetAssociations`.
* `lsst/daf/butler/registry/datasets/byDimensions/_manager.py`
  (`ByDimensionsDatasetRecordStorageManager`): `register`, `find`,
  `refresh` and `getDatasetRef`.

Modelling conventions:

* Python `dict`s are insertion-ordered association lists; `d[k] = v` is
  `setA`, `d.get(k)` is `lookupA`, and `defaultdict` access uses
  get-or-create helpers.
* `DataCoordinate` values are modelled as `Nat` keys (the model only needs
  decidable equality and a total order on them, which is all the source
  uses of them here: dict keys and `sorted`).
* The `Registry`/`Datastore` collaborators are modelled as a fixed
  `Catalog` record of pure functions: one export session never mutates the
  registry, so a catalog-state snapshot is a function table.
* Export sessions are modelled at the default optional arguments of the
  API (`elements=None`, `rewrite=None`); the `elements=<explicit>` branch
  of `saveDataIds` is still modelled faithfully because one claim is about
  it.
* Python `sorted` is `List.insertionSort` with a total, antisymmetric,
  decidable order; each model structure gets such an order through an
  injective key into lexicographic products.
-/

deriving instance DecidableEq for Except

namespace Butler

/-! ### Association-list helpers (Python dicts) -/

/-- `d.get(k)` on an insertion-ordered dict. -/
def lookupA {α β : Type} [DecidableEq α] (l : List (α × β)) (k : α) : Option β :=
  (l.find? (fun p => decide (p.1 = k))).map (fun p => p.2)

/-- `d[k] = v` on an insertion-ordered dict: overwrite in place if the key is
present, else append. -/
def setA {α β : Type} [DecidableEq α] (l : List (α × β)) (k : α) (v : β) :
    List (α × β) :=
  if l.any (fun p => decide (p.1 = k)) then
    l.map (fun p => if p.1 = k then (k, v) else p)
  else l ++ [(k, v)]

/-! ### Data model for the export context -/

/-- `CollectionType` enumeration from `registry/_collectionType.py`. -/
inductive CollectionType where
  | RUN
  | TAGGED
  | CALIBRATION
  | CHAINED
deriving DecidableEq

/-- A collection registration record; `children` is meaningful only for
`CHAINED` collections (`ChainedCollectionRecord.children`). -/
structure CollectionRecord where
  name : String
  type : CollectionType
  children : List String
deriving DecidableEq

/-- A dimension record: `definition` is the name of the owning dimension
element, `dataId` the coordinate key, `fields` the remaining payload. -/
structure DimensionRecord where
  definition : String
  dataId : Nat
  fields : Nat
deriving DecidableEq

/-- The slice of `DatasetType` the export context uses: its name (the sort
key) and whether it is a calibration type. -/
structure ExpDatasetType where
  name : String
  isCalibration : Bool
deriving DecidableEq

/-- A resolved `DatasetRef`: dataset type, data ID, integer id, owning run. -/
structure DatasetRef where
  datasetType : ExpDatasetType
  dataId : Nat
  id : Nat
  run : String
deriving DecidableEq

/-- A `FileDataset` produced by `Datastore.export`. -/
structure FileDataset where
  path : String
  refId : Nat
deriving DecidableEq

/-- A dataset-collection association row, as returned by
`Registry.queryDatasetAssociations`. -/
structure DatasetAssociation where
  datasetTypeName : String
  collection : String
  refId : Nat
  timespan : Option Nat
deriving DecidableEq

/-! ### Total orders used by `sorted` in the source -/

/-- Injective sort key for `DimensionRecord`. -/
def DimensionRecord.key (r : DimensionRecord) : String ×ₗ Nat ×ₗ Nat :=
  toLex (r.definition, toLex (r.dataId, r.fields))

def drLe (a b : DimensionRecord) : Prop := a.key ≤ b.key

instance : DecidableRel drLe :=
  fun a b => inferInstanceAs (Decidable (a.key ≤ b.key))

instance : IsTotal DimensionRecord drLe := ⟨fun a b => le_total a.key b.key⟩

instance : IsTrans DimensionRecord drLe := ⟨fun _ _ _ h1 h2 => le_trans h1 h2⟩

instance : IsAntisymm DimensionRecord drLe := by
  refine ⟨fun a b h1 h2 => ?_⟩
  have h := le_antisymm h1 h2
  cases a
  cases b
  simpa [DimensionRecord.key, toLex_inj, Prod.ext_iff] using h

/-- Injective sort key for `ExpDatasetType` (primary key: the name, matching
"sorted by name" in the source comments). -/
def ExpDatasetType.key (t : ExpDatasetType) : String ×ₗ Bool :=
  toLex (t.name, t.isCalibration)

def dtLe (a b : ExpDatasetType) : Prop := a.key ≤ b.key

instance : DecidableRel dtLe :=
  fun a b => inferInstanceAs (Decidable (a.key ≤ b.key))

instance : IsTotal ExpDatasetType dtLe := ⟨fun a b => le_total a.key b.key⟩

instance : IsTrans ExpDatasetType dtLe := ⟨fun _ _ _ h1 h2 => le_trans h1 h2⟩

instance : IsAntisymm ExpDatasetType dtLe := by
  refine ⟨fun a b h1 h2 => ?_⟩
  have h := le_antisymm h1 h2
  cases a
  cases b
  simpa [ExpDatasetType.key, toLex_inj, Prod.ext_iff] using h

/-- Injective sort key for `DatasetRef` (the "natural `DatasetRef`
ordering" used by `sorted(refs)` in `saveDatasets`). -/
def DatasetRef.key (r : DatasetRef) :
    (String ×ₗ Bool) ×ₗ Nat ×ₗ Nat ×ₗ String :=
  toLex (r.datasetType.key, toLex (r.dataId, toLex (r.id, r.run)))

def refLe (a b : DatasetRef) : Prop := a.key ≤ b.key

instance : DecidableRel refLe :=
  fun a b => inferInstanceAs (Decidable (a.key ≤ b.key))

instance : IsTotal DatasetRef refLe := ⟨fun a b => le_total a.key b.key⟩

instance : IsTrans DatasetRef refLe := ⟨fun _ _ _ h1 h2 => le_trans h1 h2⟩

instance : IsAntisymm DatasetRef refLe := by
  refine ⟨fun a b h1 h2 => ?_⟩
  have h := le_antisymm h1 h2
  cases a with
  | mk t d i r =>
    cases b
    cases t
    simp only [DatasetRef.key, ExpDatasetType.key, toLex_inj, Prod.ext_iff] at h
    obtain ⟨⟨e1, e2⟩, e3, e4, e5⟩ := h
    subst e1; subst e2; subst e3; subst e4; subst e5
    rfl

/-- Injective sort key for `FileDataset`. -/
def FileDataset.key (f : FileDataset) : String ×ₗ Nat :=
  toLex (f.path, f.refId)

def fdLe (a b : FileDataset) : Prop := a.key ≤ b.key

instance : DecidableRel fdLe :=
  fun a b => inferInstanceAs (Decidable (a.key ≤ b.key))

instance : IsTotal FileDataset fdLe := ⟨fun a b => le_total a.key b.key⟩

instance : IsTrans FileDataset fdLe := ⟨fun _ _ _ h1 h2 => le_trans h1 h2⟩

instance : IsAntisymm FileDataset fdLe := by
  refine ⟨fun a b h1 h2 => ?_⟩
  have h := le_antisymm h1 h2
  cases a
  cases b
  simpa [FileDataset.key, toLex_inj, Prod.ext_iff] using h

/-- Encode the optional validity timespan injectively into `Nat ×ₗ Nat`. -/
def timespanKey : Option Nat → Nat ×ₗ Nat
  | none => toLex (0, 0)
  | some t => toLex (1, t)

theorem timespanKey_inj {a b : Option Nat} (h : timespanKey a = timespanKey b) :
    a = b := by
  cases a <;> cases b <;>
    simp only [timespanKey, toLex_inj, Prod.mk.injEq] at h ⊢
  · exact absurd h.1 (by decide)
  · exact absurd h.1 (by decide)
  · exact congrArg some h.2

/-- Injective sort key for `DatasetAssociation`. -/
def DatasetAssociation.key (a : DatasetAssociation) :
    String ×ₗ String ×ₗ Nat ×ₗ Nat ×ₗ Nat :=
  toLex (a.datasetTypeName, toLex (a.collection, toLex (a.refId, timespanKey a.timespan)))

def daLe (a b : DatasetAssociation) : Prop := a.key ≤ b.key

instance : DecidableRel daLe :=
  fun a b => inferInstanceAs (Decidable (a.key ≤ b.key))

instance : IsTotal DatasetAssociation daLe := ⟨fun a b => le_total a.key b.key⟩

instance : IsTrans DatasetAssociation daLe := ⟨fun _ _ _ h1 h2 => le_trans h1 h2⟩

instance : IsAntisymm DatasetAssociation daLe := by
  refine ⟨fun a b h1 h2 => ?_⟩
  have h := le_antisymm h1 h2
  cases a with
  | mk tn c i ts =>
    cases b with
    | mk tn2 c2 i2 ts2 =>
      simp only [DatasetAssociation.key, toLex_inj, Prod.ext_iff] at h
      obtain ⟨e1, e2, e3, e4⟩ := h
      subst e1; subst e2; subst e3
      rw [timespanKey_inj e4]

/-! ### The fixed catalog state (Registry + Datastore collaborators)

An export session reads from, but never writes to, the registry and the
datastore, so one catalog-state snapshot is a record of pure functions. -/

structure Catalog where
  /-- `registry.dimensions.getStaticElements()` in the universe's dependency
  order; `dimensions.sorted` filters this list. -/
  elements : List String
  /-- `element.hasTable()`. -/
  hasTable : String → Bool
  /-- `element.viewOf` (`none` means the element is not a view). -/
  viewOf : String → Option String
  /-- `registry._collections.find(name)`; `none` models the missing-collection
  error. -/
  findCollection : String → Option CollectionRecord
  /-- `registry.getCollectionDocumentation(name)`. -/
  collectionDoc : String → Option String
  /-- `registry.expandDataId(dataId).records.values()`: the per-element
  records of the expanded coordinate (`none` entries model Python `None`
  values in the records mapping). -/
  expand : Nat → List (Option DimensionRecord)
  /-- `datastore.export([ref], ...)`, which yields one `FileDataset` per
  ref. -/
  datastoreExport : DatasetRef → FileDataset
  /-- All association rows in the registry;
  `registry.queryDatasetAssociations` filters these. -/
  associations : List DatasetAssociation

/-! ### RepoExportContext state and operations -/

/-- The accumulation maps of `RepoExportContext.__init__`:

* `records` is the flattened `_records` dict-of-dicts: a store with at most
  one record per `(definition, dataId)` key, earlier saves winning
  (`setdefault`);
* `dataset_ids` is `_dataset_ids` (a set, modelled as a dedup-on-insert
  list);
* `datasets` is `_datasets`: `{DatasetType: {run: [FileDataset]}}`;
* `collections` is `_collections`: `{name: CollectionRecord}`. -/
structure ExpState where
  records : List DimensionRecord
  dataset_ids : List Nat
  datasets : List (ExpDatasetType × List (String × List FileDataset))
  collections : List (String × CollectionRecord)
deriving DecidableEq

def emptyExpState : ExpState := ⟨[], [], [], []⟩

inductive ExpError where
  /-- `MissingCollectionError` from `registry._collections.find`. -/
  | missingCollection (name : String)
  /-- `KeyError` from `registry.dimensions[element]`. -/
  | unknownElement (name : String)
  /-- The `ValueError` raised by `saveDimensionData` on an element /
  record-definition mismatch. -/
  | recordElementMismatch (element : String) (record : String)
  /-- The `RuntimeError` raised by `_computeSortedCollections`; `named` is
  the set interpolated into the message. -/
  | chainCycle (named : List String)
  /-- A `KeyError` on a dict lookup the source performs without a guard. -/
  | internal
deriving DecidableEq

/-- `_records[element].setdefault(record.dataId, record)` key lookup. -/
def storeFind (store : List DimensionRecord) (el : String) (d : Nat) :
    Option DimensionRecord :=
  store.find? (fun r => decide (r.definition = el) && decide (r.dataId = d))

/-- `_records[record.definition].setdefault(record.dataId, record)`: keep the
existing record if the key is present, else add the new one. -/
def storeFeed (store : List DimensionRecord) (r : DimensionRecord) :
    List DimensionRecord :=
  match storeFind store r.definition r.dataId with
  | some _ => store
  | none => store ++ [r]

/-- `RepoExportContext.saveCollection`. -/
def saveCollection (cat : Catalog) (st : ExpState) (name : String) :
    Except ExpError ExpState :=
  match cat.findCollection name with
  | none => .error (.missingCollection name)
  | some r => .ok { st with collections := setA st.collections name r }

/-- `RepoExportContext.saveDimensionData` (records given as
`DimensionRecord` instances; the `dict` branch constructs an equal record
from the element itself and is subsumed by the match case). -/
def saveDimensionData (cat : Catalog) (st : ExpState) (element : String)
    (records : List DimensionRecord) : Except ExpError ExpState :=
  if element ∈ cat.elements then
    records.foldlM
      (fun s r =>
        if r.definition = element then
          .ok { s with records := storeFeed s.records r }
        else
          .error (.recordElementMismatch element r.definition))
      st
  else .error (.unknownElement element)

/-- The element filter computed at the top of `saveDataIds`.  For
`elements=None` this is every static element with a table that is not a
view.  For an explicit argument the source executes

    elements = set()
    for element in elements: ...

rebinding `elements` to a fresh empty set before iterating it, so the loop
body is dead and the selected set is empty. -/
def selectedElements (cat : Catalog) (elements : Option (List String)) :
    List String :=
  match elements with
  | none => cat.elements.filter (fun e => cat.hasTable e && (cat.viewOf e).isNone)
  | some _ => []

/-- `RepoExportContext.saveDataIds`: expand each data ID and feed every
selected element's record into the dedup store. -/
def saveDataIds (cat : Catalog) (st : ExpState) (dataIds : List Nat)
    (elements : Option (List String)) : ExpState :=
  let sel := selectedElements cat elements
  dataIds.foldl
    (fun s d =>
      (cat.expand d).foldl
        (fun s r =>
          match r with
          | some q =>
            if q.definition ∈ sel then { s with records := storeFeed s.records q }
            else s
          | none => s)
        s)
    st

/-- `_datasets[ref.datasetType][ref.run].extend(exports)` on the nested
defaultdicts. -/
def addFiles (ds : List (ExpDatasetType × List (String × List FileDataset)))
    (t : ExpDatasetType) (run : String) (files : List FileDataset) :
    List (ExpDatasetType × List (String × List FileDataset)) :=
  match lookupA ds t with
  | none => ds ++ [(t, [(run, files)])]
  | some inner =>
    match lookupA inner run with
    | none => setA ds t (inner ++ [(run, files)])
    | some existing => setA ds t (setA inner run (existing ++ files))

/-- The per-ref body of the `saveDatasets` loop: skip refs whose id was
already seen, otherwise collect the data ID, export through the datastore,
mark the id seen and file the `FileDataset` under `(datasetType, run)`. -/
def saveDatasetsStep (cat : Catalog) (acc : ExpState × List Nat)
    (ref : DatasetRef) : ExpState × List Nat :=
  let s := acc.1
  let dIds := acc.2
  if ref.id ∈ s.dataset_ids then acc
  else
    let dIds := if ref.dataId ∈ dIds then dIds else dIds ++ [ref.dataId]
    let exports := [cat.datastoreExport ref]
    ({ s with
        dataset_ids := s.dataset_ids ++ [ref.id]
        datasets := addFiles s.datasets ref.datasetType ref.run exports },
     dIds)

/-- `RepoExportContext.saveDatasets` at the default `rewrite=None`: process
the refs in sorted order, then forward the collected data IDs to
`saveDataIds`. -/
def saveDatasets (cat : Catalog) (st : ExpState) (refs : List DatasetRef)
    (elements : Option (List String)) : ExpState :=
  let out := (List.insertionSort refLe refs).foldl (saveDatasetsStep cat) (st, [])
  saveDataIds cat out.1 out.2 elements

/-! ### Collection chain resolution (`_computeSortedCollections`) -/

theorem length_filter_lt_of_exists {α : Type} (p : α → Bool) (l : List α)
    (h : ∃ a ∈ l, ¬ p a) : (l.filter p).length < l.length := by
  induction l with
  | nil => simp at h
  | cons x xs ih =>
    obtain ⟨a, ha, hpa⟩ := h
    by_cases hx : p x
    · simp only [List.mem_cons] at ha
      rcases ha with rfl | ha
      · exact absurd hx hpa
      · simpa [List.filter_cons, hx] using Nat.succ_lt_succ (ih ⟨a, ha, hpa⟩)
    · have hle : (xs.filter p).length ≤ xs.length := List.length_filter_le p xs
      simp only [List.filter_cons, hx]
      simpa using Nat.lt_succ_of_le hle

/-- `not any(child in chains.keys() for child in children)`: a pending
chain is unblocked when none of its children is itself still pending. -/
def unbPred (chains : List (String × List String)) (p : String × List String) :
    Bool :=
  ! p.2.any (fun c => chains.any (fun q => decide (q.1 = c)))

/-- The unblocked set of one iteration of the `while chains` loop: the
pending CHAINED collections none of whose children are themselves still
pending. -/
def unblockedChains (chains : List (String × List String)) : List String :=
  (chains.filter (unbPred chains)).map (fun p => p.1)

/-- The `while chains:` loop of `_computeSortedCollections`: repeatedly emit
the lexicographically sorted unblocked set and drop it from the pending
chains; if no chain is unblocked, raise `RuntimeError` — whose message
interpolates `unblocked` (the now-empty set), faithfully recorded in the
error payload. -/
def chainLoop (chains : List (String × List String)) :
    Except ExpError (List String) :=
  if chains = [] then .ok []
  else if h : unblockedChains chains = [] then
    .error (.chainCycle (unblockedChains chains))
  else
    match chainLoop (chains.filter (fun p => ! (unblockedChains chains).contains p.1)) with
    | .error e => .error e
    | .ok rest => .ok (List.insertionSort (· ≤ ·) (unblockedChains chains) ++ rest)
termination_by chains.length
decreasing_by
  apply length_filter_lt_of_exists
  obtain ⟨u, hu2⟩ : ∃ u, u ∈ unblockedChains chains := by
    cases hul : unblockedChains chains with
    | nil => exact absurd hul h
    | cons a l => exact ⟨a, hul ▸ List.mem_cons_self a l⟩
  obtain ⟨p, hp, hp2⟩ := List.mem_map.mp hu2
  refine ⟨p, List.mem_of_mem_filter hp, ?_⟩
  simp
  exact hp2 ▸ hu2

/-- Acyclicity of the pending-chains graph: every nonempty subset of the
chains contains a member none of whose children has its key in the
subset. -/
def Acyclic (chains : List (String × List String)) : Prop :=
  ∀ S ∈ chains.sublists, S ≠ [] → ∃ p ∈ S, ∀ c ∈ p.2, ¬ ∃ q ∈ S, q.1 = c

instance (chains : List (String × List String)) : Decidable (Acyclic chains) := by
  unfold Acyclic
  infer_instance

/-- The successive layers emitted by the `while chains` loop: each layer is
the lexicographically sorted set of simultaneously unblocked chains. -/
inductive ChainLayers : List (String × List String) → List (List String) → Prop where
  | nil : ChainLayers [] []
  | step : ∀ chains layers, chains ≠ [] → unblockedChains chains ≠ [] →
      ChainLayers
        (chains.filter (fun p => ! (unblockedChains chains).contains p.1)) layers →
      ChainLayers chains
        (List.insertionSort (· ≤ ·) (unblockedChains chains) :: layers)

/-- The `chains` dict built by the first loop of
`_computeSortedCollections`: `{record.name: list(record.children)}` for the
CHAINED records. -/
def collChains (values : List CollectionRecord) : List (String × List String) :=
  values.filterMap
    (fun r => if r.type = .CHAINED then some (r.name, r.children) else none)

/-- The `result` list built by the first loop of
`_computeSortedCollections`: the names of the non-CHAINED records. -/
def collNonchained (values : List CollectionRecord) : List String :=
  values.filterMap
    (fun r => if r.type = .CHAINED then none else some r.name)

/-- `RepoExportContext._computeSortedCollections`: the non-CHAINED
collections sorted lexicographically, followed by the topologically ordered
chains. -/
def computeSortedCollections (colls : List (String × CollectionRecord)) :
    Except ExpError (List String) :=
  let values := colls.map (fun p => p.2)
  match chainLoop (collChains values) with
  | .error e => .error e
  | .ok rest => .ok (List.insertionSort (· ≤ ·) (collNonchained values) ++ rest)

/-! ### Association closure (`_computeDatasetAssociations`) -/

/-- `Registry.queryDatasetAssociations(datasetType, collections=...,
collectionTypes=..., flattenChains=False)`: filter the catalog's
association rows by dataset type name, exported collection name, and the
collection's type; chains are not followed. -/
def queryDatasetAssociations (cat : Catalog) (dt : ExpDatasetType)
    (collections : List String) (types : List CollectionType) :
    List DatasetAssociation :=
  cat.associations.filter
    (fun a =>
      decide (a.datasetTypeName = dt.name) && decide (a.collection ∈ collections) &&
      (match cat.findCollection a.collection with
       | some r => decide (r.type ∈ types)
       | none => false))

/-- `results[association.collection].append(association)` on the
`defaultdict(list)`. -/
def appendGroup (gs : List (String × List DatasetAssociation)) (k : String)
    (a : DatasetAssociation) : List (String × List DatasetAssociation) :=
  match lookupA gs k with
  | none => gs ++ [(k, [a])]
  | some l => setA gs k (l ++ [a])

/-- `RepoExportContext._computeDatasetAssociations`: for each exported
dataset type, query the TAGGED (and, for calibration types, CALIBRATION)
associations restricted to the exported collections, and keep those whose
dataset id was exported. -/
def computeDatasetAssociations (cat : Catalog) (st : ExpState) :
    List (String × List DatasetAssociation) :=
  (st.datasets.map (fun p => p.1)).foldl
    (fun groups dt =>
      let types :=
        if dt.isCalibration then [CollectionType.TAGGED, CollectionType.CALIBRATION]
        else [CollectionType.TAGGED]
      (queryDatasetAssociations cat dt (st.collections.map (fun p => p.1)) types).foldl
        (fun gs a =>
          if a.refId ∈ st.dataset_ids then appendGroup gs a.collection a else gs)
        groups)
    []

/-! ### `_finish`: ordered emission to the backend -/

/-- One call on the `RepoExportBackend`, in emission order. -/
inductive BackendCall where
  | saveDimensionData (element : String) (records : List DimensionRecord)
  | saveCollection (record : CollectionRecord) (doc : Option String)
  | saveDatasets (datasetType : ExpDatasetType) (run : String)
      (files : List FileDataset)
  | saveDatasetAssociations (collection : String)
      (collectionType : CollectionType) (associations : List DatasetAssociation)
  | finish
deriving DecidableEq

/-- The structural invariant of the `_records` store: at most one record per
`(element, dataId)` key. -/
def storeKeyUnique (store : List DimensionRecord) : Prop :=
  ∀ r ∈ store, ∀ s ∈ store,
    r.definition = s.definition → r.dataId = s.dataId → r = s

instance (store : List DimensionRecord) : Decidable (storeKeyUnique store) := by
  unfold storeKeyUnique
  infer_instance

/-- `[r[dataId] for dataId in sorted(r.keys())]` for one element of
`_records`. -/
def elementRecords (st : ExpState) (e : String) : List DimensionRecord :=
  (List.insertionSort (· ≤ ·)
    ((st.records.filter (fun r => decide (r.definition = e))).map
      (fun r => r.dataId))).filterMap
    (fun d => storeFind st.records e d)

/-- The run-resolution loop at the top of `_finish`: every run owning an
exported dataset is looked up and added to `_collections`. -/
def resolveRuns (cat : Catalog) (colls : List (String × CollectionRecord))
    (ds : List (ExpDatasetType × List (String × List FileDataset))) :
    Except ExpError (List (String × CollectionRecord)) :=
  ds.foldlM
    (fun cs byType =>
      byType.2.foldlM
        (fun cs byRun =>
          match cat.findCollection byRun.1 with
          | none => .error (.missingCollection byRun.1)
          | some r => .ok (setA cs byRun.1 r))
        cs)
    colls

/-- An emission loop: produce one backend call per item, propagating the
first error. -/
def emitEach {α : Type} (f : α → Except ExpError BackendCall) :
    List α → Except ExpError (List BackendCall)
  | [] => .ok []
  | x :: xs =>
    match f x with
    | .error e => .error e
    | .ok c =>
      match emitEach f xs with
      | .error e => .error e
      | .ok cs => .ok (c :: cs)

/-- The collection-phase loop body of `_finish`:
`backend.saveCollection(self._collections[name], doc)`. -/
def emitCollection (cat : Catalog) (colls : List (String × CollectionRecord))
    (n : String) : Except ExpError BackendCall :=
  match lookupA colls n with
  | some r => .ok (BackendCall.saveCollection r (cat.collectionDoc n))
  | none => .error .internal

/-- The association-phase loop body of `_finish`:
`backend.saveDatasetAssociations(c, self._collections[c].type, sorted(...))`. -/
def emitAssociation (colls : List (String × CollectionRecord))
    (assocGroups : List (String × List DatasetAssociation)) (c : String) :
    Except ExpError BackendCall :=
  match lookupA colls c with
  | some r =>
    .ok (BackendCall.saveDatasetAssociations c r.type
      (List.insertionSort daLe ((lookupA assocGroups c).getD [])))
  | none => .error .internal

/-- The dataset phase of `_finish`: dataset types sorted, runs sorted within
a type, the `FileDataset` list itself sorted. -/
def datasetCalls (st : ExpState) : List BackendCall :=
  ((List.insertionSort dtLe (st.datasets.map (fun p => p.1))).map
    (fun t =>
      (List.insertionSort (· ≤ ·) (((lookupA st.datasets t).getD []).map
          (fun p => p.1))).map
        (fun run =>
          BackendCall.saveDatasets t run
            (List.insertionSort fdLe
              ((lookupA ((lookupA st.datasets t).getD []) run).getD []))))).flatten

/-- `RepoExportContext._finish`: the full ordered sequence of backend calls
computed from the accumulated state. -/
def finishExport (cat : Catalog) (st : ExpState) :
    Except ExpError (List BackendCall) := do
  let elementKeys :=
    cat.elements.filter (fun e => st.records.any (fun r => decide (r.definition = e)))
  let dimCalls := elementKeys.map
    (fun e => BackendCall.saveDimensionData e (elementRecords st e))
  let colls ← resolveRuns cat st.collections st.datasets
  let order ← computeSortedCollections colls
  let collCalls ← emitEach (emitCollection cat colls) order
  let dsCalls := datasetCalls st
  let assocGroups := computeDatasetAssociations cat { st with collections := colls }
  let assocCalls ←
    emitEach (emitAssociation colls assocGroups)
      (List.insertionSort (· ≤ ·) (assocGroups.map (fun p => p.1)))
  return dimCalls ++ collCalls ++ dsCalls ++ assocCalls ++ [BackendCall.finish]

/-! ### Export sessions -/

/-- One public API call on a `RepoExportContext`, at the default optional
arguments. -/
inductive Call where
  | saveCollection (name : String)
  | saveDimensionData (element : String) (records : List DimensionRecord)
  | saveDataIds (dataIds : List Nat)
  | saveDatasets (refs : List DatasetRef)
deriving DecidableEq

def runCall (cat : Catalog) (st : ExpState) : Call → Except ExpError ExpState
  | .saveCollection n => saveCollection cat st n
  | .saveDimensionData e rs => saveDimensionData cat st e rs
  | .saveDataIds ds => .ok (saveDataIds cat st ds none)
  | .saveDatasets rs => .ok (saveDatasets cat st rs none)

/-- Run a whole accumulation session from the fresh state of
`RepoExportContext.__init__`. -/
def runSession (cat : Catalog) (calls : List Call) : Except ExpError ExpState :=
  calls.foldlM (runCall cat) emptyExpState

/-! ### Accumulated inputs of a session (for the determinism claim) -/

/-- The collection names a session explicitly saves. -/
def savedCollNames : List Call → List String
  | [] => []
  | .saveCollection n :: rest => n :: savedCollNames rest
  | _ :: rest => savedCollNames rest

/-- The dimension records a session explicitly saves. -/
def savedRecords : List Call → List DimensionRecord
  | [] => []
  | .saveDimensionData _ rs :: rest => rs ++ savedRecords rest
  | _ :: rest => savedRecords rest

/-- The dataset refs a session saves. -/
def savedRefs : List Call → List DatasetRef
  | [] => []
  | .saveDatasets rs :: rest => rs ++ savedRefs rest
  | _ :: rest => savedRefs rest

/-- The data IDs a session accumulates: explicit `saveDataIds` arguments and
the data IDs of saved refs. -/
def savedDataIds : List Call → List Nat
  | [] => []
  | .saveDataIds ds :: rest => ds ++ savedDataIds rest
  | .saveDatasets rs :: rest => rs.map (fun r => r.dataId) ++ savedDataIds rest
  | _ :: rest => savedDataIds rest

/-- The records `saveDataIds` feeds for a data ID at the default element
selection: the non-`None` expansion records whose element has a table and is
not a view. -/
def expandedRecords (cat : Catalog) (d : Nat) : List DimensionRecord :=
  ((cat.expand d).filterMap id).filter
    (fun q => decide (q.definition ∈ selectedElements cat none))

/-- Every record a session can feed into the `_records` store. -/
def sessionRecords (cat : Catalog) (calls : List Call) : List DimensionRecord :=
  savedRecords calls ++ ((savedDataIds calls).map (expandedRecords cat)).flatten

/-- Two lists holding the same set of elements. -/
def sameSet {α : Type} (a b : List α) : Prop :=
  (∀ x ∈ a, x ∈ b) ∧ (∀ x ∈ b, x ∈ a)

/-- Distinct refs never share an id (the catalog-consistency assumption of
the determinism claim: `DatasetRef.id` is globally unique). -/
def idInjective (refs : List DatasetRef) : Prop :=
  ∀ r ∈ refs, ∀ s ∈ refs, r.id = s.id → r = s

/-- The file list filed under `(datasetType, run)`. -/
def dsFiles (ds : List (ExpDatasetType × List (String × List FileDataset)))
    (t : ExpDatasetType) (run : String) : List FileDataset :=
  (lookupA ((lookupA ds t).getD []) run).getD []

/-! ### Concrete inputs for the claims about `saveDataIds` and cycles -/

/-- A one-element catalog: data ID `5` expands to the single `visit` record
`⟨visit, 5, 0⟩`; `visit` has a table and is not a view. -/
def c2Catalog : Catalog where
  elements := ["visit"]
  hasTable := fun _ => true
  viewOf := fun _ => none
  findCollection := fun _ => none
  collectionDoc := fun _ => none
  expand := fun d => if d = 5 then [some ⟨"visit", 5, 0⟩] else []
  datastoreExport := fun r => ⟨"path", r.id⟩
  associations := []

end Butler

namespace Butler

/-- **C2** (code bug).  The claim (and the method's own docstring) says that
`saveDataIds(dataIds, elements=E)` with an explicit non-empty `E` feeds the
record of every selected element of each expanded data ID into the dedup
store.  The source instead rebinds `elements` to a fresh empty set and
iterates that, so the element filter is always empty and nothing at all is
stored: with data ID `5` expanding to a `visit` record and
`elements=["visit"]`, no record is saved, while the very same call with the
default `elements=None` does save the `visit` record. -/
theorem c2_explicit_elements_select_nothing :
    (saveDataIds c2Catalog emptyExpState [5] (some ["visit"])).records = [] ∧
    selectedElements c2Catalog (some ["visit"]) = [] ∧
    (saveDataIds c2Catalog emptyExpState [5] none).records =
      [⟨"visit", 5, 0⟩] := by
  refine ⟨rfl, rfl, ?_⟩
  decide

/-- **C4** (code bug).  On the two-cycle `A → B`, `B → A` the source does
fail fatally with a `RuntimeError`, as the claim says, but the message
interpolates the `unblocked` variable — which is empty at the raise point —
so the error names the empty set instead of the offending subset
`{A, B}`. -/
theorem c4_cycle_error_names_empty_set :
    computeSortedCollections
        [("A", ⟨"A", .CHAINED, ["B"]⟩), ("B", ⟨"B", .CHAINED, ["A"]⟩)] =
      .error (.chainCycle []) := by
  rw [computeSortedCollections]
  rw [chainLoop]
  simp [unblockedChains, unbPred, collChains]

/-! ### Correctness of the chain-resolution order (claim C3) -/

theorem any_congr_local {α : Type} {l : List α} {p q : α → Bool}
    (h : ∀ x ∈ l, p x = q x) : l.any p = l.any q := by
  induction l with
  | nil => rfl
  | cons x xs ih =>
    simp only [List.any_cons]
    rw [h x (List.mem_cons_self x xs), ih (fun y hy => h y (List.mem_cons_of_mem x hy))]

theorem any_eq_of_perm {α : Type} {l₁ l₂ : List α} (h : l₁.Perm l₂)
    (p : α → Bool) : l₁.any p = l₂.any p := by
  cases h1 : l₁.any p
  · cases h2 : l₂.any p
    · rfl
    · obtain ⟨x, hx, hp⟩ := List.any_eq_true.mp h2
      have h3 := List.any_eq_true.mpr ⟨x, h.mem_iff.mpr hx, hp⟩
      exact h1 ▸ h3
  · obtain ⟨x, hx, hp⟩ := List.any_eq_true.mp h1
    exact (List.any_eq_true.mpr ⟨x, h.mem_iff.mp hx, hp⟩).symm

theorem unbPred_congr_of_perm {c₁ c₂ : List (String × List String)}
    (h : c₁.Perm c₂) (p : String × List String) :
    unbPred c₁ p = unbPred c₂ p := by
  simp only [unbPred]
  congr 1
  exact any_congr_local (fun c _ => any_eq_of_perm h _)

theorem acyclic_sublist {c₁ c₂ : List (String × List String)}
    (hsub : c₁.Sublist c₂) (ha : Acyclic c₂) : Acyclic c₁ := by
  intro S hS hne
  exact ha S (List.mem_sublists.mpr ((List.mem_sublists.mp hS).trans hsub)) hne

/-- The unblocked-filter predicate, stated propositionally. -/
theorem unbPred_eq_true_iff (chains : List (String × List String))
    (p : String × List String) :
    unbPred chains p = true ↔ ∀ c ∈ p.2, ¬ ∃ q ∈ chains, q.1 = c := by
  simp only [unbPred, Bool.not_eq_true', List.any_eq_false, decide_eq_true_eq]
  constructor
  · intro h c hc hq
    obtain ⟨q, hq1, hq2⟩ := hq
    exact absurd (List.any_eq_true.mpr ⟨q, hq1, decide_eq_true_eq.mpr hq2⟩) (h c hc)
  · intro h c hc hany
    obtain ⟨q, hq, hdec⟩ := List.any_eq_true.mp hany
    exact h c hc ⟨q, hq, decide_eq_true_eq.mp hdec⟩

/-- Progress: a nonempty acyclic pending set always has an unblocked
member. -/
theorem unblocked_ne_nil {chains : List (String × List String)}
    (hne : chains ≠ []) (ha : Acyclic chains) : unblockedChains chains ≠ [] := by
  obtain ⟨p, hp, hpc⟩ := ha chains (List.mem_sublists.mpr (List.Sublist.refl _)) hne
  have hpred : unbPred chains p = true := (unbPred_eq_true_iff chains p).mpr hpc
  have : p.1 ∈ unblockedChains chains :=
    List.mem_map.mpr ⟨p, List.mem_filter.mpr ⟨hp, hpred⟩, rfl⟩
  exact List.ne_nil_of_mem this

/-- With nodup names, membership of a pending chain's name in the unblocked
set coincides with the chain itself passing the unblocked filter. -/
theorem contains_unblocked_eq {chains : List (String × List String)}
    (hn : (chains.map (fun p => p.1)).Nodup)
    {p : String × List String} (hp : p ∈ chains) :
    (unblockedChains chains).contains p.1 = unbPred chains p := by
  cases hq : unbPred chains p
  · cases hc : (unblockedChains chains).contains p.1
    · rfl
    · obtain ⟨x, hx, he⟩ := List.contains_iff_exists_mem_beq.mp hc
      obtain ⟨q, hqf, hqe⟩ := List.mem_map.mp hx
      have hqc : q ∈ chains := List.mem_of_mem_filter hqf
      have hqp : q = p :=
        List.inj_on_of_nodup_map hn hqc hp (by rw [hqe]; exact (beq_iff_eq.mp he).symm)
      have hq2 : unbPred chains p = true := by
        rw [← hqp]
        exact (List.mem_filter.mp hqf).2
      exact absurd hq2 (by rw [hq]; exact Bool.false_ne_true)
  · apply List.contains_iff_exists_mem_beq.mpr
    exact ⟨p.1, List.mem_map.mpr ⟨p, List.mem_filter.mpr ⟨hp, hq⟩, rfl⟩, by simp⟩

/-- Under nodup names the recursive filter of `chainLoop` is the complement
of the unblocked filter. -/
theorem pending_filter_eq {chains : List (String × List String)}
    (hn : (chains.map (fun p => p.1)).Nodup) :
    chains.filter (fun p => ! (unblockedChains chains).contains p.1)
      = chains.filter (fun p => ! unbPred chains p) :=
  List.filter_congr (fun p hp => by rw [contains_unblocked_eq hn hp])

/-- The recursive call of `chainLoop` strictly shrinks the pending set. -/
theorem pending_length_lt {chains : List (String × List String)}
    (hu : unblockedChains chains ≠ []) :
    (chains.filter (fun p => ! (unblockedChains chains).contains p.1)).length
      < chains.length := by
  apply length_filter_lt_of_exists
  obtain ⟨u, hu2⟩ := List.exists_mem_of_ne_nil _ hu
  obtain ⟨p, hp, hp2⟩ := List.mem_map.mp hu2
  refine ⟨p, List.mem_of_mem_filter hp, ?_⟩
  simp
  exact hp2 ▸ hu2

/-- Every successful run of the `while chains` loop is a concatenation of
layers, each layer the lexicographically sorted simultaneously-unblocked
set. -/
theorem chainLoop_layers :
    ∀ (n : Nat) (chains : List (String × List String)), chains.length ≤ n →
      ∀ out, chainLoop chains = .ok out →
      ∃ layers, ChainLayers chains layers ∧ out = layers.flatten := by
  intro n
  induction n with
  | zero =>
    intro chains hlen out hout
    have hnil : chains = [] := List.eq_nil_of_length_eq_zero (Nat.le_zero.mp hlen)
    subst hnil
    rw [chainLoop] at hout
    simp at hout
    subst hout
    exact ⟨[], .nil, rfl⟩
  | succ n ih =>
    intro chains hlen out hout
    by_cases hne : chains = []
    · subst hne
      rw [chainLoop] at hout
      simp at hout
      subst hout
      exact ⟨[], .nil, rfl⟩
    · rw [chainLoop, if_neg hne] at hout
      by_cases hu : unblockedChains chains = []
      · rw [dif_pos hu] at hout
        exact absurd hout (by simp)
      · rw [dif_neg hu] at hout
        cases hrec :
            chainLoop (chains.filter (fun p => ! (unblockedChains chains).contains p.1)) with
        | error e => rw [hrec] at hout; exact absurd hout (by simp)
        | ok rest =>
          rw [hrec] at hout
          simp only [Except.ok.injEq] at hout
          have hlenp :
              (chains.filter (fun p => ! (unblockedChains chains).contains p.1)).length ≤ n := by
            have := pending_length_lt hu
            omega
          obtain ⟨layers, hcl, hfl⟩ := ih _ hlenp rest hrec
          refine ⟨List.insertionSort (· ≤ ·) (unblockedChains chains) :: layers,
            ChainLayers.step chains layers hne hu hcl, ?_⟩
          rw [← hout, List.flatten_cons, hfl]

/-- `chainLoop` depends only on the pending chains as a set: permuted
inputs give identical output. -/
theorem chainLoop_perm_invariant :
    ∀ (n : Nat) (c₁ c₂ : List (String × List String)), c₁.length ≤ n →
      c₁.Perm c₂ → chainLoop c₁ = chainLoop c₂ := by
  intro n
  induction n with
  | zero =>
    intro c₁ c₂ hlen h
    have h1 : c₁ = [] := List.eq_nil_of_length_eq_zero (Nat.le_zero.mp hlen)
    subst h1
    rw [h.symm.eq_nil]
  | succ n ih =>
    intro c₁ c₂ hlen h
    by_cases hne : c₁ = []
    · subst hne
      rw [h.symm.eq_nil]
    · have hne2 : c₂ ≠ [] := by
        intro h2
        exact hne (h.trans (h2 ▸ List.Perm.refl _)).eq_nil
      have hub : (unblockedChains c₁).Perm (unblockedChains c₂) := by
        have heq : c₁.filter (unbPred c₁) = c₁.filter (unbPred c₂) :=
          List.filter_congr (fun p _ => unbPred_congr_of_perm h p)
        unfold unblockedChains
        rw [heq]
        exact (h.filter _).map _
      by_cases hu1 : unblockedChains c₁ = []
      · have hu2 : unblockedChains c₂ = [] := (hu1 ▸ hub).symm.eq_nil
        rw [chainLoop, if_neg hne, dif_pos hu1, hu1]
        conv_rhs => rw [chainLoop]
        rw [if_neg hne2, dif_pos hu2, hu2]
      · have hu2 : unblockedChains c₂ ≠ [] := by
          intro h2
          exact hu1 (hub.trans (h2 ▸ List.Perm.refl _)).eq_nil
        have hconts : ∀ x : String,
            (unblockedChains c₁).contains x = (unblockedChains c₂).contains x := by
          intro x
          rw [List.contains_eq_any_beq, List.contains_eq_any_beq]
          exact any_eq_of_perm hub _
        have hpendperm :
            (c₁.filter (fun p => ! (unblockedChains c₁).contains p.1)).Perm
              (c₂.filter (fun p => ! (unblockedChains c₂).contains p.1)) := by
          have heq : c₁.filter (fun p => ! (unblockedChains c₁).contains p.1)
              = c₁.filter (fun p => ! (unblockedChains c₂).contains p.1) :=
            List.filter_congr (fun p _ => by rw [hconts])
          rw [heq]
          exact h.filter _
        have hsorteq : List.insertionSort (· ≤ ·) (unblockedChains c₁)
            = List.insertionSort (· ≤ ·) (unblockedChains c₂) := by
          refine List.eq_of_perm_of_sorted ?_ (List.sorted_insertionSort _ _)
            (List.sorted_insertionSort _ _)
          exact (List.perm_insertionSort _ _).trans
            (hub.trans (List.perm_insertionSort _ _).symm)
        have hlenp : (c₁.filter (fun p => ! (unblockedChains c₁).contains p.1)).length ≤ n := by
          have := pending_length_lt hu1
          omega
        have hrec := ih _ _ hlenp hpendperm
        rw [chainLoop, if_neg hne, dif_neg hu1]
        conv_rhs => rw [chainLoop]
        rw [if_neg hne2, dif_neg hu2, hrec, hsorteq]

/-- The `while chains` loop succeeds on acyclic inputs, returns a
permutation of the pending names, and places every chain after each of its
children that is itself a pending chain. -/
theorem chainLoop_ok :
    ∀ (n : Nat) (chains : List (String × List String)), chains.length ≤ n →
      (chains.map (fun p => p.1)).Nodup → Acyclic chains →
      ∃ out, chainLoop chains = .ok out ∧
        out.Perm (chains.map (fun p => p.1)) ∧
        ∀ p ∈ chains, ∀ c ∈ p.2, (∃ q ∈ chains, q.1 = c) →
          ∃ xs ys, out = xs ++ c :: ys ∧ p.1 ∈ ys := by
  intro n
  induction n with
  | zero =>
    intro chains hlen _ _
    have hnil : chains = [] := List.eq_nil_of_length_eq_zero (Nat.le_zero.mp hlen)
    subst hnil
    exact ⟨[], by rw [chainLoop]; simp, by simp, by simp⟩
  | succ n ih =>
    intro chains hlen hn ha
    by_cases hne : chains = []
    · subst hne
      exact ⟨[], by rw [chainLoop]; simp, by simp, by simp⟩
    · have hu : unblockedChains chains ≠ [] := unblocked_ne_nil hne ha
      have hfeq := pending_filter_eq hn
      set pend := chains.filter (fun p => ! unbPred chains p) with hpdef
      have hsubl : pend.Sublist chains := List.filter_sublist chains
      have hlenlt : pend.length < chains.length := by
        apply length_filter_lt_of_exists
        obtain ⟨u, hu2⟩ := List.exists_mem_of_ne_nil _ hu
        obtain ⟨p, hpf, hpe⟩ := List.mem_map.mp hu2
        exact ⟨p, List.mem_of_mem_filter hpf, by simp [(List.mem_filter.mp hpf).2]⟩
      have hlenp : pend.length ≤ n := by omega
      have hnp : (pend.map (fun p => p.1)).Nodup :=
        List.Nodup.sublist (hsubl.map _) hn
      have hap : Acyclic pend := acyclic_sublist hsubl ha
      obtain ⟨rest, hrest, hperm, horder⟩ := ih pend hlenp hnp hap
      refine ⟨List.insertionSort (· ≤ ·) (unblockedChains chains) ++ rest, ?_, ?_, ?_⟩
      · rw [chainLoop, if_neg hne, dif_neg hu, hfeq, hrest]
      · have h1 : (List.insertionSort (· ≤ ·) (unblockedChains chains)).Perm
            (unblockedChains chains) := List.perm_insertionSort _ _
        have h2 : (List.insertionSort (· ≤ ·) (unblockedChains chains) ++ rest).Perm
            (unblockedChains chains ++ pend.map (fun p => p.1)) := h1.append hperm
        apply h2.trans
        have h3 : unblockedChains chains ++ pend.map (fun p => p.1)
            = ((chains.filter (unbPred chains)) ++ pend).map (fun p => p.1) := by
          simp [unblockedChains, hpdef, List.map_append]
        rw [h3, hpdef]
        exact List.Perm.map _ (List.filter_append_perm _ _)
      · intro p hp c hc hq
        by_cases hpu : unbPred chains p = true
        · exact absurd hq ((unbPred_eq_true_iff chains p).mp hpu c hc)
        · have hppend : p ∈ pend := List.mem_filter.mpr ⟨hp, by simp [hpu]⟩
          obtain ⟨q, hqc, hqe⟩ := hq
          by_cases hqu : unbPred chains q = true
          · have hcu : c ∈ unblockedChains chains :=
              hqe ▸ List.mem_map.mpr ⟨q, List.mem_filter.mpr ⟨hqc, hqu⟩, rfl⟩
            have hcs : c ∈ List.insertionSort (· ≤ ·) (unblockedChains chains) :=
              (List.perm_insertionSort _ _).mem_iff.mpr hcu
            obtain ⟨xs, ys, hsp⟩ := List.append_of_mem hcs
            refine ⟨xs, ys ++ rest, by rw [hsp, List.append_assoc]; rfl, ?_⟩
            have hpr : p.1 ∈ rest :=
              hperm.mem_iff.mpr (List.mem_map.mpr ⟨p, hppend, rfl⟩)
            exact List.mem_append_of_mem_right _ hpr
          · have hqpend : q ∈ pend := List.mem_filter.mpr ⟨hqc, by simp [hqu]⟩
            obtain ⟨xs, ys, hre, hmem⟩ := horder p hppend c hc ⟨q, hqpend, hqe⟩
            exact ⟨List.insertionSort (· ≤ ·) (unblockedChains chains) ++ xs, ys,
              by rw [hre, ← List.append_assoc], hmem⟩

theorem collChains_map_fst (values : List CollectionRecord) :
    (collChains values).map (fun p => p.1)
      = (values.filter (fun r => decide (r.type = .CHAINED))).map
          (fun r => r.name) := by
  induction values with
  | nil => rfl
  | cons r rs ih =>
    by_cases h : r.type = .CHAINED <;>
      simpa [collChains, List.filterMap_cons, h, List.filter_cons] using ih

theorem collNonchained_eq (values : List CollectionRecord) :
    collNonchained values
      = (values.filter (fun r => ! decide (r.type = .CHAINED))).map
          (fun r => r.name) := by
  induction values with
  | nil => rfl
  | cons r rs ih =>
    by_cases h : r.type = .CHAINED <;>
      simpa [collNonchained, List.filterMap_cons, h, List.filter_cons] using ih

/-- **C3.**  For every acyclic accumulated collection set with distinct
names, `_computeSortedCollections` succeeds and returns a permutation of
exactly the accumulated collection names, whose non-CHAINED names form a
lexicographically sorted prefix; every CHAINED collection appears after
each of its children that is in the accumulated set; the CHAINED suffix is
a concatenation of lexicographically sorted layers of simultaneously
unblocked chains; and the output depends only on the accumulated set, so
permuted (in particular repeated) inputs give identical output. -/
theorem c3_computeSortedCollections_correct
    (colls : List (String × CollectionRecord))
    (hn : ((colls.map (fun p => p.2)).map (fun r => r.name)).Nodup)
    (ha : Acyclic (collChains (colls.map (fun p => p.2)))) :
    ∃ out, computeSortedCollections colls = .ok out ∧
      out.Perm ((colls.map (fun p => p.2)).map (fun r => r.name)) ∧
      (∃ pre rest, out = pre ++ rest ∧
        pre.Sorted (· ≤ ·) ∧
        (∀ x, x ∈ pre ↔
          ∃ r ∈ colls.map (fun p => p.2), ¬ r.type = .CHAINED ∧ r.name = x) ∧
        (∀ x ∈ rest,
          ∃ r ∈ colls.map (fun p => p.2), r.type = .CHAINED ∧ r.name = x) ∧
        (∃ layers, ChainLayers (collChains (colls.map (fun p => p.2))) layers ∧
          rest = layers.flatten)) ∧
      (∀ r ∈ colls.map (fun p => p.2), r.type = .CHAINED →
        ∀ c ∈ r.children, c ∈ (colls.map (fun p => p.2)).map (fun s => s.name) →
          ∃ xs ys, out = xs ++ c :: ys ∧ r.name ∈ ys) ∧
      (∀ colls2 : List (String × CollectionRecord),
        (colls2.map (fun p => p.2)).Perm (colls.map (fun p => p.2)) →
          computeSortedCollections colls2 = computeSortedCollections colls) := by
  set vals := colls.map (fun p => p.2) with hvals
  have hchainnodup : ((collChains vals).map (fun p => p.1)).Nodup := by
    rw [collChains_map_fst]
    exact List.Nodup.sublist ((List.filter_sublist vals).map _) hn
  obtain ⟨rest, hrest, hperm, horder⟩ :=
    chainLoop_ok (collChains vals).length (collChains vals) le_rfl hchainnodup ha
  obtain ⟨layers, hlayers, hflat⟩ :=
    chainLoop_layers (collChains vals).length (collChains vals) le_rfl rest hrest
  refine ⟨List.insertionSort (· ≤ ·) (collNonchained vals) ++ rest, ?_, ?_, ?_, ?_, ?_⟩
  · simp only [computeSortedCollections, ← hvals, hrest]
  · apply ((List.perm_insertionSort _ _).append hperm).trans
    rw [collNonchained_eq, collChains_map_fst, ← List.map_append]
    apply List.Perm.map
    exact (List.perm_append_comm).trans (List.filter_append_perm _ vals)
  · refine ⟨List.insertionSort (· ≤ ·) (collNonchained vals), rest, rfl,
      List.sorted_insertionSort _ _, ?_, ?_, layers, hlayers, hflat⟩
    · intro x
      rw [(List.perm_insertionSort _ _).mem_iff, collNonchained_eq]
      constructor
      · intro hx
        obtain ⟨r, hr, he⟩ := List.mem_map.mp hx
        exact ⟨r, List.mem_of_mem_filter hr,
          by simpa using (List.mem_filter.mp hr).2, he⟩
      · intro ⟨r, hr, hrt, he⟩
        exact List.mem_map.mpr ⟨r, List.mem_filter.mpr ⟨hr, by simpa using hrt⟩, he⟩
    · intro x hx
      have hx2 : x ∈ (collChains vals).map (fun p => p.1) := hperm.mem_iff.mp hx
      rw [collChains_map_fst] at hx2
      obtain ⟨r, hr, he⟩ := List.mem_map.mp hx2
      exact ⟨r, List.mem_of_mem_filter hr,
        by simpa using (List.mem_filter.mp hr).2, he⟩
  · intro r hr hrt c hc hcn
    have hpmem : (r.name, r.children) ∈ collChains vals :=
      List.mem_filterMap.mpr ⟨r, hr, by simp [hrt]⟩
    obtain ⟨s, hs, hse⟩ := List.mem_map.mp hcn
    by_cases hst : s.type = .CHAINED
    · have hqmem : (s.name, s.children) ∈ collChains vals :=
        List.mem_filterMap.mpr ⟨s, hs, by simp [hst]⟩
      obtain ⟨xs, ys, hre, hmem⟩ :=
        horder (r.name, r.children) hpmem c hc ⟨(s.name, s.children), hqmem, hse⟩
      exact ⟨List.insertionSort (· ≤ ·) (collNonchained vals) ++ xs, ys,
        by rw [hre, ← List.append_assoc], hmem⟩
    · have hcpre : c ∈ List.insertionSort (· ≤ ·) (collNonchained vals) := by
        rw [(List.perm_insertionSort _ _).mem_iff, collNonchained_eq]
        exact List.mem_map.mpr ⟨s, List.mem_filter.mpr ⟨hs, by simpa using hst⟩, hse⟩
      obtain ⟨xs, ys, hsp⟩ := List.append_of_mem hcpre
      refine ⟨xs, ys ++ rest, by rw [hsp, List.append_assoc]; rfl, ?_⟩
      have hrn : r.name ∈ rest :=
        hperm.mem_iff.mpr (List.mem_map.mpr ⟨(r.name, r.children), hpmem, rfl⟩)
      exact List.mem_append_of_mem_right _ hrn
  · intro colls2 hp2
    have hchains2 : (collChains (colls2.map (fun p => p.2))).Perm (collChains vals) :=
      hp2.filterMap _
    have hloop : chainLoop (collChains (colls2.map (fun p => p.2)))
        = chainLoop (collChains vals) :=
      chainLoop_perm_invariant (collChains (colls2.map (fun p => p.2))).length _ _
        le_rfl hchains2
    have hsorteq : List.insertionSort (· ≤ ·) (collNonchained (colls2.map (fun p => p.2)))
        = List.insertionSort (· ≤ ·) (collNonchained vals) := by
      refine List.eq_of_perm_of_sorted ?_ (List.sorted_insertionSort _ _)
        (List.sorted_insertionSort _ _)
      exact (List.perm_insertionSort _ _).trans
        ((hp2.filterMap _).trans (List.perm_insertionSort _ _).symm)
    simp only [computeSortedCollections, ← hvals, hloop, hsorteq]

/-! ### Association-closure characterization (claim C8) -/

theorem lookupA_cons {α β : Type} [DecidableEq α] (p : α × β) (l : List (α × β))
    (k : α) : lookupA (p :: l) k = if p.1 = k then some p.2 else lookupA l k := by
  by_cases h : p.1 = k <;> simp [lookupA, List.find?_cons, h]

theorem lookupA_append {α β : Type} [DecidableEq α] (l₁ l₂ : List (α × β)) (k : α) :
    lookupA (l₁ ++ l₂) k =
      match lookupA l₁ k with
      | some v => some v
      | none => lookupA l₂ k := by
  induction l₁ with
  | nil => simp [lookupA]
  | cons p l ih =>
    rw [List.cons_append, lookupA_cons, lookupA_cons]
    by_cases h : p.1 = k
    · simp [h]
    · simp only [if_neg h]
      exact ih

theorem lookupA_eq_none_of_not_mem {α β : Type} [DecidableEq α]
    (l : List (α × β)) (k : α) (h : ∀ p ∈ l, ¬ p.1 = k) : lookupA l k = none := by
  unfold lookupA
  rw [List.find?_eq_none.mpr]
  · rfl
  · intro p hp
    simpa using h p hp

theorem lookupA_map_ne {α β : Type} [DecidableEq α] (l : List (α × β)) (k : α)
    (v : β) (c : α) (hc : ¬ c = k) :
    lookupA (l.map (fun p => if p.1 = k then (k, v) else p)) c = lookupA l c := by
  induction l with
  | nil => rfl
  | cons p l ih =>
    rw [List.map_cons, lookupA_cons]
    by_cases hp : p.1 = k
    · rw [if_pos hp, lookupA_cons]
      rw [if_neg (show ¬ (k, v).1 = c from fun he => hc he.symm)]
      rw [if_neg (show ¬ p.1 = c from fun he => hc (hp.symm.trans he).symm)]
      exact ih
    · rw [if_neg hp, lookupA_cons]
      by_cases hpc : p.1 = c
      · rw [if_pos hpc, if_pos hpc]
      · rw [if_neg hpc, if_neg hpc]
        exact ih

theorem lookupA_map_overwrite_eq {α β : Type} [DecidableEq α]
    (l : List (α × β)) (k : α) (v : β) (h : ∃ p ∈ l, p.1 = k) :
    lookupA (l.map (fun p => if p.1 = k then (k, v) else p)) k = some v := by
  induction l with
  | nil => simp at h
  | cons p l ih =>
    rw [List.map_cons, lookupA_cons]
    by_cases hp : p.1 = k
    · rw [if_pos hp]
      simp
    · rw [if_neg hp, if_neg hp]
      apply ih
      obtain ⟨q, hq, hqe⟩ := h
      rcases List.mem_cons.mp hq with rfl | hq2
      · exact absurd hqe hp
      · exact ⟨q, hq2, hqe⟩

theorem lookupA_setA {α β : Type} [DecidableEq α]
    (l : List (α × β)) (k : α) (v : β) (c : α) :
    lookupA (setA l k v) c = if c = k then some v else lookupA l c := by
  unfold setA
  by_cases hg : l.any (fun p => decide (p.1 = k))
  · rw [if_pos hg]
    obtain ⟨p, hp, hpe⟩ := List.any_eq_true.mp hg
    by_cases hc : c = k
    · subst hc
      rw [if_pos rfl]
      exact lookupA_map_overwrite_eq l c v ⟨p, hp, decide_eq_true_eq.mp hpe⟩
    · rw [if_neg hc]
      exact lookupA_map_ne l k v c hc
  · rw [if_neg hg, lookupA_append]
    by_cases hc : c = k
    · subst hc
      have hnone : lookupA l c = none := by
        apply lookupA_eq_none_of_not_mem
        intro p hp he
        exact hg (List.any_eq_true.mpr ⟨p, hp, decide_eq_true_eq.mpr he⟩)
      rw [hnone, if_pos rfl]
      rw [lookupA_cons]
      simp
    · rw [if_neg hc]
      cases hl : lookupA l c with
      | some w => rfl
      | none =>
        rw [lookupA_cons]
        rw [if_neg (show ¬ (k, v).1 = c from fun he => hc he.symm)]
        rfl

theorem lookupA_appendGroup (gs : List (String × List DatasetAssociation))
    (k : String) (x : DatasetAssociation) (c : String) :
    lookupA (appendGroup gs k x) c =
      if c = k then some (((lookupA gs k).getD []) ++ [x]) else lookupA gs c := by
  unfold appendGroup
  cases hk : lookupA gs k with
  | none =>
    rw [lookupA_append]
    by_cases hc : c = k
    · subst hc
      rw [hk, if_pos rfl]
      rw [show ((Option.none : Option (List DatasetAssociation)).getD []) = [] from rfl]
      rw [lookupA_cons]
      simp
    · rw [if_neg hc]
      cases hl : lookupA gs c with
      | some w => rfl
      | none =>
        rw [lookupA_cons]
        rw [if_neg (show ¬ (k, [x]).1 = c from fun he => hc he.symm)]
        rfl
  | some l0 =>
    rw [lookupA_setA]
    by_cases hc : c = k
    · subst hc
      rw [if_pos rfl, if_pos rfl]
      simp
    · rw [if_neg hc, if_neg hc]

/-- Membership of an association under a collection key in the grouped
`results` dict of `_computeDatasetAssociations`. -/
def inGroups (gs : List (String × List DatasetAssociation)) (c : String)
    (a : DatasetAssociation) : Prop :=
  ∃ l, lookupA gs c = some l ∧ a ∈ l

theorem inGroups_appendGroup (gs : List (String × List DatasetAssociation))
    (k : String) (x : DatasetAssociation) (c : String) (a : DatasetAssociation) :
    inGroups (appendGroup gs k x) c a ↔ inGroups gs c a ∨ (c = k ∧ a = x) := by
  unfold inGroups
  rw [lookupA_appendGroup]
  by_cases hc : c = k
  · subst hc
    rw [if_pos rfl]
    cases hk : lookupA gs c with
    | none => simp
    | some l0 => simp [List.mem_append]
  · rw [if_neg hc]
    simp [hc]

theorem inGroups_foldRows (ids : List Nat) (rows : List DatasetAssociation) :
    ∀ (gs : List (String × List DatasetAssociation)) (c : String)
      (a : DatasetAssociation),
    inGroups (rows.foldl
        (fun gs r => if r.refId ∈ ids then appendGroup gs r.collection r else gs)
        gs) c a
      ↔ inGroups gs c a ∨ (a ∈ rows ∧ a.refId ∈ ids ∧ c = a.collection) := by
  induction rows with
  | nil =>
    intro gs c a
    simp
  | cons r rs ih =>
    intro gs c a
    rw [List.foldl_cons]
    by_cases hr : r.refId ∈ ids
    · rw [if_pos hr, ih, inGroups_appendGroup]
      constructor
      · rintro ((h | ⟨hc, rfl⟩) | ⟨hm, hi, hc⟩)
        · exact .inl h
        · exact .inr ⟨List.mem_cons_self _ _, hr, hc⟩
        · exact .inr ⟨List.mem_cons_of_mem _ hm, hi, hc⟩
      · rintro (h | ⟨hm, hi, hc⟩)
        · exact .inl (.inl h)
        · rcases List.mem_cons.mp hm with rfl | hm2
          · exact .inl (.inr ⟨hc, rfl⟩)
          · exact .inr ⟨hm2, hi, hc⟩
    · rw [if_neg hr, ih]
      constructor
      · rintro (h | ⟨hm, hi, hc⟩)
        · exact .inl h
        · exact .inr ⟨List.mem_cons_of_mem _ hm, hi, hc⟩
      · rintro (h | ⟨hm, hi, hc⟩)
        · exact .inl h
        · rcases List.mem_cons.mp hm with rfl | hm2
          · exact absurd hi hr
          · exact .inr ⟨hm2, hi, hc⟩

theorem inGroups_foldTypes (cat : Catalog) (st : ExpState)
    (dts : List ExpDatasetType) :
    ∀ (gs : List (String × List DatasetAssociation)) (c : String)
      (a : DatasetAssociation),
    inGroups (dts.foldl
        (fun groups dt =>
          (queryDatasetAssociations cat dt (st.collections.map (fun p => p.1))
              (if dt.isCalibration then
                [CollectionType.TAGGED, CollectionType.CALIBRATION]
              else [CollectionType.TAGGED])).foldl
            (fun gs a =>
              if a.refId ∈ st.dataset_ids then appendGroup gs a.collection a else gs)
            groups)
        gs) c a
      ↔ inGroups gs c a ∨
        ∃ dt ∈ dts,
          a ∈ queryDatasetAssociations cat dt (st.collections.map (fun p => p.1))
              (if dt.isCalibration then
                [CollectionType.TAGGED, CollectionType.CALIBRATION]
              else [CollectionType.TAGGED]) ∧
          a.refId ∈ st.dataset_ids ∧ c = a.collection := by
  induction dts with
  | nil =>
    intro gs c a
    simp
  | cons dt dts ih =>
    intro gs c a
    rw [List.foldl_cons, ih, inGroups_foldRows]
    constructor
    · rintro ((h | ⟨hq, hi, hc⟩) | ⟨d, hd, hq, hi, hc⟩)
      · exact .inl h
      · exact .inr ⟨dt, List.mem_cons_self _ _, hq, hi, hc⟩
      · exact .inr ⟨d, List.mem_cons_of_mem _ hd, hq, hi, hc⟩
    · rintro (h | ⟨d, hd, hq, hi, hc⟩)
      · exact .inl (.inl h)
      · rcases List.mem_cons.mp hd with rfl | hd2
        · exact .inl (.inr ⟨hq, hi, hc⟩)
        · exact .inr ⟨d, hd2, hq, hi, hc⟩

theorem mem_queryDatasetAssociations (cat : Catalog) (dt : ExpDatasetType)
    (colls : List String) (types : List CollectionType) (a : DatasetAssociation) :
    a ∈ queryDatasetAssociations cat dt colls types ↔
      a ∈ cat.associations ∧ a.datasetTypeName = dt.name ∧ a.collection ∈ colls ∧
        ∃ r, cat.findCollection a.collection = some r ∧ r.type ∈ types := by
  unfold queryDatasetAssociations
  rw [List.mem_filter]
  cases hf : cat.findCollection a.collection with
  | none =>
    constructor
    · rintro ⟨hm, hb⟩
      simp [hf] at hb
    · rintro ⟨hm, hn, hc, r, hr, ht⟩
      exact absurd hr (by simp)
  | some r =>
    constructor
    · rintro ⟨hm, hb⟩
      simp only [hf, Bool.and_eq_true, decide_eq_true_eq] at hb
      exact ⟨hm, hb.1.1, hb.1.2, r, rfl, hb.2⟩
    · rintro ⟨hm, hn, hc, q, hq, ht⟩
      have he : r = q := by injection hq
      subst he
      exact ⟨hm, by simp [hn, hc, ht]⟩

/-- **C8.**  An association appears in the closure computed by
`_computeDatasetAssociations`, grouped under collection `c`, exactly when it
is an association row of the catalog for one of the exported dataset types,
its collection is among the exported collection names (no CHAINED
expansion is performed anywhere in the computation), that collection is
TAGGED (or CALIBRATION and the type is a calibration type), and its dataset
id is in the exported-id set.  Associations with non-exported dataset ids
are silently dropped: the computation is total and never signals an
error. -/
theorem c8_association_closure (cat : Catalog) (st : ExpState)
    (c : String) (a : DatasetAssociation) :
    inGroups (computeDatasetAssociations cat st) c a ↔
      (c = a.collection ∧ a ∈ cat.associations ∧
        a.collection ∈ st.collections.map (fun p => p.1) ∧
        a.refId ∈ st.dataset_ids ∧
        ∃ dt ∈ st.datasets.map (fun p => p.1), a.datasetTypeName = dt.name ∧
          ∃ r, cat.findCollection a.collection = some r ∧
            (r.type = .TAGGED ∨ (dt.isCalibration = true ∧ r.type = .CALIBRATION))) := by
  unfold computeDatasetAssociations
  rw [inGroups_foldTypes]
  constructor
  · rintro (h | ⟨dt, hdt, hq, hi, hc⟩)
    · exact absurd h (by simp [inGroups, lookupA])
    · rw [mem_queryDatasetAssociations] at hq
      obtain ⟨hmem, hname, hcoll, r, hr, hrt⟩ := hq
      refine ⟨hc, hmem, hcoll, hi, dt, hdt, hname, r, hr, ?_⟩
      cases hcal : dt.isCalibration <;> rw [hcal] at hrt <;> simp at hrt
      · exact .inl hrt
      · rcases hrt with h1 | h1
        · exact .inl h1
        · exact .inr ⟨rfl, h1⟩
  · rintro ⟨hc, hmem, hcoll, hi, dt, hdt, hname, r, hr, hrt⟩
    refine .inr ⟨dt, hdt, ?_, hi, hc⟩
    rw [mem_queryDatasetAssociations]
    refine ⟨hmem, hname, hcoll, r, hr, ?_⟩
    cases hcal : dt.isCalibration <;> simp
    · rcases hrt with h1 | ⟨h2, _⟩
      · exact h1
      · exact absurd h2 (by simp [hcal])
    · rcases hrt with h1 | ⟨_, h2⟩
      · exact .inl h1
      · exact .inr h2

/-! ### The phase order of `_finish` (claim C5) -/

theorem storeFind_eq_some {store : List DimensionRecord} {e : String} {d : Nat}
    {r : DimensionRecord} (h : storeFind store e d = some r) :
    r ∈ store ∧ r.definition = e ∧ r.dataId = d := by
  have hm := List.mem_of_find?_eq_some h
  have hp := List.find?_some h
  simp only [Bool.and_eq_true, decide_eq_true_eq] at hp
  exact ⟨hm, hp.1, hp.2⟩

theorem storeFind_mem {store : List DimensionRecord} {r : DimensionRecord}
    (hku : storeKeyUnique store) (hr : r ∈ store) :
    storeFind store r.definition r.dataId = some r := by
  cases hf : storeFind store r.definition r.dataId with
  | none =>
    rw [storeFind, List.find?_eq_none] at hf
    exact absurd (by simp) (hf r hr)
  | some s =>
    obtain ⟨hs, hsd, hsi⟩ := storeFind_eq_some hf
    rw [hku s hs r hr hsd hsi]

theorem elementRecords_mem {st : ExpState} (hku : storeKeyUnique st.records)
    (e : String) (r : DimensionRecord) :
    r ∈ elementRecords st e ↔ r ∈ st.records ∧ r.definition = e := by
  unfold elementRecords
  rw [List.mem_filterMap]
  constructor
  · rintro ⟨d, hd, hf⟩
    obtain ⟨hm, hdef, hdid⟩ := storeFind_eq_some hf
    exact ⟨hm, hdef⟩
  · rintro ⟨hm, hdef⟩
    refine ⟨r.dataId, ?_, by rw [← hdef]; exact storeFind_mem hku hm⟩
    rw [List.mem_insertionSort]
    exact List.mem_map.mpr ⟨r, List.mem_filter.mpr ⟨hm, by simp [hdef]⟩, rfl⟩

theorem sorted_filterMap_storeFind (store : List DimensionRecord) (e : String) :
    ∀ l : List Nat, l.Sorted (· ≤ ·) →
      (l.filterMap (fun d => storeFind store e d)).Sorted
        (fun a b => a.dataId ≤ b.dataId) := by
  intro l
  induction l with
  | nil => intro _; simp
  | cons d ds ih =>
    intro hs
    obtain ⟨hhead, htail⟩ := List.sorted_cons.mp hs
    rw [List.filterMap_cons]
    cases hf : storeFind store e d with
    | none => exact ih htail
    | some r =>
      rw [List.sorted_cons]
      refine ⟨?_, ih htail⟩
      intro b hb
      obtain ⟨d2, hd2, hf2⟩ := List.mem_filterMap.mp hb
      rw [(storeFind_eq_some hf).2.2, (storeFind_eq_some hf2).2.2]
      exact hhead d2 hd2

theorem sorted_elementRecords (st : ExpState) (e : String) :
    (elementRecords st e).Sorted (fun a b => a.dataId ≤ b.dataId) := by
  unfold elementRecords
  exact sorted_filterMap_storeFind st.records e _ (List.sorted_insertionSort _ _)

theorem dtLe_name_le {a b : ExpDatasetType} (h : dtLe a b) : a.name ≤ b.name := by
  unfold dtLe ExpDatasetType.key at h
  rcases (Prod.Lex.le_iff _ _).mp h with h1 | ⟨h1, _⟩
  · exact le_of_lt h1
  · exact le_of_eq h1

theorem emitEach_ok {α : Type} (f : α → Except ExpError BackendCall) :
    ∀ (l : List α) (out : List BackendCall), emitEach f l = .ok out →
      List.Forall₂ (fun x c => f x = .ok c) l out := by
  intro l
  induction l with
  | nil =>
    intro out h
    rw [emitEach] at h
    injection h with h
    rw [← h]
    exact .nil
  | cons x xs ih =>
    intro out h
    rw [emitEach] at h
    cases hf : f x with
    | error e =>
      rw [hf] at h
      exact absurd h (by simp)
    | ok c =>
      rw [hf] at h
      cases hrec : emitEach f xs with
      | error e =>
        rw [hrec] at h
        exact absurd h (by simp)
      | ok cs =>
        rw [hrec] at h
        injection h with h
        rw [← h]
        exact .cons hf (ih cs hrec)

theorem forall₂_mem_right {α β : Type} {R : α → β → Prop} :
    ∀ {l1 : List α} {l2 : List β}, List.Forall₂ R l1 l2 →
      ∀ b ∈ l2, ∃ a ∈ l1, R a b := by
  intro l1 l2 h
  induction h with
  | nil =>
    intro b hb
    simp at hb
  | cons hR hF ih =>
    intro b hb
    rcases List.mem_cons.mp hb with rfl | hb2
    · exact ⟨_, List.mem_cons_self _ _, hR⟩
    · obtain ⟨a, ha, hRa⟩ := ih b hb2
      exact ⟨a, List.mem_cons_of_mem _ ha, hRa⟩

/-- **C5.**  On success, `_finish` emits exactly five phases in order:
dimension records grouped by element in universe order and sorted by data-id
value within an element; then — after resolving the run of every exported
dataset into the collection set — the collections in chain-resolution order,
each paired with its stored documentation string; then datasets grouped by
dataset type (sorted by name) then run (sorted), each file list sorted; then
associations grouped by collection name (sorted), each association list
sorted; then the terminal `finish()` call. -/
theorem c5_finish_phase_order (cat : Catalog) (st : ExpState)
    (calls : List BackendCall)
    (hku : storeKeyUnique st.records)
    (hok : finishExport cat st = .ok calls) :
    ∃ collCalls assocCalls colls order,
      resolveRuns cat st.collections st.datasets = .ok colls ∧
      computeSortedCollections colls = .ok order ∧
      calls =
        (cat.elements.filter
            (fun e => st.records.any (fun r => decide (r.definition = e)))).map
          (fun e => BackendCall.saveDimensionData e (elementRecords st e))
        ++ collCalls ++ datasetCalls st ++ assocCalls ++ [BackendCall.finish] ∧
      (∀ e r, r ∈ elementRecords st e ↔ r ∈ st.records ∧ r.definition = e) ∧
      (∀ e, (elementRecords st e).Sorted (fun a b => a.dataId ≤ b.dataId)) ∧
      List.Forall₂
        (fun n call => ∃ r, lookupA colls n = some r ∧
          call = BackendCall.saveCollection r (cat.collectionDoc n)) order collCalls ∧
      ((List.insertionSort dtLe (st.datasets.map (fun p => p.1))).map
        (fun t => t.name)).Sorted (· ≤ ·) ∧
      (∀ t run files, BackendCall.saveDatasets t run files ∈ datasetCalls st →
        files.Sorted fdLe ∧
        files.Perm ((lookupA ((lookupA st.datasets t).getD []) run).getD [])) ∧
      List.Forall₂
        (fun c call => ∃ r, lookupA colls c = some r ∧
          call = BackendCall.saveDatasetAssociations c r.type
            (List.insertionSort daLe
              ((lookupA (computeDatasetAssociations cat
                  { st with collections := colls }) c).getD [])))
        (List.insertionSort (· ≤ ·)
          ((computeDatasetAssociations cat { st with collections := colls }).map
            (fun p => p.1)))
        assocCalls ∧
      (∀ c ty assocs, BackendCall.saveDatasetAssociations c ty assocs ∈ assocCalls →
        assocs.Sorted daLe) := by
  unfold finishExport at hok
  simp only [Bind.bind, Except.bind, pure, Except.pure] at hok
  split at hok
  · exact absurd hok (by simp)
  · split at hok
    · exact absurd hok (by simp)
    · split at hok
      · exact absurd hok (by simp)
      · split at hok
        · exact absurd hok (by simp)
        · injection hok with hok
          rename_i x1 colls hr x2 order hcs x3 collCalls hec x4 assocCalls hea
          refine ⟨collCalls, assocCalls, colls, order, hr, hcs, ?_, ?_, ?_, ?_, ?_, ?_, ?_, ?_⟩
          · rw [← hok]
          · exact fun e r => elementRecords_mem hku e r
          · exact fun e => sorted_elementRecords st e
          · refine (emitEach_ok _ order collCalls hec).imp ?_
            intro n call hcall
            unfold emitCollection at hcall
            cases hl : lookupA colls n with
            | none =>
              rw [hl] at hcall
              exact absurd hcall (by simp)
            | some r =>
              rw [hl] at hcall
              injection hcall with hcall
              exact ⟨r, rfl, hcall.symm⟩
          · apply List.Pairwise.map
            · exact fun a b h => dtLe_name_le h
            · exact List.sorted_insertionSort _ _
          · intro t run files hmem
            unfold datasetCalls at hmem
            obtain ⟨inner, hinner, hmem2⟩ := List.mem_flatten.mp hmem
            obtain ⟨t2, ht2, he2⟩ := List.mem_map.mp hinner
            rw [← he2] at hmem2
            obtain ⟨run2, hrun2, he3⟩ := List.mem_map.mp hmem2
            injection he3 with e1 e2 e3
            subst e1
            subst e2
            rw [← e3]
            exact ⟨List.sorted_insertionSort _ _, List.perm_insertionSort _ _⟩
          · refine (emitEach_ok _ _ assocCalls hea).imp ?_
            intro c call hcall
            unfold emitAssociation at hcall
            cases hl : lookupA colls c with
            | none =>
              rw [hl] at hcall
              exact absurd hcall (by simp)
            | some r =>
              rw [hl] at hcall
              injection hcall with hcall
              exact ⟨r, rfl, hcall.symm⟩
          · intro c ty assocs hmem
            obtain ⟨c2, hc2, hcall⟩ :=
              forall₂_mem_right (emitEach_ok _ _ assocCalls hea) _ hmem
            unfold emitAssociation at hcall
            cases hl : lookupA colls c2 with
            | none =>
              rw [hl] at hcall
              exact absurd hcall (by simp)
            | some r =>
              rw [hl] at hcall
              injection hcall with hcall
              injection hcall with e1 e2 e3
              rw [← e3]
              exact List.sorted_insertionSort _ _

/-- Concrete catalog for the C5 witness. -/
def c5cat : Catalog where
  elements := ["visit"]
  hasTable := fun _ => true
  viewOf := fun _ => none
  findCollection := fun _ => none
  collectionDoc := fun _ => none
  expand := fun _ => []
  datastoreExport := fun r => ⟨"p", r.id⟩
  associations := []

/-- Concrete accumulated state for the C5 witness: one dimension record. -/
def c5st : ExpState where
  records := [⟨"visit", 1, 0⟩]
  dataset_ids := []
  datasets := []
  collections := []

/-- Witness for C5: the hypotheses hold at `c5cat`/`c5st` and the theorem
applies there. -/
theorem c5_witness :
    storeKeyUnique c5st.records ∧
    finishExport c5cat c5st =
      .ok [BackendCall.saveDimensionData "visit" [⟨"visit", 1, 0⟩],
           BackendCall.finish] ∧
    ∀ e, (elementRecords c5st e).Sorted (fun a b => a.dataId ≤ b.dataId) := by
  have hchain : computeSortedCollections ([] : List (String × CollectionRecord))
      = .ok [] := by
    rw [computeSortedCollections, chainLoop]
    simp [collChains, collNonchained]
  have hok : finishExport c5cat c5st =
      .ok [BackendCall.saveDimensionData "visit" [⟨"visit", 1, 0⟩],
           BackendCall.finish] := by
    unfold finishExport
    rw [show resolveRuns c5cat c5st.collections c5st.datasets = .ok [] from rfl]
    simp only [Bind.bind, Except.bind, pure, Except.pure, hchain]
    simp [emitEach, datasetCalls, computeDatasetAssociations, elementRecords,
      storeFind, c5cat, c5st, lookupA]
  refine ⟨by decide, hok, ?_⟩
  obtain ⟨cc, ac, cl, od, h1, h2, h3, h4, h5, h6⟩ :=
    c5_finish_phase_order c5cat c5st _ (by decide) hok
  exact h5

/-- Concrete accumulated collections for the C3 witness: one RUN collection
and two nested chains. -/
def c3colls : List (String × CollectionRecord) :=
  [("run1", ⟨"run1", .RUN, []⟩),
   ("chainB", ⟨"chainB", .CHAINED, ["chainA", "run1"]⟩),
   ("chainA", ⟨"chainA", .CHAINED, ["run1"]⟩)]

/-! ### Structural lemmas for the accumulation dicts (claim C1) -/

theorem lookupA_eq_none_iff {α β : Type} [DecidableEq α] (l : List (α × β))
    (k : α) : lookupA l k = none ↔ k ∉ l.map (fun p => p.1) := by
  cases hf : l.find? (fun p => decide (p.1 = k)) with
  | some p =>
    have hm := List.mem_of_find?_eq_some hf
    have hp := List.find?_some hf
    simp only [decide_eq_true_eq] at hp
    simp only [lookupA, hf, Option.map_some]
    constructor
    · intro h
      exact absurd h (by simp)
    · intro h
      exact absurd (List.mem_map.mpr ⟨p, hm, hp⟩) h
  | none =>
    rw [List.find?_eq_none] at hf
    simp only [lookupA]
    rw [List.find?_eq_none.mpr (by simpa using hf)]
    constructor
    · intro _ hk
      obtain ⟨p, hp, he⟩ := List.mem_map.mp hk
      exact absurd (decide_eq_true_eq.mpr he) (by simpa using hf p hp)
    · intro _
      rfl

theorem lookupA_isSome_iff {α β : Type} [DecidableEq α] (l : List (α × β))
    (k : α) : (∃ v, lookupA l k = some v) ↔ k ∈ l.map (fun p => p.1) := by
  constructor
  · intro ⟨v, hv⟩
    by_contra hk
    rw [← lookupA_eq_none_iff] at hk
    rw [hk] at hv
    exact absurd hv (by simp)
  · intro hk
    cases hl : lookupA l k with
    | none => exact absurd ((lookupA_eq_none_iff l k).mp hl) (by simp [hk])
    | some v => exact ⟨v, rfl⟩

theorem setA_map_fst_of_any {α β : Type} [DecidableEq α] {l : List (α × β)}
    {k : α} (v : β) (h : l.any (fun p => decide (p.1 = k)) = true) :
    (setA l k v).map (fun p => p.1) = l.map (fun p => p.1) := by
  unfold setA
  rw [if_pos h, List.map_map]
  apply List.map_congr_left
  intro p _
  by_cases hp : p.1 = k <;> simp [hp]

theorem setA_map_fst_of_not_any {α β : Type} [DecidableEq α] {l : List (α × β)}
    {k : α} (v : β) (h : ¬ l.any (fun p => decide (p.1 = k)) = true) :
    (setA l k v).map (fun p => p.1) = l.map (fun p => p.1) ++ [k] := by
  unfold setA
  rw [if_neg h]
  simp

theorem any_key_iff_mem_fst {α β : Type} [DecidableEq α] (l : List (α × β))
    (k : α) :
    l.any (fun p => decide (p.1 = k)) = true ↔ k ∈ l.map (fun p => p.1) := by
  rw [List.any_eq_true]
  constructor
  · rintro ⟨p, hp, he⟩
    exact List.mem_map.mpr ⟨p, hp, decide_eq_true_eq.mp he⟩
  · intro hk
    obtain ⟨p, hp, he⟩ := List.mem_map.mp hk
    exact ⟨p, hp, decide_eq_true_eq.mpr he⟩

theorem mem_setA_keys {α β : Type} [DecidableEq α] (l : List (α × β)) (k : α)
    (v : β) (c : α) :
    c ∈ (setA l k v).map (fun p => p.1) ↔ c ∈ l.map (fun p => p.1) ∨ c = k := by
  by_cases h : l.any (fun p => decide (p.1 = k)) = true
  · rw [setA_map_fst_of_any v h]
    constructor
    · exact fun hc => .inl hc
    · rintro (hc | rfl)
      · exact hc
      · exact (any_key_iff_mem_fst l c).mp h
  · rw [setA_map_fst_of_not_any v h]
    simp

theorem setA_keys_nodup {α β : Type} [DecidableEq α] {l : List (α × β)}
    {k : α} (v : β) (h : (l.map (fun p => p.1)).Nodup) :
    ((setA l k v).map (fun p => p.1)).Nodup := by
  by_cases ha : l.any (fun p => decide (p.1 = k)) = true
  · rw [setA_map_fst_of_any v ha]
    exact h
  · rw [setA_map_fst_of_not_any v ha]
    rw [(List.perm_append_singleton _ _).nodup_iff, List.nodup_cons]
    refine ⟨fun hk => ?_, h⟩
    exact ha ((any_key_iff_mem_fst l k).mpr hk)

/-- `dsRuns ds t` is the run-key list of the inner dict for type `t`. -/
def dsRuns (ds : List (ExpDatasetType × List (String × List FileDataset)))
    (t : ExpDatasetType) : List String :=
  ((lookupA ds t).getD []).map (fun p => p.1)

theorem lookupA_addFiles_other
    (ds : List (ExpDatasetType × List (String × List FileDataset)))
    (t : ExpDatasetType) (run : String) (fs : List FileDataset)
    {t' : ExpDatasetType} (ht : ¬ t' = t) :
    lookupA (addFiles ds t run fs) t' = lookupA ds t' := by
  unfold addFiles
  cases ho : lookupA ds t with
  | none =>
    show lookupA (ds ++ [(t, [(run, fs)])]) t' = lookupA ds t'
    rw [lookupA_append]
    cases hl : lookupA ds t' with
    | some w => rfl
    | none =>
      rw [lookupA_cons]
      rw [if_neg (show ¬ (t, [(run, fs)]).1 = t' from fun he => ht he.symm)]
      rfl
  | some inner =>
    show lookupA
        (match lookupA inner run with
         | none => setA ds t (inner ++ [(run, fs)])
         | some existing => setA ds t (setA inner run (existing ++ fs))) t'
      = lookupA ds t'
    cases hi : lookupA inner run with
    | none =>
      show lookupA (setA ds t (inner ++ [(run, fs)])) t' = lookupA ds t'
      rw [lookupA_setA, if_neg ht]
    | some fl =>
      show lookupA (setA ds t (setA inner run (fl ++ fs))) t' = lookupA ds t'
      rw [lookupA_setA, if_neg ht]

theorem lookupA_addFiles_new
    {ds : List (ExpDatasetType × List (String × List FileDataset))}
    {t : ExpDatasetType} (run : String) (fs : List FileDataset)
    (h : lookupA ds t = none) :
    lookupA (addFiles ds t run fs) t = some [(run, fs)] := by
  unfold addFiles
  rw [h]
  show lookupA (ds ++ [(t, [(run, fs)])]) t = some [(run, fs)]
  rw [lookupA_append, h, lookupA_cons, if_pos rfl]

theorem lookupA_addFiles_newRun
    {ds : List (ExpDatasetType × List (String × List FileDataset))}
    {t : ExpDatasetType} {inner : List (String × List FileDataset)}
    (run : String) (fs : List FileDataset)
    (h : lookupA ds t = some inner) (h2 : lookupA inner run = none) :
    lookupA (addFiles ds t run fs) t = some (inner ++ [(run, fs)]) := by
  unfold addFiles
  rw [h]
  show lookupA
      (match lookupA inner run with
       | none => setA ds t (inner ++ [(run, fs)])
       | some existing => setA ds t (setA inner run (existing ++ fs))) t
    = some (inner ++ [(run, fs)])
  rw [h2]
  show lookupA (setA ds t (inner ++ [(run, fs)])) t = some (inner ++ [(run, fs)])
  rw [lookupA_setA, if_pos rfl]

theorem lookupA_addFiles_existing
    {ds : List (ExpDatasetType × List (String × List FileDataset))}
    {t : ExpDatasetType} {inner : List (String × List FileDataset)}
    {fl : List FileDataset} (run : String) (fs : List FileDataset)
    (h : lookupA ds t = some inner) (h2 : lookupA inner run = some fl) :
    lookupA (addFiles ds t run fs) t = some (setA inner run (fl ++ fs)) := by
  unfold addFiles
  rw [h]
  show lookupA
      (match lookupA inner run with
       | none => setA ds t (inner ++ [(run, fs)])
       | some existing => setA ds t (setA inner run (existing ++ fs))) t
    = some (setA inner run (fl ++ fs))
  rw [h2]
  show lookupA (setA ds t (setA inner run (fl ++ fs))) t
    = some (setA inner run (fl ++ fs))
  rw [lookupA_setA, if_pos rfl]

theorem dsFiles_addFiles_same
    (ds : List (ExpDatasetType × List (String × List FileDataset)))
    (t : ExpDatasetType) (run : String) (fs : List FileDataset) :
    dsFiles (addFiles ds t run fs) t run = dsFiles ds t run ++ fs := by
  unfold dsFiles
  cases ho : lookupA ds t with
  | none =>
    rw [lookupA_addFiles_new run fs ho]
    show (lookupA [(run, fs)] run).getD [] = (lookupA [] run).getD [] ++ fs
    rw [lookupA_cons, if_pos rfl]
    simp [lookupA]
  | some inner =>
    cases hi : lookupA inner run with
    | none =>
      rw [lookupA_addFiles_newRun run fs ho hi]
      show (lookupA (inner ++ [(run, fs)]) run).getD []
        = (lookupA inner run).getD [] ++ fs
      rw [lookupA_append, hi, lookupA_cons, if_pos rfl]
      rfl
    | some fl =>
      rw [lookupA_addFiles_existing run fs ho hi]
      show (lookupA (setA inner run (fl ++ fs)) run).getD []
        = (lookupA inner run).getD [] ++ fs
      rw [lookupA_setA, if_pos rfl]
      simp [hi]

theorem dsFiles_addFiles_other
    (ds : List (ExpDatasetType × List (String × List FileDataset)))
    (t : ExpDatasetType) (run : String) (fs : List FileDataset)
    (t' : ExpDatasetType) (run' : String) (h : ¬ (t' = t ∧ run' = run)) :
    dsFiles (addFiles ds t run fs) t' run' = dsFiles ds t' run' := by
  by_cases ht : t' = t
  · subst ht
    have hr : ¬ run' = run := fun he => h ⟨rfl, he⟩
    unfold dsFiles
    cases ho : lookupA ds t' with
    | none =>
      rw [lookupA_addFiles_new run fs ho]
      show (lookupA [(run, fs)] run').getD [] = (lookupA [] run').getD []
      rw [lookupA_cons]
      rw [if_neg (show ¬ (run, fs).1 = run' from fun he => hr he.symm)]
    | some inner =>
      cases hi : lookupA inner run with
      | none =>
        rw [lookupA_addFiles_newRun run fs ho hi]
        show (lookupA (inner ++ [(run, fs)]) run').getD []
          = (lookupA inner run').getD []
        rw [lookupA_append]
        cases hl : lookupA inner run' with
        | some w => rfl
        | none =>
          rw [lookupA_cons]
          rw [if_neg (show ¬ (run, fs).1 = run' from fun he => hr he.symm)]
          rfl
      | some fl =>
        rw [lookupA_addFiles_existing run fs ho hi]
        show (lookupA (setA inner run (fl ++ fs)) run').getD []
          = (lookupA inner run').getD []
        rw [lookupA_setA, if_neg hr]
  · unfold dsFiles
    rw [lookupA_addFiles_other ds t run fs ht]

theorem mem_addFiles_keys
    (ds : List (ExpDatasetType × List (String × List FileDataset)))
    (t : ExpDatasetType) (run : String) (fs : List FileDataset)
    (t' : ExpDatasetType) :
    t' ∈ (addFiles ds t run fs).map (fun p => p.1)
      ↔ t' ∈ ds.map (fun p => p.1) ∨ t' = t := by
  unfold addFiles
  cases ho : lookupA ds t with
  | none =>
    show t' ∈ (ds ++ [(t, [(run, fs)])]).map (fun p => p.1)
      ↔ t' ∈ ds.map (fun p => p.1) ∨ t' = t
    simp
  | some inner =>
    have htm : t ∈ ds.map (fun p => p.1) :=
      (lookupA_isSome_iff ds t).mp ⟨inner, ho⟩
    show t' ∈ List.map
        (fun p : ExpDatasetType × List (String × List FileDataset) => p.1)
        (match lookupA inner run with
         | none => setA ds t (inner ++ [(run, fs)])
         | some existing => setA ds t (setA inner run (existing ++ fs)))
      ↔ t' ∈ ds.map (fun p => p.1) ∨ t' = t
    cases hi : lookupA inner run with
    | none => rw [mem_setA_keys]
    | some fl => rw [mem_setA_keys]

theorem addFiles_keys_nodup
    {ds : List (ExpDatasetType × List (String × List FileDataset))}
    (t : ExpDatasetType) (run : String) (fs : List FileDataset)
    (h : (ds.map (fun p => p.1)).Nodup) :
    ((addFiles ds t run fs).map (fun p => p.1)).Nodup := by
  unfold addFiles
  cases ho : lookupA ds t with
  | none =>
    show ((ds ++ [(t, [(run, fs)])]).map (fun p => p.1)).Nodup
    rw [List.map_append, List.map_cons, List.map_nil]
    rw [(List.perm_append_singleton _ _).nodup_iff]
    rw [List.nodup_cons]
    exact ⟨fun hk => absurd ((lookupA_eq_none_iff ds t).mp ho) (by simp [hk]), h⟩
  | some inner =>
    show (List.map
        (fun p : ExpDatasetType × List (String × List FileDataset) => p.1)
        (match lookupA inner run with
         | none => setA ds t (inner ++ [(run, fs)])
         | some existing => setA ds t (setA inner run (existing ++ fs)))).Nodup
    cases hi : lookupA inner run with
    | none => exact setA_keys_nodup _ h
    | some fl => exact setA_keys_nodup _ h

theorem dsRuns_addFiles_same
    (ds : List (ExpDatasetType × List (String × List FileDataset)))
    (t : ExpDatasetType) (run : String) (fs : List FileDataset) :
    dsRuns (addFiles ds t run fs) t =
      if run ∈ dsRuns ds t then dsRuns ds t else dsRuns ds t ++ [run] := by
  unfold dsRuns
  cases ho : lookupA ds t with
  | none =>
    rw [lookupA_addFiles_new run fs ho]
    rw [if_neg (by simp [lookupA])]
    simp
  | some inner =>
    cases hi : lookupA inner run with
    | none =>
      rw [lookupA_addFiles_newRun run fs ho hi]
      rw [if_neg (by
        intro hr
        exact ((lookupA_eq_none_iff inner run).mp hi) hr)]
      simp
    | some fl =>
      rw [lookupA_addFiles_existing run fs ho hi]
      rw [if_pos (by
        simp only [Option.getD_some]
        exact (lookupA_isSome_iff inner run).mp ⟨fl, hi⟩)]
      simp [setA_map_fst_of_any (fl ++ fs)
        ((any_key_iff_mem_fst inner run).mpr ((lookupA_isSome_iff inner run).mp ⟨fl, hi⟩))]

theorem dsRuns_addFiles_other
    (ds : List (ExpDatasetType × List (String × List FileDataset)))
    (t : ExpDatasetType) (run : String) (fs : List FileDataset)
    {t' : ExpDatasetType} (ht : ¬ t' = t) :
    dsRuns (addFiles ds t run fs) t' = dsRuns ds t' := by
  unfold dsRuns
  rw [lookupA_addFiles_other ds t run fs ht]

theorem addFiles_inner_nodup
    {ds : List (ExpDatasetType × List (String × List FileDataset))}
    (t : ExpDatasetType) (run : String) (fs : List FileDataset)
    (hin : ∀ u inner, lookupA ds u = some inner →
      (inner.map (fun p => p.1)).Nodup)
    (u : ExpDatasetType) (inner2 : List (String × List FileDataset))
    (h : lookupA (addFiles ds t run fs) u = some inner2) :
    (inner2.map (fun p => p.1)).Nodup := by
  by_cases hu : u = t
  · subst hu
    cases ho : lookupA ds u with
    | none =>
      rw [lookupA_addFiles_new run fs ho] at h
      injection h with h
      rw [← h]
      simp
    | some inner =>
      cases hi : lookupA inner run with
      | none =>
        rw [lookupA_addFiles_newRun run fs ho hi] at h
        injection h with h
        rw [← h, List.map_append, List.map_cons, List.map_nil]
        rw [(List.perm_append_singleton _ _).nodup_iff, List.nodup_cons]
        refine ⟨fun hk => ?_, hin u inner ho⟩
        exact absurd ((lookupA_eq_none_iff inner run).mp hi) (by simp [hk])
      | some fl =>
        rw [lookupA_addFiles_existing run fs ho hi] at h
        injection h with h
        rw [← h]
        exact setA_keys_nodup _ (hin u inner ho)
  · rw [lookupA_addFiles_other ds t run fs hu] at h
    exact hin u inner2 h

/-! ### Store-feed and per-call characterization lemmas (claim C1) -/

theorem storeFind_eq_none_all {store : List DimensionRecord} {e : String}
    {d : Nat} (h : storeFind store e d = none) :
    ∀ s ∈ store, ¬ (s.definition = e ∧ s.dataId = d) := by
  rw [storeFind, List.find?_eq_none] at h
  rintro s hs ⟨h1, h2⟩
  exact absurd (by simp [h1, h2]) (h s hs)

theorem mem_storeFeed_sub {store : List DimensionRecord} {r x : DimensionRecord}
    (h : x ∈ storeFeed store r) : x ∈ store ∨ x = r := by
  unfold storeFeed at h
  cases hf : storeFind store r.definition r.dataId with
  | some s =>
    rw [hf] at h
    exact .inl h
  | none =>
    rw [hf] at h
    rcases List.mem_append.mp h with h2 | h2
    · exact .inl h2
    · exact .inr (List.mem_singleton.mp h2)

theorem storeFeed_keyUnique {store : List DimensionRecord} {r : DimensionRecord}
    (h : storeKeyUnique store) : storeKeyUnique (storeFeed store r) := by
  unfold storeFeed
  cases hf : storeFind store r.definition r.dataId with
  | some s => exact h
  | none =>
    show storeKeyUnique (store ++ [r])
    intro a ha b hb hd hi
    rcases List.mem_append.mp ha with ha2 | ha2
    · rcases List.mem_append.mp hb with hb2 | hb2
      · exact h a ha2 b hb2 hd hi
      · rw [List.mem_singleton] at hb2
        rw [hb2] at hd hi
        exact absurd ⟨hd, hi⟩ (storeFind_eq_none_all hf a ha2)
    · rcases List.mem_append.mp hb with hb2 | hb2
      · rw [List.mem_singleton] at ha2
        rw [ha2] at hd hi
        exact absurd ⟨hd.symm, hi.symm⟩ (storeFind_eq_none_all hf b hb2)
      · rw [List.mem_singleton] at ha2 hb2
        rw [ha2, hb2]

theorem mem_storeFeed_of_consistent {store : List DimensionRecord}
    {r : DimensionRecord}
    (hcon : ∀ s ∈ store, s.definition = r.definition → s.dataId = r.dataId → s = r)
    (x : DimensionRecord) : x ∈ storeFeed store r ↔ x ∈ store ∨ x = r := by
  unfold storeFeed
  cases hf : storeFind store r.definition r.dataId with
  | none => simp
  | some s =>
    obtain ⟨hs, hsd, hsi⟩ := storeFind_eq_some hf
    have he : s = r := hcon s hs hsd hsi
    subst he
    constructor
    · exact fun h2 => .inl h2
    · rintro (h2 | rfl)
      · exact h2
      · exact hs

theorem foldl_storeFeed_keyUnique (rs : List DimensionRecord) :
    ∀ store : List DimensionRecord, storeKeyUnique store →
      storeKeyUnique (rs.foldl storeFeed store) := by
  induction rs with
  | nil => exact fun store h => h
  | cons r rest ih =>
    intro store h
    rw [List.foldl_cons]
    exact ih _ (storeFeed_keyUnique h)

theorem mem_foldl_storeFeed (rs : List DimensionRecord) :
    ∀ store : List DimensionRecord,
    (∀ a ∈ store ++ rs, ∀ b ∈ store ++ rs,
      a.definition = b.definition → a.dataId = b.dataId → a = b) →
    ∀ x, x ∈ rs.foldl storeFeed store ↔ x ∈ store ∨ x ∈ rs := by
  induction rs with
  | nil => simp
  | cons r rest ih =>
    intro store hcon x
    rw [List.foldl_cons]
    have hcons : ∀ s ∈ store, s.definition = r.definition →
        s.dataId = r.dataId → s = r := by
      intro s hs h1 h2
      exact hcon s (by simp [hs]) r (by simp) h1 h2
    have hsub : ∀ y, y ∈ storeFeed store r ++ rest → y ∈ store ++ r :: rest := by
      intro y hy
      rcases List.mem_append.mp hy with hy | hy
      · rcases mem_storeFeed_sub hy with h2 | rfl
        · exact List.mem_append.mpr (.inl h2)
        · exact List.mem_append.mpr (.inr (List.mem_cons_self _ _))
      · exact List.mem_append.mpr (.inr (List.mem_cons_of_mem _ hy))
    rw [ih (storeFeed store r)
      (fun a ha b hb => hcon a (hsub a ha) b (hsub b hb)) x]
    rw [mem_storeFeed_of_consistent hcons]
    constructor
    · rintro ((h2 | rfl) | h2)
      · exact .inl h2
      · exact .inr (List.mem_cons_self _ _)
      · exact .inr (List.mem_cons_of_mem _ h2)
    · rintro (h2 | h2)
      · exact .inl (.inl h2)
      · rcases List.mem_cons.mp h2 with rfl | h3
        · exact .inl (.inr rfl)
        · exact .inr h3

theorem saveCollection_ok {cat : Catalog} {st : ExpState} {name : String}
    {st2 : ExpState} (h : saveCollection cat st name = .ok st2) :
    ∃ r, cat.findCollection name = some r ∧
      st2 = { st with collections := setA st.collections name r } := by
  unfold saveCollection at h
  cases hf : cat.findCollection name with
  | none =>
    rw [hf] at h
    exact absurd h (by simp)
  | some r =>
    rw [hf] at h
    injection h with h
    exact ⟨r, rfl, h.symm⟩

theorem saveDimensionData_fold_ok (cat : Catalog) (e : String)
    (rs : List DimensionRecord) :
    ∀ st st2 : ExpState,
    rs.foldlM
        (fun s r =>
          if r.definition = e then
            Except.ok { s with records := storeFeed s.records r }
          else
            Except.error (ExpError.recordElementMismatch e r.definition)) st
      = .ok st2 →
    st2 = { st with records := rs.foldl storeFeed st.records } := by
  induction rs with
  | nil =>
    intro st st2 h
    rw [List.foldlM_nil] at h
    injection h with h
    rw [← h]
    rfl
  | cons r rest ih =>
    intro st st2 h
    rw [List.foldlM_cons] at h
    by_cases hr : r.definition = e
    · rw [if_pos hr] at h
      simp only [Bind.bind, Except.bind] at h
      have := ih { st with records := storeFeed st.records r } st2 h
      rw [this, List.foldl_cons]
    · rw [if_neg hr] at h
      exact absurd h (by simp [Bind.bind, Except.bind])

theorem saveDimensionData_ok {cat : Catalog} {st : ExpState} {e : String}
    {rs : List DimensionRecord} {st2 : ExpState}
    (h : saveDimensionData cat st e rs = .ok st2) :
    st2 = { st with records := rs.foldl storeFeed st.records } := by
  unfold saveDimensionData at h
  by_cases he : e ∈ cat.elements
  · rw [if_pos he] at h
    exact saveDimensionData_fold_ok cat e rs st st2 h
  · rw [if_neg he] at h
    exact absurd h (by simp)

theorem saveDataIds_inner_eq (cat : Catalog) (l : List (Option DimensionRecord)) :
    ∀ s : ExpState,
    l.foldl
        (fun s r =>
          match r with
          | some q =>
            if q.definition ∈ selectedElements cat none then
              { s with records := storeFeed s.records q }
            else s
          | none => s) s
      = { s with records :=
            (List.foldl storeFeed s.records
              ((l.filterMap id).filter
                (fun q => decide (q.definition ∈ selectedElements cat none)))) } := by
  induction l with
  | nil =>
    intro s
    simp
  | cons o rest ih =>
    intro s
    rw [List.foldl_cons, ih]
    cases o with
    | none => simp
    | some q =>
      by_cases hq : q.definition ∈ selectedElements cat none
      · simp [hq]
      · simp [hq]

theorem saveDataIds_none_eq (cat : Catalog) (ds : List Nat) :
    ∀ st : ExpState,
    saveDataIds cat st ds none =
      { st with records :=
          ((ds.map (expandedRecords cat)).flatten).foldl storeFeed st.records } := by
  induction ds with
  | nil =>
    intro st
    simp [saveDataIds]
  | cons d rest ih =>
    intro st
    unfold saveDataIds at ih ⊢
    rw [List.foldl_cons]
    rw [saveDataIds_inner_eq cat (cat.expand d) st]
    rw [ih]
    rw [List.map_cons, List.flatten_cons, List.foldl_append]
    rfl

/-- Witness for C3: the hypotheses hold at `c3colls` and the theorem
applies there. -/
theorem c3_witness :
    (((c3colls.map (fun p => p.2)).map (fun r => r.name)).Nodup ∧
      Acyclic (collChains (c3colls.map (fun p => p.2)))) ∧
    ∃ out, computeSortedCollections c3colls = .ok out ∧
      out.Perm ((c3colls.map (fun p => p.2)).map (fun r => r.name)) :=
  ⟨⟨by decide, by decide⟩,
    (c3_computeSortedCollections_correct c3colls (by decide) (by decide)).elim
      (fun out h => ⟨out, h.1, h.2.1⟩)⟩

/-! ### Generic set/order helpers for the determinism claim (C1) -/

theorem sameSet_iff {α : Type} {a b : List α} (h : sameSet a b) :
    ∀ x, x ∈ a ↔ x ∈ b :=
  fun x => ⟨fun hx => h.1 x hx, fun hx => h.2 x hx⟩

theorem any_eq_of_mem {α : Type} {l₁ l₂ : List α} (h : ∀ x, x ∈ l₁ ↔ x ∈ l₂)
    (p : α → Bool) : l₁.any p = l₂.any p := by
  cases h1 : l₁.any p
  · cases h2 : l₂.any p
    · rfl
    · obtain ⟨x, hx, hp⟩ := List.any_eq_true.mp h2
      have h3 := List.any_eq_true.mpr ⟨x, (h x).mpr hx, hp⟩
      exact h1 ▸ h3
  · obtain ⟨x, hx, hp⟩ := List.any_eq_true.mp h1
    exact (List.any_eq_true.mpr ⟨x, (h x).mp hx, hp⟩).symm

theorem insertionSort_eq_of_perm {α : Type} (r : α → α → Prop) [DecidableRel r]
    [IsTotal α r] [IsTrans α r] [IsAntisymm α r] {l₁ l₂ : List α}
    (h : l₁.Perm l₂) :
    List.insertionSort r l₁ = List.insertionSort r l₂ := by
  refine List.eq_of_perm_of_sorted ?_ (List.sorted_insertionSort _ _)
    (List.sorted_insertionSort _ _)
  exact (List.perm_insertionSort _ _).trans (h.trans (List.perm_insertionSort _ _).symm)

theorem perm_of_nodup_mem {α : Type} {l₁ l₂ : List α} (h1 : l₁.Nodup)
    (h2 : l₂.Nodup) (hm : ∀ x, x ∈ l₁ ↔ x ∈ l₂) : l₁.Perm l₂ :=
  (List.perm_ext_iff_of_nodup h1 h2).mpr hm

theorem storeKeyUnique_of_sub {big small : List DimensionRecord}
    (h : storeKeyUnique big) (hs : ∀ x ∈ small, x ∈ big) :
    storeKeyUnique small :=
  fun r hr s hs2 hd hi => h r (hs r hr) s (hs s hs2) hd hi

theorem idInjective_of_sub {big small : List DatasetRef}
    (h : idInjective big) (hs : ∀ x ∈ small, x ∈ big) : idInjective small :=
  fun r hr s hs2 hi => h r (hs r hr) s (hs s hs2) hi

/-- The key of a `_records` store entry. -/
def keyOf (r : DimensionRecord) : String × Nat := (r.definition, r.dataId)

/-- Strong key uniqueness of the `_records` store: the keys themselves are
pairwise distinct, as for any Python dict. -/
def storeKeyNodup (store : List DimensionRecord) : Prop :=
  (store.map keyOf).Nodup

theorem storeKeyUnique_of_keyNodup {store : List DimensionRecord}
    (h : storeKeyNodup store) : storeKeyUnique store :=
  fun r hr s hs hd hi =>
    List.inj_on_of_nodup_map h hr hs (by simp [keyOf, hd, hi])

theorem storeFeed_keyNodup {store : List DimensionRecord} {r : DimensionRecord}
    (h : storeKeyNodup store) : storeKeyNodup (storeFeed store r) := by
  unfold storeFeed
  cases hf : storeFind store r.definition r.dataId with
  | some s => exact h
  | none =>
    show storeKeyNodup (store ++ [r])
    unfold storeKeyNodup at h ⊢
    rw [List.map_append, List.map_cons, List.map_nil,
      (List.perm_append_singleton _ _).nodup_iff, List.nodup_cons]
    refine ⟨fun hk => ?_, h⟩
    obtain ⟨s, hs, he⟩ := List.mem_map.mp hk
    simp only [keyOf, Prod.mk.injEq] at he
    exact storeFind_eq_none_all hf s hs ⟨he.1, he.2⟩

theorem foldl_storeFeed_keyNodup (rs : List DimensionRecord) :
    ∀ {store : List DimensionRecord}, storeKeyNodup store →
      storeKeyNodup (rs.foldl storeFeed store) := by
  induction rs with
  | nil => exact fun h => h
  | cons r rest ih =>
    intro store h
    rw [List.foldl_cons]
    exact ih (storeFeed_keyNodup h)

theorem storeFind_congr {a b : List DimensionRecord}
    (hku : storeKeyUnique (a ++ b)) (hm : ∀ x, x ∈ a ↔ x ∈ b)
    (e : String) (d : Nat) : storeFind a e d = storeFind b e d := by
  cases hfa : storeFind a e d with
  | none =>
    cases hfb : storeFind b e d with
    | none => rfl
    | some r =>
      obtain ⟨hrb, hrd, hri⟩ := storeFind_eq_some hfb
      exact absurd ⟨hrd, hri⟩ (storeFind_eq_none_all hfa r ((hm r).mpr hrb))
  | some r =>
    obtain ⟨hra, hrd, hri⟩ := storeFind_eq_some hfa
    cases hfb : storeFind b e d with
    | none => exact absurd ⟨hrd, hri⟩ (storeFind_eq_none_all hfb r ((hm r).mp hra))
    | some s =>
      obtain ⟨hsb, hsd, hsi⟩ := storeFind_eq_some hfb
      rw [hku r (List.mem_append.mpr (.inl hra)) s (List.mem_append.mpr (.inr hsb))
        (hrd.trans hsd.symm) (hri.trans hsi.symm)]

theorem lookupA_mem {α β : Type} [DecidableEq α] {l : List (α × β)} {k : α}
    {v : β} (h : lookupA l k = some v) : (k, v) ∈ l := by
  unfold lookupA at h
  cases hf : l.find? (fun p => decide (p.1 = k)) with
  | none => rw [hf] at h; exact absurd h (by simp)
  | some p =>
    rw [hf] at h
    have hm := List.mem_of_find?_eq_some hf
    have hp := List.find?_some hf
    simp only [decide_eq_true_eq] at hp
    simp only [Option.map_some', Option.some.injEq] at h
    have : p = (k, v) := by
      cases p
      simp only [Prod.mk.injEq]
      exact ⟨hp, h⟩
    exact this ▸ hm

theorem mem_lookupA_of_nodup {α β : Type} [DecidableEq α] {l : List (α × β)}
    (hn : (l.map (fun p => p.1)).Nodup) {k : α} {v : β} (h : (k, v) ∈ l) :
    lookupA l k = some v := by
  cases hf : lookupA l k with
  | none =>
    rw [lookupA_eq_none_iff] at hf
    exact absurd (List.mem_map.mpr ⟨(k, v), h, rfl⟩) hf
  | some w =>
    have hm := lookupA_mem hf
    have he : (k, w) = (k, v) := List.inj_on_of_nodup_map hn hm h rfl
    rw [(Prod.mk.injEq _ _ _ _).mp he |>.2]

theorem mem_lookupA_iff_nodup {α β : Type} [DecidableEq α] {l : List (α × β)}
    (hn : (l.map (fun p => p.1)).Nodup) (k : α) (v : β) :
    (k, v) ∈ l ↔ lookupA l k = some v :=
  ⟨mem_lookupA_of_nodup hn, lookupA_mem⟩

/-! ### Characterization of the dataset accumulation (claim C1) -/

/-- What the `_datasets` / `_dataset_ids` accumulators hold after the refs
`refs` have been offered to `saveDatasets`: ids are exactly the saved ids,
both dict levels have distinct keys matching the saved (type, run) pairs,
and each `(type, run)` file list is the datastore export of a duplicate-free
list of exactly the saved refs with that type and run. -/
def DsChar (cat : Catalog) (refs : List DatasetRef) (s : ExpState) : Prop :=
  (∀ i, i ∈ s.dataset_ids ↔ ∃ r ∈ refs, r.id = i) ∧
  (s.datasets.map (fun p => p.1)).Nodup ∧
  (∀ t, t ∈ s.datasets.map (fun p => p.1) ↔ ∃ r ∈ refs, r.datasetType = t) ∧
  (∀ t, (dsRuns s.datasets t).Nodup) ∧
  (∀ t run, run ∈ dsRuns s.datasets t ↔
    ∃ r ∈ refs, r.datasetType = t ∧ r.run = run) ∧
  (∀ t run, ∃ rl : List DatasetRef, rl.Nodup ∧
    (∀ r, r ∈ rl ↔ r ∈ refs ∧ r.datasetType = t ∧ r.run = run) ∧
    dsFiles s.datasets t run = rl.map cat.datastoreExport)

theorem DsChar_congr {cat : Catalog} {refs refs' : List DatasetRef}
    {s : ExpState} (hc : DsChar cat refs s)
    (hm : ∀ x, x ∈ refs ↔ x ∈ refs') : DsChar cat refs' s := by
  obtain ⟨hids, hknd, hkeys, hrnd, hruns, hfiles⟩ := hc
  refine ⟨?_, hknd, ?_, hrnd, ?_, ?_⟩
  · intro i
    rw [hids i]
    constructor
    · rintro ⟨r, hr, rfl⟩; exact ⟨r, (hm r).mp hr, rfl⟩
    · rintro ⟨r, hr, rfl⟩; exact ⟨r, (hm r).mpr hr, rfl⟩
  · intro t
    rw [hkeys t]
    constructor
    · rintro ⟨r, hr, rfl⟩; exact ⟨r, (hm r).mp hr, rfl⟩
    · rintro ⟨r, hr, rfl⟩; exact ⟨r, (hm r).mpr hr, rfl⟩
  · intro t run
    rw [hruns t run]
    constructor
    · rintro ⟨r, hr, h1, h2⟩; exact ⟨r, (hm r).mp hr, h1, h2⟩
    · rintro ⟨r, hr, h1, h2⟩; exact ⟨r, (hm r).mpr hr, h1, h2⟩
  · intro t run
    obtain ⟨rl, hnd, hiff, hf⟩ := hfiles t run
    refine ⟨rl, hnd, fun r => ?_, hf⟩
    rw [hiff r]
    constructor
    · rintro ⟨hr, h1, h2⟩; exact ⟨(hm r).mp hr, h1, h2⟩
    · rintro ⟨hr, h1, h2⟩; exact ⟨(hm r).mpr hr, h1, h2⟩

theorem DsChar_feed {cat : Catalog} {refs : List DatasetRef} {s : ExpState}
    (hc : DsChar cat refs s) (r : DatasetRef)
    (hnew : ¬ r.id ∈ s.dataset_ids) :
    DsChar cat (refs ++ [r])
      { s with dataset_ids := s.dataset_ids ++ [r.id],
               datasets := addFiles s.datasets r.datasetType r.run
                 [cat.datastoreExport r] } := by
  obtain ⟨hids, hknd, hkeys, hrnd, hruns, hfiles⟩ := hc
  refine ⟨?_, ?_, ?_, ?_, ?_, ?_⟩
  · intro i
    simp only [List.mem_append, List.mem_singleton, hids i]
    constructor
    · rintro (⟨q, hq, rfl⟩ | rfl)
      · exact ⟨q, .inl hq, rfl⟩
      · exact ⟨r, .inr rfl, rfl⟩
    · rintro ⟨q, hq2 | hq2, rfl⟩
      · exact .inl ⟨q, hq2, rfl⟩
      · exact .inr (by rw [hq2])
  · exact addFiles_keys_nodup _ _ _ hknd
  · intro t
    rw [mem_addFiles_keys, hkeys t]
    constructor
    · rintro (⟨q, hq, rfl⟩ | rfl)
      · exact ⟨q, List.mem_append.mpr (.inl hq), rfl⟩
      · exact ⟨r, List.mem_append.mpr (.inr (List.mem_singleton.mpr rfl)), rfl⟩
    · rintro ⟨q, hq, rfl⟩
      rcases List.mem_append.mp hq with hq2 | hq2
      · exact .inl ⟨q, hq2, rfl⟩
      · rw [List.mem_singleton.mp hq2]
        exact .inr rfl
  · intro t
    by_cases ht : t = r.datasetType
    · rw [ht, dsRuns_addFiles_same]
      by_cases hr : r.run ∈ dsRuns s.datasets r.datasetType
      · rw [if_pos hr]; exact hrnd r.datasetType
      · rw [if_neg hr]
        rw [(List.perm_append_singleton _ _).nodup_iff, List.nodup_cons]
        exact ⟨hr, hrnd r.datasetType⟩
    · rw [dsRuns_addFiles_other _ _ _ _ ht]
      exact hrnd t
  · intro t run
    by_cases ht : t = r.datasetType
    · rw [ht, dsRuns_addFiles_same]
      have hbase : run ∈ dsRuns s.datasets r.datasetType ∨ run = r.run ↔
          ∃ q ∈ refs ++ [r], q.datasetType = r.datasetType ∧ q.run = run := by
        rw [hruns r.datasetType run]
        constructor
        · rintro (⟨q, hq, h1, h2⟩ | rfl)
          · exact ⟨q, List.mem_append.mpr (.inl hq), h1, h2⟩
          · exact ⟨r, List.mem_append.mpr (.inr (List.mem_singleton.mpr rfl)),
              rfl, rfl⟩
        · rintro ⟨q, hq, h1, h2⟩
          rcases List.mem_append.mp hq with hq2 | hq2
          · exact .inl ⟨q, hq2, h1, h2⟩
          · rw [List.mem_singleton.mp hq2] at h2
            exact .inr h2.symm
      by_cases hr : r.run ∈ dsRuns s.datasets r.datasetType
      · rw [if_pos hr, ← hbase]
        constructor
        · exact fun h => .inl h
        · rintro (h | rfl)
          · exact h
          · exact hr
      · rw [if_neg hr, ← hbase]
        simp [List.mem_append]
    · rw [dsRuns_addFiles_other _ _ _ _ ht, hruns t run]
      constructor
      · rintro ⟨q, hq, h1, h2⟩
        exact ⟨q, List.mem_append.mpr (.inl hq), h1, h2⟩
      · rintro ⟨q, hq, h1, h2⟩
        rcases List.mem_append.mp hq with hq2 | hq2
        · exact ⟨q, hq2, h1, h2⟩
        · rw [List.mem_singleton.mp hq2] at h1
          exact absurd h1.symm ht
  · intro t run
    by_cases htr : t = r.datasetType ∧ run = r.run
    · obtain ⟨ht, hrn⟩ := htr
      obtain ⟨rl, hnd, hiff, hf⟩ := hfiles t run
      refine ⟨rl ++ [r], ?_, ?_, ?_⟩
      · rw [(List.perm_append_singleton _ _).nodup_iff, List.nodup_cons]
        refine ⟨fun hrm => ?_, hnd⟩
        obtain ⟨hrefs, _, _⟩ := (hiff r).mp hrm
        exact hnew ((hids r.id).mpr ⟨r, hrefs, rfl⟩)
      · intro q
        simp only [List.mem_append, List.mem_singleton, hiff q]
        constructor
        · rintro (⟨hq, h1, h2⟩ | rfl)
          · exact ⟨.inl hq, h1, h2⟩
          · exact ⟨.inr rfl, ht.symm, hrn.symm⟩
        · rintro ⟨hq | hq2, h1, h2⟩
          · exact .inl ⟨hq, h1, h2⟩
          · exact .inr hq2
      · rw [ht, hrn, dsFiles_addFiles_same, ← ht, ← hrn, hf, List.map_append,
          List.map_cons, List.map_nil]
    · obtain ⟨rl, hnd, hiff, hf⟩ := hfiles t run
      refine ⟨rl, hnd, ?_, ?_⟩
      · intro q
        rw [hiff q]
        constructor
        · rintro ⟨hq, h1, h2⟩
          exact ⟨List.mem_append.mpr (.inl hq), h1, h2⟩
        · rintro ⟨hq, h1, h2⟩
          rcases List.mem_append.mp hq with hq2 | hq2
          · exact ⟨hq2, h1, h2⟩
          · rw [List.mem_singleton.mp hq2] at h1 h2
            exact absurd ⟨h1.symm, h2.symm⟩ htr
      · show dsFiles (addFiles s.datasets r.datasetType r.run
            [cat.datastoreExport r]) t run = rl.map cat.datastoreExport
        rw [dsFiles_addFiles_other _ _ _ _ _ _ htr, hf]

theorem saveDatasetsStep_skip {cat : Catalog} {s : ExpState} {dIds : List Nat}
    {r : DatasetRef} (h : r.id ∈ s.dataset_ids) :
    saveDatasetsStep cat (s, dIds) r = (s, dIds) := by
  simp [saveDatasetsStep, h]

theorem saveDatasetsStep_accept {cat : Catalog} {s : ExpState} {dIds : List Nat}
    {r : DatasetRef} (h : ¬ r.id ∈ s.dataset_ids) :
    saveDatasetsStep cat (s, dIds) r =
      ({ s with dataset_ids := s.dataset_ids ++ [r.id],
                datasets := addFiles s.datasets r.datasetType r.run
                  [cat.datastoreExport r] },
       if r.dataId ∈ dIds then dIds else dIds ++ [r.dataId]) := by
  simp [saveDatasetsStep, h]

/-- The `saveDatasets` ref loop: the dataset accumulators end up
characterized by the offered refs, the records and collections maps are
untouched, and the collected data IDs are those of the refs whose id was
not already exported. -/
theorem saveDatasets_loop (cat : Catalog) :
    ∀ (rs F : List DatasetRef) (s : ExpState) (dIds : List Nat),
    DsChar cat F s → idInjective (F ++ rs) →
    DsChar cat (F ++ rs) (rs.foldl (saveDatasetsStep cat) (s, dIds)).1 ∧
    (rs.foldl (saveDatasetsStep cat) (s, dIds)).1.records = s.records ∧
    (rs.foldl (saveDatasetsStep cat) (s, dIds)).1.collections = s.collections ∧
    (∀ d, d ∈ (rs.foldl (saveDatasetsStep cat) (s, dIds)).2 ↔
      d ∈ dIds ∨ ∃ r ∈ rs, r.dataId = d ∧ ¬ ∃ r0 ∈ F, r0.id = r.id) := by
  intro rs
  induction rs with
  | nil =>
    intro F s dIds hc _
    refine ⟨DsChar_congr hc (by simp), rfl, rfl, fun d => by simp⟩
  | cons r rest ih =>
    intro F s dIds hc hinj
    rw [List.foldl_cons]
    by_cases hmem : r.id ∈ s.dataset_ids
    · rw [saveDatasetsStep_skip hmem]
      obtain ⟨r0, hr0, hr0id⟩ := (hc.1 r.id).mp hmem
      have hrF : r ∈ F := by
        have he := hinj r0 (List.mem_append.mpr (.inl hr0)) r
          (List.mem_append.mpr (.inr (List.mem_cons_self _ _))) hr0id
        exact he ▸ hr0
      have hinj2 : idInjective (F ++ rest) :=
        idInjective_of_sub hinj (fun x hx => by
          rcases List.mem_append.mp hx with h1 | h1
          · exact List.mem_append.mpr (.inl h1)
          · exact List.mem_append.mpr (.inr (List.mem_cons_of_mem _ h1)))
      obtain ⟨hds, hrec, hcol, hdid⟩ := ih F s dIds hc hinj2
      refine ⟨DsChar_congr hds ?_, hrec, hcol, ?_⟩
      · intro x
        simp only [List.mem_append, List.mem_cons]
        constructor
        · rintro (h | h)
          · exact .inl h
          · exact .inr (.inr h)
        · rintro (h | (rfl | h))
          · exact .inl h
          · exact .inl hrF
          · exact .inr h
      · intro d
        rw [hdid d]
        constructor
        · rintro (h | ⟨q, hq, h1, h2⟩)
          · exact .inl h
          · exact .inr ⟨q, List.mem_cons_of_mem _ hq, h1, h2⟩
        · rintro (h | ⟨q, hq, h1, h2⟩)
          · exact .inl h
          · rcases List.mem_cons.mp hq with rfl | hq2
            · exact absurd ⟨r0, hr0, hr0id⟩ h2
            · exact .inr ⟨q, hq2, h1, h2⟩
    · rw [saveDatasetsStep_accept hmem]
      have hc2 := DsChar_feed hc r hmem
      have hinj2 : idInjective ((F ++ [r]) ++ rest) :=
        idInjective_of_sub hinj (fun x hx => by
          rcases List.mem_append.mp hx with h1 | h1
          · rcases List.mem_append.mp h1 with h2 | h2
            · exact List.mem_append.mpr (.inl h2)
            · rw [List.mem_singleton.mp h2]
              exact List.mem_append.mpr (.inr (List.mem_cons_self _ _))
          · exact List.mem_append.mpr (.inr (List.mem_cons_of_mem _ h1)))
      obtain ⟨hds, hrec, hcol, hdid⟩ :=
        ih (F ++ [r]) _ (if r.dataId ∈ dIds then dIds else dIds ++ [r.dataId])
          hc2 hinj2
      have hnotF : ¬ ∃ r0 ∈ F, r0.id = r.id :=
        fun he => hmem ((hc.1 r.id).mpr he)
      refine ⟨DsChar_congr hds ?_, hrec, hcol, ?_⟩
      · intro x
        simp [List.mem_append, or_assoc]
      · intro d
        rw [hdid d]
        have hif : d ∈ (if r.dataId ∈ dIds then dIds else dIds ++ [r.dataId])
            ↔ d ∈ dIds ∨ d = r.dataId := by
          by_cases hcase : r.dataId ∈ dIds
          · rw [if_pos hcase]
            constructor
            · exact fun h => .inl h
            · rintro (h | rfl)
              · exact h
              · exact hcase
          · rw [if_neg hcase]
            simp
        rw [hif]
        constructor
        · rintro ((h | rfl) | ⟨q, hq, h1, h2⟩)
          · exact .inl h
          · exact .inr ⟨r, List.mem_cons_self _ _, rfl, hnotF⟩
          · refine .inr ⟨q, List.mem_cons_of_mem _ hq, h1, ?_⟩
            rintro ⟨q0, hq0, hq0id⟩
            exact h2 ⟨q0, List.mem_append.mpr (.inl hq0), hq0id⟩
        · rintro (h | ⟨q, hq, h1, h2⟩)
          · exact .inl (.inl h)
          · rcases List.mem_cons.mp hq with rfl | hq2
            · exact .inl (.inr h1.symm)
            · by_cases hqr : q.id = r.id
              · have he : q = r := hinj q
                  (List.mem_append.mpr (.inr (List.mem_cons_of_mem _ hq2)))
                  r (List.mem_append.mpr (.inr (List.mem_cons_self _ _))) hqr
                rw [he] at h1
                exact .inl (.inr h1.symm)
              · refine .inr ⟨q, hq2, h1, ?_⟩
                rintro ⟨q0, hq0, hq0id⟩
                rcases List.mem_append.mp hq0 with h3 | h3
                · exact h2 ⟨q0, h3, hq0id⟩
                · rw [List.mem_singleton.mp h3] at hq0id
                  exact hqr hq0id.symm

/-! ### The session invariant (claim C1) -/

/-- The collection names one call saves. -/
def callNames : Call → List String
  | .saveCollection n => [n]
  | _ => []

/-- The records one call can feed into the `_records` store. -/
def callRecords (cat : Catalog) : Call → List DimensionRecord
  | .saveDimensionData _ rs => rs
  | .saveDataIds ds => (ds.map (expandedRecords cat)).flatten
  | .saveDatasets rs =>
      ((rs.map (fun r => r.dataId)).map (expandedRecords cat)).flatten
  | _ => []

/-- The data IDs one call accumulates. -/
def callDataIds : Call → List Nat
  | .saveDataIds ds => ds
  | .saveDatasets rs => rs.map (fun r => r.dataId)
  | _ => []

/-- The refs one call saves. -/
def callRefs : Call → List DatasetRef
  | .saveDatasets rs => rs
  | _ => []

theorem savedCollNames_cons (c : Call) (L : List Call) :
    savedCollNames (c :: L) = callNames c ++ savedCollNames L := by
  cases c <;> simp [savedCollNames, callNames]

theorem savedDataIds_cons (c : Call) (L : List Call) :
    savedDataIds (c :: L) = callDataIds c ++ savedDataIds L := by
  cases c <;> simp [savedDataIds, callDataIds]

theorem savedRefs_cons (c : Call) (L : List Call) :
    savedRefs (c :: L) = callRefs c ++ savedRefs L := by
  cases c <;> simp [savedRefs, callRefs]

theorem sessionRecords_cons (cat : Catalog) (c : Call) (L : List Call) :
    ∀ x, x ∈ sessionRecords cat (c :: L) ↔
      x ∈ callRecords cat c ++ sessionRecords cat L := by
  intro x
  cases c with
  | saveCollection n =>
    simp [sessionRecords, savedRecords, savedDataIds, callRecords]
  | saveDimensionData e rs =>
    simp [sessionRecords, savedRecords, savedDataIds, callRecords,
      List.mem_append, or_assoc]
  | saveDataIds ds =>
    simp only [sessionRecords, savedRecords, savedDataIds, callRecords,
      List.map_append, List.flatten_append, List.mem_append, List.mem_flatten,
      List.mem_map]
    exact or_left_comm
  | saveDatasets rs =>
    simp only [sessionRecords, savedRecords, savedDataIds, callRecords,
      List.map_append, List.flatten_append, List.mem_append, List.mem_flatten,
      List.mem_map]
    exact or_left_comm

/-- The full invariant a session maintains, relative to the accumulated
collection names, fed records, data IDs and refs. -/
def Inv (cat : Catalog) (names : List String) (recs : List DimensionRecord)
    (dids : List Nat) (refs : List DatasetRef) (s : ExpState) : Prop :=
  storeKeyNodup s.records ∧
  (∀ x, x ∈ s.records ↔ x ∈ recs) ∧
  ((s.collections.map (fun p => p.1)).Nodup) ∧
  (∀ n, lookupA s.collections n =
    if n ∈ names then cat.findCollection n else none) ∧
  (∀ d ∈ dids, ∀ x ∈ expandedRecords cat d, x ∈ recs) ∧
  (∀ r ∈ refs, r.dataId ∈ dids) ∧
  DsChar cat refs s

theorem Inv_congr {cat : Catalog} {names names2 : List String}
    {recs recs2 : List DimensionRecord} {dids dids2 : List Nat}
    {refs refs2 : List DatasetRef} {s : ExpState}
    (h : Inv cat names recs dids refs s)
    (hN : ∀ n, n ∈ names ↔ n ∈ names2)
    (hR : ∀ x, x ∈ recs ↔ x ∈ recs2)
    (hD : ∀ d, d ∈ dids ↔ d ∈ dids2)
    (hF : ∀ r, r ∈ refs ↔ r ∈ refs2) :
    Inv cat names2 recs2 dids2 refs2 s := by
  obtain ⟨h1, h2, h3, h4, h5, h6, h7⟩ := h
  refine ⟨h1, fun x => (h2 x).trans (hR x), h3, ?_, ?_, ?_, DsChar_congr h7 hF⟩
  · intro n
    rw [h4 n]
    by_cases hn : n ∈ names
    · rw [if_pos hn, if_pos ((hN n).mp hn)]
    · rw [if_neg hn, if_neg (fun h => hn ((hN n).mpr h))]
  · intro d hd x hx
    exact (hR x).mp (h5 d ((hD d).mpr hd) x hx)
  · intro r hr
    exact (hD r.dataId).mp (h6 r ((hF r).mpr hr))

theorem DsChar_of_fields {cat : Catalog} {refs : List DatasetRef}
    {s s' : ExpState} (h : DsChar cat refs s)
    (hid : s'.dataset_ids = s.dataset_ids) (hd : s'.datasets = s.datasets) :
    DsChar cat refs s' := by
  unfold DsChar
  rw [hid, hd]
  exact h

theorem Inv_step {cat : Catalog} {names : List String}
    {recs : List DimensionRecord} {dids : List Nat} {refs : List DatasetRef}
    {s : ExpState} {c : Call} {s' : ExpState}
    (hinv : Inv cat names recs dids refs s)
    (hok : runCall cat s c = .ok s')
    (hku : storeKeyUnique (recs ++ callRecords cat c))
    (hinj : idInjective (refs ++ callRefs c)) :
    Inv cat (names ++ callNames c) (recs ++ callRecords cat c)
      (dids ++ callDataIds c) (refs ++ callRefs c) s' := by
  obtain ⟨hkn, hmem, hcnd, hclk, hdr, hrd, hds⟩ := hinv
  cases c with
  | saveCollection n =>
    simp only [callNames, callRecords, callDataIds, callRefs,
      List.append_nil] at hku hinj ⊢
    simp only [runCall] at hok
    obtain ⟨r, hfind, hs2⟩ := saveCollection_ok hok
    subst hs2
    refine ⟨hkn, hmem, setA_keys_nodup _ hcnd, ?_, hdr, hrd,
      DsChar_of_fields hds rfl rfl⟩
    intro m
    show lookupA (setA s.collections n r) m = _
    rw [lookupA_setA]
    by_cases hm : m = n
    · subst hm
      rw [if_pos rfl,
        if_pos (List.mem_append.mpr (.inr (List.mem_singleton.mpr rfl))), hfind]
    · rw [if_neg hm, hclk m]
      by_cases hmn : m ∈ names
      · rw [if_pos hmn, if_pos (List.mem_append.mpr (.inl hmn))]
      · rw [if_neg hmn, if_neg (fun h2 => ?_)]
        rcases List.mem_append.mp h2 with h3 | h3
        · exact hmn h3
        · exact hm (List.mem_singleton.mp h3)
  | saveDimensionData e rs =>
    simp only [callNames, callRecords, callDataIds, callRefs,
      List.append_nil] at hku hinj ⊢
    simp only [runCall] at hok
    have hs2 := saveDimensionData_ok hok
    subst hs2
    have hcon : ∀ a ∈ s.records ++ rs, ∀ b ∈ s.records ++ rs,
        a.definition = b.definition → a.dataId = b.dataId → a = b := by
      intro a ha b hb h1 h2
      have hmap : ∀ x, x ∈ s.records ++ rs → x ∈ recs ++ rs := by
        intro x hx
        rcases List.mem_append.mp hx with h3 | h3
        · exact List.mem_append.mpr (.inl ((hmem x).mp h3))
        · exact List.mem_append.mpr (.inr h3)
      exact hku a (hmap a ha) b (hmap b hb) h1 h2
    refine ⟨foldl_storeFeed_keyNodup rs hkn, ?_, hcnd, hclk, ?_, hrd,
      DsChar_of_fields hds rfl rfl⟩
    · intro x
      rw [show ({ s with records := rs.foldl storeFeed s.records } :
          ExpState).records = rs.foldl storeFeed s.records from rfl,
        mem_foldl_storeFeed rs s.records hcon x, List.mem_append, hmem x]
    · intro d hd x hx
      exact List.mem_append.mpr (.inl (hdr d hd x hx))
  | saveDataIds ds =>
    simp only [callNames, callRecords, callDataIds, callRefs,
      List.append_nil] at hku hinj ⊢
    simp only [runCall] at hok
    injection hok with hs2
    rw [saveDataIds_none_eq] at hs2
    subst hs2
    have hcon : ∀ a ∈ s.records ++ (ds.map (expandedRecords cat)).flatten,
        ∀ b ∈ s.records ++ (ds.map (expandedRecords cat)).flatten,
        a.definition = b.definition → a.dataId = b.dataId → a = b := by
      intro a ha b hb h1 h2
      have hmap : ∀ x, x ∈ s.records ++ (ds.map (expandedRecords cat)).flatten
          → x ∈ recs ++ (ds.map (expandedRecords cat)).flatten := by
        intro x hx
        rcases List.mem_append.mp hx with h3 | h3
        · exact List.mem_append.mpr (.inl ((hmem x).mp h3))
        · exact List.mem_append.mpr (.inr h3)
      exact hku a (hmap a ha) b (hmap b hb) h1 h2
    refine ⟨foldl_storeFeed_keyNodup _ hkn, ?_, hcnd, hclk, ?_, ?_,
      DsChar_of_fields hds rfl rfl⟩
    · intro x
      rw [show ({ s with records :=
            ((ds.map (expandedRecords cat)).flatten).foldl storeFeed s.records } :
          ExpState).records =
            ((ds.map (expandedRecords cat)).flatten).foldl storeFeed s.records
          from rfl,
        mem_foldl_storeFeed _ s.records hcon x, List.mem_append, hmem x]
    · intro d hd x hx
      rcases List.mem_append.mp hd with h3 | h3
      · exact List.mem_append.mpr (.inl (hdr d h3 x hx))
      · refine List.mem_append.mpr (.inr ?_)
        exact List.mem_flatten.mpr ⟨expandedRecords cat d,
          List.mem_map.mpr ⟨d, h3, rfl⟩, hx⟩
    · intro r hr
      exact List.mem_append.mpr (.inl (hrd r hr))
  | saveDatasets rs =>
    simp only [callNames, callRecords, callDataIds, callRefs,
      List.append_nil] at hku hinj ⊢
    simp only [runCall] at hok
    injection hok with hs2
    unfold saveDatasets at hs2
    have hinjL : idInjective (refs ++ List.insertionSort refLe rs) :=
      idInjective_of_sub hinj (fun x hx => by
        rcases List.mem_append.mp hx with h1 | h1
        · exact List.mem_append.mpr (.inl h1)
        · exact List.mem_append.mpr (.inr ((List.mem_insertionSort _).mp h1)))
    obtain ⟨hds2, hrec2, hcol2, hdid2⟩ :=
      saveDatasets_loop cat (List.insertionSort refLe rs) refs s [] hds hinjL
    rw [saveDataIds_none_eq] at hs2
    set out := (List.insertionSort refLe rs).foldl (saveDatasetsStep cat) (s, [])
      with hout
    have hrecs2 : s'.records
        = ((out.2.map (expandedRecords cat)).flatten).foldl storeFeed
            out.1.records := by
      rw [← hs2]
    have hids2 : s'.dataset_ids = out.1.dataset_ids := by rw [← hs2]
    have hdats2 : s'.datasets = out.1.datasets := by rw [← hs2]
    have hcols2 : s'.collections = out.1.collections := by rw [← hs2]
    have hsubflat : ∀ x ∈ (out.2.map (expandedRecords cat)).flatten,
        x ∈ ((rs.map (fun r => r.dataId)).map (expandedRecords cat)).flatten := by
      intro x hx
      obtain ⟨l, hl, hxl⟩ := List.mem_flatten.mp hx
      obtain ⟨d, hd, rfl⟩ := List.mem_map.mp hl
      rcases (hdid2 d).mp hd with h1 | ⟨r, hrL, hrd2, _⟩
      · exact absurd h1 (List.not_mem_nil d)
      · refine List.mem_flatten.mpr ⟨expandedRecords cat d, ?_, hxl⟩
        refine List.mem_map.mpr ⟨d, ?_, rfl⟩
        exact hrd2 ▸ List.mem_map.mpr ⟨r, (List.mem_insertionSort _).mp hrL, rfl⟩
    have hcon : ∀ a ∈ out.1.records ++ (out.2.map (expandedRecords cat)).flatten,
        ∀ b ∈ out.1.records ++ (out.2.map (expandedRecords cat)).flatten,
        a.definition = b.definition → a.dataId = b.dataId → a = b := by
      intro a ha b hb h1 h2
      have hmap : ∀ x,
          x ∈ out.1.records ++ (out.2.map (expandedRecords cat)).flatten →
          x ∈ recs ++ ((rs.map (fun r => r.dataId)).map (expandedRecords cat)).flatten := by
        intro x hx
        rcases List.mem_append.mp hx with h3 | h3
        · rw [hrec2] at h3
          exact List.mem_append.mpr (.inl ((hmem x).mp h3))
        · exact List.mem_append.mpr (.inr (hsubflat x h3))
      exact hku a (hmap a ha) b (hmap b hb) h1 h2
    have hkn2 : storeKeyNodup out.1.records := by
      rw [hrec2]; exact hkn
    refine ⟨?_, ?_, ?_, ?_, ?_, ?_, ?_⟩
    · rw [hrecs2]
      exact foldl_storeFeed_keyNodup _ hkn2
    · intro x
      rw [hrecs2, mem_foldl_storeFeed _ out.1.records hcon x, List.mem_append]
      constructor
      · rintro (h | h)
        · rw [hrec2] at h
          exact .inl ((hmem x).mp h)
        · exact .inr (hsubflat x h)
      · rintro (h | h)
        · rw [hrec2]
          exact .inl ((hmem x).mpr h)
        · obtain ⟨l, hl, hxl⟩ := List.mem_flatten.mp h
          obtain ⟨d, hd, rfl⟩ := List.mem_map.mp hl
          obtain ⟨r, hr, rfl⟩ := List.mem_map.mp hd
          by_cases hF : ∃ r0 ∈ refs, r0.id = r.id
          · obtain ⟨r0, hr0, hr0id⟩ := hF
            have he : r0 = r := hinj r0 (List.mem_append.mpr (.inl hr0)) r
              (List.mem_append.mpr (.inr hr)) hr0id
            rw [hrec2]
            refine .inl ((hmem x).mpr (hdr r.dataId ?_ x hxl))
            exact he ▸ hrd r0 hr0
          · refine .inr ?_
            refine List.mem_flatten.mpr ⟨expandedRecords cat r.dataId, ?_, hxl⟩
            refine List.mem_map.mpr ⟨r.dataId, ?_, rfl⟩
            exact (hdid2 r.dataId).mpr
              (.inr ⟨r, (List.mem_insertionSort _).mpr hr, rfl, hF⟩)
    · rw [hcols2, hcol2]
      exact hcnd
    · intro m
      rw [hcols2, hcol2]
      exact hclk m
    · intro d hd x hx
      rcases List.mem_append.mp hd with h3 | h3
      · exact List.mem_append.mpr (.inl (hdr d h3 x hx))
      · refine List.mem_append.mpr (.inr ?_)
        exact List.mem_flatten.mpr ⟨expandedRecords cat d,
          List.mem_map.mpr ⟨d, h3, rfl⟩, hx⟩
    · intro r hr
      rcases List.mem_append.mp hr with h3 | h3
      · exact List.mem_append.mpr (.inl (hrd r h3))
      · exact List.mem_append.mpr (.inr (List.mem_map.mpr ⟨r, h3, rfl⟩))
    · refine DsChar_of_fields (DsChar_congr hds2 ?_) hids2 hdats2
      intro x
      simp only [List.mem_append]
      constructor
      · rintro (h | h)
        · exact .inl h
        · exact .inr ((List.mem_insertionSort _).mp h)
      · rintro (h | h)
        · exact .inl h
        · exact .inr ((List.mem_insertionSort _).mpr h)

theorem Inv_empty (cat : Catalog) : Inv cat [] [] [] [] emptyExpState := by
  refine ⟨?_, ?_, ?_, ?_, ?_, ?_, ?_⟩
  · simp [storeKeyNodup, emptyExpState]
  · intro x
    simp [emptyExpState]
  · simp [emptyExpState]
  · intro n
    simp [emptyExpState, lookupA]
  · intro d hd
    simp at hd
  · intro r hr
    simp at hr
  · refine ⟨?_, ?_, ?_, ?_, ?_, ?_⟩
    · intro i
      simp [emptyExpState]
    · simp [emptyExpState]
    · intro t
      simp [emptyExpState]
    · intro t
      simp [emptyExpState, dsRuns, lookupA]
    · intro t run
      simp [emptyExpState, dsRuns, lookupA]
    · intro t run
      exact ⟨[], by simp, fun r => by simp [emptyExpState],
        by simp [dsFiles, emptyExpState, lookupA]⟩

theorem runCalls_inv (cat : Catalog) :
    ∀ (L : List Call) (names : List String) (recs : List DimensionRecord)
      (dids : List Nat) (refs : List DatasetRef) (s0 s : ExpState),
    Inv cat names recs dids refs s0 →
    L.foldlM (runCall cat) s0 = .ok s →
    storeKeyUnique (recs ++ sessionRecords cat L) →
    idInjective (refs ++ savedRefs L) →
    Inv cat (names ++ savedCollNames L) (recs ++ sessionRecords cat L)
      (dids ++ savedDataIds L) (refs ++ savedRefs L) s := by
  intro L
  induction L with
  | nil =>
    intro names recs dids refs s0 s hinv hfold _ _
    rw [List.foldlM_nil] at hfold
    injection hfold with hfold
    subst hfold
    refine Inv_congr hinv ?_ ?_ ?_ ?_ <;> intro x <;>
      simp [savedCollNames, sessionRecords, savedRecords, savedDataIds,
        savedRefs]
  | cons c L ih =>
    intro names recs dids refs s0 s hinv hfold hku hinj
    rw [List.foldlM_cons] at hfold
    cases hr : runCall cat s0 c with
    | error e =>
      rw [hr] at hfold
      simp [Bind.bind, Except.bind] at hfold
    | ok s1 =>
      rw [hr] at hfold
      simp only [Bind.bind, Except.bind] at hfold
      have hkuC : storeKeyUnique (recs ++ callRecords cat c) :=
        storeKeyUnique_of_sub hku (fun x hx => by
          rcases List.mem_append.mp hx with h1 | h1
          · exact List.mem_append.mpr (.inl h1)
          · exact List.mem_append.mpr (.inr
              ((sessionRecords_cons cat c L x).mpr
                (List.mem_append.mpr (.inl h1)))))
      have hinjC : idInjective (refs ++ callRefs c) :=
        idInjective_of_sub hinj (fun x hx => by
          rcases List.mem_append.mp hx with h1 | h1
          · exact List.mem_append.mpr (.inl h1)
          · refine List.mem_append.mpr (.inr ?_)
            rw [savedRefs_cons]
            exact List.mem_append.mpr (.inl h1))
      have hstep := Inv_step hinv hr hkuC hinjC
      have hkuL : storeKeyUnique
          ((recs ++ callRecords cat c) ++ sessionRecords cat L) :=
        storeKeyUnique_of_sub hku (fun x hx => by
          rcases List.mem_append.mp hx with h1 | h1
          · rcases List.mem_append.mp h1 with h2 | h2
            · exact List.mem_append.mpr (.inl h2)
            · exact List.mem_append.mpr (.inr
                ((sessionRecords_cons cat c L x).mpr
                  (List.mem_append.mpr (.inl h2))))
          · exact List.mem_append.mpr (.inr
              ((sessionRecords_cons cat c L x).mpr
                (List.mem_append.mpr (.inr h1)))))
      have hinjL2 : idInjective ((refs ++ callRefs c) ++ savedRefs L) :=
        idInjective_of_sub hinj (fun x hx => by
          rw [savedRefs_cons]
          rcases List.mem_append.mp hx with h1 | h1
          · rcases List.mem_append.mp h1 with h2 | h2
            · exact List.mem_append.mpr (.inl h2)
            · exact List.mem_append.mpr (.inr (List.mem_append.mpr (.inl h2)))
          · exact List.mem_append.mpr (.inr (List.mem_append.mpr (.inr h1))))
      have hres := ih (names ++ callNames c) (recs ++ callRecords cat c)
        (dids ++ callDataIds c) (refs ++ callRefs c) s1 s hstep hfold hkuL hinjL2
      refine Inv_congr hres ?_ ?_ ?_ ?_
      · intro n
        rw [savedCollNames_cons, List.append_assoc]
      · intro x
        rw [List.mem_append, List.mem_append, List.mem_append,
          sessionRecords_cons cat c L x, List.mem_append, or_assoc]
      · intro d
        rw [savedDataIds_cons, List.append_assoc]
      · intro r
        rw [savedRefs_cons, List.append_assoc]

theorem runSession_inv {cat : Catalog} {L : List Call} {s : ExpState}
    (hok : runSession cat L = .ok s)
    (hku : storeKeyUnique (sessionRecords cat L))
    (hinj : idInjective (savedRefs L)) :
    Inv cat (savedCollNames L) (sessionRecords cat L) (savedDataIds L)
      (savedRefs L) s := by
  have h := runCalls_inv cat L [] [] [] [] emptyExpState s (Inv_empty cat) hok
    (storeKeyUnique_of_sub hku (fun x hx => by simpa using hx))
    (idInjective_of_sub hinj (fun x hx => by simpa using hx))
  refine Inv_congr h ?_ ?_ ?_ ?_ <;> intro x <;> simp

/-! ### `_finish` congruence machinery (claim C1) -/

theorem finishExport_ok_decomp {cat : Catalog} {st : ExpState}
    {calls : List BackendCall} (hok : finishExport cat st = .ok calls) :
    ∃ colls order collCalls assocCalls,
      resolveRuns cat st.collections st.datasets = .ok colls ∧
      computeSortedCollections colls = .ok order ∧
      emitEach (emitCollection cat colls) order = .ok collCalls ∧
      emitEach
          (emitAssociation colls
            (computeDatasetAssociations cat { st with collections := colls }))
          (List.insertionSort (· ≤ ·)
            ((computeDatasetAssociations cat
                { st with collections := colls }).map (fun p => p.1)))
        = .ok assocCalls ∧
      calls = (cat.elements.filter
            (fun e => st.records.any (fun r => decide (r.definition = e)))).map
          (fun e => BackendCall.saveDimensionData e (elementRecords st e))
        ++ collCalls ++ datasetCalls st ++ assocCalls
        ++ [BackendCall.finish] := by
  unfold finishExport at hok
  simp only [Bind.bind, Except.bind, pure, Except.pure] at hok
  split at hok
  · exact absurd hok (by simp)
  · split at hok
    · exact absurd hok (by simp)
    · split at hok
      · exact absurd hok (by simp)
      · split at hok
        · exact absurd hok (by simp)
        · injection hok with hok
          rename_i x1 colls hr x2 order hcs x3 collCalls hec x4 assocCalls hea
          exact ⟨colls, order, collCalls, assocCalls, hr, hcs, hec, hea,
            hok.symm⟩

theorem finishExport_build {cat : Catalog} {st : ExpState}
    {colls : List (String × CollectionRecord)} {order : List String}
    {collCalls assocCalls : List BackendCall}
    (hr : resolveRuns cat st.collections st.datasets = .ok colls)
    (hcs : computeSortedCollections colls = .ok order)
    (hec : emitEach (emitCollection cat colls) order = .ok collCalls)
    (hea : emitEach
        (emitAssociation colls
          (computeDatasetAssociations cat { st with collections := colls }))
        (List.insertionSort (· ≤ ·)
          ((computeDatasetAssociations cat
              { st with collections := colls }).map (fun p => p.1)))
      = .ok assocCalls) :
    finishExport cat st =
      .ok ((cat.elements.filter
            (fun e => st.records.any (fun r => decide (r.definition = e)))).map
          (fun e => BackendCall.saveDimensionData e (elementRecords st e))
        ++ collCalls ++ datasetCalls st ++ assocCalls
        ++ [BackendCall.finish]) := by
  unfold finishExport
  simp only [Bind.bind, Except.bind, pure, Except.pure, hr, hcs, hec, hea]

theorem emitEach_congr {α : Type} {f g : α → Except ExpError BackendCall} :
    ∀ {l : List α}, (∀ x ∈ l, f x = g x) → emitEach f l = emitEach g l := by
  intro l
  induction l with
  | nil => intro _; rfl
  | cons x xs ih =>
    intro h
    rw [emitEach, emitEach, h x (List.mem_cons_self _ _),
      ih (fun y hy => h y (List.mem_cons_of_mem _ hy))]

theorem computeSortedCollections_congr
    {c1 c2 : List (String × CollectionRecord)}
    (h : (c1.map (fun p => p.2)).Perm (c2.map (fun p => p.2))) :
    computeSortedCollections c1 = computeSortedCollections c2 := by
  have hloop : chainLoop (collChains (c1.map (fun p => p.2)))
      = chainLoop (collChains (c2.map (fun p => p.2))) :=
    chainLoop_perm_invariant (collChains (c1.map (fun p => p.2))).length _ _
      le_rfl (h.filterMap _)
  have hsort : List.insertionSort (· ≤ ·)
        (collNonchained (c1.map (fun p => p.2)))
      = List.insertionSort (· ≤ ·) (collNonchained (c2.map (fun p => p.2))) := by
    refine List.eq_of_perm_of_sorted ?_ (List.sorted_insertionSort _ _)
      (List.sorted_insertionSort _ _)
    exact (List.perm_insertionSort _ _).trans
      ((h.filterMap _).trans (List.perm_insertionSort _ _).symm)
  simp only [computeSortedCollections, hloop, hsort]

/-- Every run key mentioned anywhere in the `_datasets` dict. -/
def dsRunsAll (ds : List (ExpDatasetType × List (String × List FileDataset))) :
    List String :=
  (ds.map (fun p => p.2.map (fun q => q.1))).flatten

theorem resolveRuns_inner_char (cat : Catalog) :
    ∀ (runs : List (String × List FileDataset))
      (cs cs' : List (String × CollectionRecord)),
    runs.foldlM
        (fun cs byRun =>
          match cat.findCollection byRun.1 with
          | none => Except.error (ExpError.missingCollection byRun.1)
          | some r => Except.ok (setA cs byRun.1 r)) cs = Except.ok cs' →
    (∀ q ∈ runs, ∃ r, cat.findCollection q.1 = some r) ∧
    (∀ n, lookupA cs' n =
      if n ∈ runs.map (fun q => q.1) then cat.findCollection n
      else lookupA cs n) ∧
    ((cs.map (fun p => p.1)).Nodup → (cs'.map (fun p => p.1)).Nodup) := by
  intro runs
  induction runs with
  | nil =>
    intro cs cs' h
    rw [List.foldlM_nil] at h
    injection h with h
    subst h
    exact ⟨fun q hq => absurd hq (List.not_mem_nil q), fun n => by simp,
      fun h => h⟩
  | cons q rest ih =>
    intro cs cs' h
    rw [List.foldlM_cons] at h
    cases hf : cat.findCollection q.1 with
    | none =>
      rw [hf] at h
      simp [Bind.bind, Except.bind] at h
    | some r =>
      rw [hf] at h
      simp only [Bind.bind, Except.bind] at h
      obtain ⟨h1, h2, h3⟩ := ih (setA cs q.1 r) cs' h
      refine ⟨?_, ?_, ?_⟩
      · intro p hp
        rcases List.mem_cons.mp hp with rfl | hp2
        · exact ⟨r, hf⟩
        · exact h1 p hp2
      · intro n
        rw [h2 n, lookupA_setA]
        by_cases hn : n ∈ rest.map (fun q => q.1)
        · rw [if_pos hn,
            if_pos (by rw [List.map_cons]; exact List.mem_cons_of_mem _ hn)]
        · rw [if_neg hn]
          by_cases hq : n = q.1
          · rw [if_pos hq, if_pos (by
              rw [List.map_cons, hq]
              exact List.mem_cons_self _ _), hq, hf]
          · rw [if_neg hq, if_neg (by
              rw [List.map_cons]
              intro hmem
              rcases List.mem_cons.mp hmem with h4 | h4
              · exact hq h4
              · exact hn h4)]
      · intro hnd
        exact h3 (setA_keys_nodup _ hnd)

theorem resolveRuns_char (cat : Catalog) :
    ∀ (ds : List (ExpDatasetType × List (String × List FileDataset)))
      (colls colls' : List (String × CollectionRecord)),
    resolveRuns cat colls ds = .ok colls' →
    (∀ run ∈ dsRunsAll ds, ∃ r, cat.findCollection run = some r) ∧
    (∀ n, lookupA colls' n =
      if n ∈ dsRunsAll ds then cat.findCollection n else lookupA colls n) ∧
    ((colls.map (fun p => p.1)).Nodup → (colls'.map (fun p => p.1)).Nodup) := by
  intro ds
  induction ds with
  | nil =>
    intro colls colls' h
    unfold resolveRuns at h
    rw [List.foldlM_nil] at h
    injection h with h
    subst h
    exact ⟨fun run hr => absurd hr (List.not_mem_nil run),
      fun n => by simp [dsRunsAll], fun h => h⟩
  | cons byType rest ih =>
    intro colls colls' h
    unfold resolveRuns at h
    rw [List.foldlM_cons] at h
    cases hin : byType.2.foldlM
        (fun cs byRun =>
          match cat.findCollection byRun.1 with
          | none => Except.error (ExpError.missingCollection byRun.1)
          | some r => Except.ok (setA cs byRun.1 r)) colls with
    | error e =>
      rw [hin] at h
      simp [Bind.bind, Except.bind] at h
    | ok cs1 =>
      rw [hin] at h
      simp only [Bind.bind, Except.bind] at h
      obtain ⟨hi1, hi2, hi3⟩ := resolveRuns_inner_char cat byType.2 colls cs1 hin
      obtain ⟨h1, h2, h3⟩ := ih cs1 colls' h
      have hcons : dsRunsAll (byType :: rest)
          = byType.2.map (fun q => q.1) ++ dsRunsAll rest := by
        simp [dsRunsAll]
      refine ⟨?_, ?_, ?_⟩
      · intro run hr
        rw [hcons] at hr
        rcases List.mem_append.mp hr with h4 | h4
        · obtain ⟨p, hp, hpe⟩ := List.mem_map.mp h4
          exact hpe ▸ hi1 p hp
        · exact h1 run h4
      · intro n
        rw [h2 n, hi2 n, hcons]
        by_cases ha : n ∈ dsRunsAll rest
        · rw [if_pos ha, if_pos (List.mem_append.mpr (.inr ha))]
        · rw [if_neg ha]
          by_cases hb : n ∈ byType.2.map (fun q => q.1)
          · rw [if_pos hb, if_pos (List.mem_append.mpr (.inl hb))]
          · rw [if_neg hb, if_neg (by
              intro hmem
              rcases List.mem_append.mp hmem with h4 | h4
              · exact hb h4
              · exact ha h4)]
      · intro hnd
        exact h3 (hi3 hnd)

theorem resolveRuns_inner_ok (cat : Catalog) :
    ∀ (runs : List (String × List FileDataset))
      (cs : List (String × CollectionRecord)),
    (∀ q ∈ runs, ∃ r, cat.findCollection q.1 = some r) →
    ∃ cs', runs.foldlM
        (fun cs byRun =>
          match cat.findCollection byRun.1 with
          | none => Except.error (ExpError.missingCollection byRun.1)
          | some r => Except.ok (setA cs byRun.1 r)) cs = Except.ok cs' := by
  intro runs
  induction runs with
  | nil =>
    intro cs _
    exact ⟨cs, by rw [List.foldlM_nil]; rfl⟩
  | cons q rest ih =>
    intro cs hres
    obtain ⟨r, hf⟩ := hres q (List.mem_cons_self _ _)
    obtain ⟨cs', hrec⟩ :=
      ih (setA cs q.1 r) (fun p hp => hres p (List.mem_cons_of_mem _ hp))
    refine ⟨cs', ?_⟩
    rw [List.foldlM_cons, hf]
    simp only [Bind.bind, Except.bind]
    exact hrec

theorem resolveRuns_ok_of_resolvable (cat : Catalog) :
    ∀ (ds : List (ExpDatasetType × List (String × List FileDataset)))
      (colls : List (String × CollectionRecord)),
    (∀ run ∈ dsRunsAll ds, ∃ r, cat.findCollection run = some r) →
    ∃ colls', resolveRuns cat colls ds = .ok colls' := by
  intro ds
  induction ds with
  | nil =>
    intro colls _
    exact ⟨colls, by unfold resolveRuns; rw [List.foldlM_nil]; rfl⟩
  | cons byType rest ih =>
    intro colls hres
    obtain ⟨cs1, hin⟩ := resolveRuns_inner_ok cat byType.2 colls
      (fun q hq => hres q.1 (by
        simp only [dsRunsAll, List.map_cons, List.flatten_cons, List.mem_append]
        exact .inl (List.mem_map.mpr ⟨q, hq, rfl⟩)))
    obtain ⟨colls', hrec⟩ := ih cs1 (fun run hr => hres run (by
      simp only [dsRunsAll, List.map_cons, List.flatten_cons, List.mem_append]
      exact .inr (by simpa [dsRunsAll] using hr)))
    refine ⟨colls', ?_⟩
    unfold resolveRuns
    rw [List.foldlM_cons, hin]
    simp only [Bind.bind, Except.bind]
    exact hrec

theorem elementDataIds_nodup {store : List DimensionRecord}
    (h : storeKeyNodup store) (e : String) :
    ((store.filter (fun r => decide (r.definition = e))).map
      (fun r => r.dataId)).Nodup := by
  have hstore : store.Nodup := List.Nodup.of_map keyOf h
  refine List.Nodup.map_on ?_ (List.Nodup.filter _ hstore)
  intro x hx y hy hxy
  have hx2 := List.mem_filter.mp hx
  have hy2 := List.mem_filter.mp hy
  refine List.inj_on_of_nodup_map h hx2.1 hy2.1 ?_
  simp only [keyOf, Prod.mk.injEq]
  exact ⟨(decide_eq_true_eq.mp hx2.2).trans
    (decide_eq_true_eq.mp hy2.2).symm, hxy⟩

theorem elementRecords_congr {s1 s2 : ExpState}
    (h1 : storeKeyNodup s1.records) (h2 : storeKeyNodup s2.records)
    (hku : storeKeyUnique (s1.records ++ s2.records))
    (hm : ∀ x, x ∈ s1.records ↔ x ∈ s2.records) (e : String) :
    elementRecords s1 e = elementRecords s2 e := by
  have hperm : ((s1.records.filter (fun r => decide (r.definition = e))).map
        (fun r => r.dataId)).Perm
      ((s2.records.filter (fun r => decide (r.definition = e))).map
        (fun r => r.dataId)) := by
    refine perm_of_nodup_mem (elementDataIds_nodup h1 e)
      (elementDataIds_nodup h2 e) ?_
    intro d
    simp only [List.mem_map, List.mem_filter, decide_eq_true_eq]
    constructor
    · rintro ⟨r, ⟨hr, hd⟩, rfl⟩
      exact ⟨r, ⟨(hm r).mp hr, hd⟩, rfl⟩
    · rintro ⟨r, ⟨hr, hd⟩, rfl⟩
      exact ⟨r, ⟨(hm r).mpr hr, hd⟩, rfl⟩
  have hsort := insertionSort_eq_of_perm (· ≤ ·) hperm
  unfold elementRecords
  rw [hsort,
    show (fun d => storeFind s1.records e d)
        = (fun d => storeFind s2.records e d)
      from funext (fun d => storeFind_congr hku hm e d)]

theorem datasetCalls_congr {cat : Catalog} {refs1 refs2 : List DatasetRef}
    {s1 s2 : ExpState} (h1 : DsChar cat refs1 s1) (h2 : DsChar cat refs2 s2)
    (hm : ∀ x, x ∈ refs1 ↔ x ∈ refs2) :
    datasetCalls s1 = datasetCalls s2 := by
  obtain ⟨hid1, hknd1, hkeys1, hrnd1, hruns1, hfiles1⟩ := h1
  obtain ⟨hid2, hknd2, hkeys2, hrnd2, hruns2, hfiles2⟩ := h2
  have htys : List.insertionSort dtLe (s1.datasets.map (fun p => p.1))
      = List.insertionSort dtLe (s2.datasets.map (fun p => p.1)) := by
    refine insertionSort_eq_of_perm dtLe (perm_of_nodup_mem hknd1 hknd2 ?_)
    intro t
    rw [hkeys1 t, hkeys2 t]
    constructor
    · rintro ⟨r, hr, rfl⟩; exact ⟨r, (hm r).mp hr, rfl⟩
    · rintro ⟨r, hr, rfl⟩; exact ⟨r, (hm r).mpr hr, rfl⟩
  unfold datasetCalls
  rw [htys]
  congr 1
  apply List.map_congr_left
  intro t ht
  have hruns : List.insertionSort (· ≤ ·)
      (((lookupA s1.datasets t).getD []).map (fun p => p.1))
      = List.insertionSort (· ≤ ·)
        (((lookupA s2.datasets t).getD []).map (fun p => p.1)) := by
    refine insertionSort_eq_of_perm _ (perm_of_nodup_mem (hrnd1 t) (hrnd2 t) ?_)
    intro run
    refine (hruns1 t run).trans (Iff.trans ?_ (hruns2 t run).symm)
    constructor
    · rintro ⟨r, hr, h3, h4⟩; exact ⟨r, (hm r).mp hr, h3, h4⟩
    · rintro ⟨r, hr, h3, h4⟩; exact ⟨r, (hm r).mpr hr, h3, h4⟩
  rw [hruns]
  apply List.map_congr_left
  intro run hrun
  obtain ⟨rl1, hnd1, hiff1, hf1⟩ := hfiles1 t run
  obtain ⟨rl2, hnd2, hiff2, hf2⟩ := hfiles2 t run
  have hrlperm : rl1.Perm rl2 := by
    refine perm_of_nodup_mem hnd1 hnd2 ?_
    intro r
    refine (hiff1 r).trans (Iff.trans ?_ (hiff2 r).symm)
    constructor
    · rintro ⟨hr, h3, h4⟩; exact ⟨(hm r).mp hr, h3, h4⟩
    · rintro ⟨hr, h3, h4⟩; exact ⟨(hm r).mpr hr, h3, h4⟩
  have hfilesperm : ((lookupA ((lookupA s1.datasets t).getD []) run).getD
      []).Perm ((lookupA ((lookupA s2.datasets t).getD []) run).getD []) := by
    rw [show (lookupA ((lookupA s1.datasets t).getD []) run).getD []
        = dsFiles s1.datasets t run from rfl,
      show (lookupA ((lookupA s2.datasets t).getD []) run).getD []
        = dsFiles s2.datasets t run from rfl, hf1, hf2]
    exact hrlperm.map _
  rw [insertionSort_eq_of_perm fdLe hfilesperm]

/-! ### Association grouping as a flat filter (claim C1) -/

/-- The association rows of one exported dataset type that survive the
exported-id filter, in catalog order. -/
def assocRows (cat : Catalog) (st : ExpState) (dt : ExpDatasetType) :
    List DatasetAssociation :=
  (queryDatasetAssociations cat dt (st.collections.map (fun p => p.1))
      (if dt.isCalibration then
        [CollectionType.TAGGED, CollectionType.CALIBRATION]
      else [CollectionType.TAGGED])).filter
    (fun a => decide (a.refId ∈ st.dataset_ids))

/-- All accepted association rows, in the traversal order of
`_computeDatasetAssociations`. -/
def flatAccepted (cat : Catalog) (st : ExpState) : List DatasetAssociation :=
  ((st.datasets.map (fun p => p.1)).map (assocRows cat st)).flatten

theorem foldl_guard_filter (ids : List Nat) :
    ∀ (rows : List DatasetAssociation)
      (gs : List (String × List DatasetAssociation)),
    rows.foldl
        (fun gs a => if a.refId ∈ ids then appendGroup gs a.collection a else gs)
        gs
      = (rows.filter (fun a => decide (a.refId ∈ ids))).foldl
          (fun gs a => appendGroup gs a.collection a) gs := by
  intro rows
  induction rows with
  | nil => intro gs; rfl
  | cons a rest ih =>
    intro gs
    rw [List.foldl_cons]
    by_cases ha : a.refId ∈ ids
    · rw [if_pos ha, ih]
      have hfc : (a :: rest).filter (fun a => decide (a.refId ∈ ids))
          = a :: rest.filter (fun a => decide (a.refId ∈ ids)) := by
        simp [List.filter_cons, ha]
      rw [hfc, List.foldl_cons]
    · rw [if_neg ha, ih]
      have hfc : (a :: rest).filter (fun a => decide (a.refId ∈ ids))
          = rest.filter (fun a => decide (a.refId ∈ ids)) := by
        simp [List.filter_cons, ha]
      rw [hfc]

theorem foldTypes_eq (cat : Catalog) (st : ExpState) :
    ∀ (dts : List ExpDatasetType)
      (gs : List (String × List DatasetAssociation)),
    dts.foldl
        (fun groups dt =>
          (queryDatasetAssociations cat dt (st.collections.map (fun p => p.1))
              (if dt.isCalibration then
                [CollectionType.TAGGED, CollectionType.CALIBRATION]
              else [CollectionType.TAGGED])).foldl
            (fun gs a =>
              if a.refId ∈ st.dataset_ids then appendGroup gs a.collection a
              else gs)
            groups)
        gs
      = ((dts.map (assocRows cat st)).flatten).foldl
          (fun gs a => appendGroup gs a.collection a) gs := by
  intro dts
  induction dts with
  | nil => intro gs; rfl
  | cons dt rest ih =>
    intro gs
    rw [List.foldl_cons, List.map_cons, List.flatten_cons, List.foldl_append,
      foldl_guard_filter, ih]
    rfl

theorem computeDatasetAssociations_eq (cat : Catalog) (st : ExpState) :
    computeDatasetAssociations cat st
      = (flatAccepted cat st).foldl
          (fun gs a => appendGroup gs a.collection a) [] := by
  unfold computeDatasetAssociations flatAccepted
  rw [foldTypes_eq]

theorem mem_appendGroup_keys (gs : List (String × List DatasetAssociation))
    (k : String) (x : DatasetAssociation) (c : String) :
    c ∈ (appendGroup gs k x).map (fun p => p.1)
      ↔ c ∈ gs.map (fun p => p.1) ∨ c = k := by
  unfold appendGroup
  cases hk : lookupA gs k with
  | none =>
    show c ∈ (gs ++ [(k, [x])]).map (fun p => p.1)
      ↔ c ∈ gs.map (fun p => p.1) ∨ c = k
    simp
  | some l0 =>
    show c ∈ (setA gs k (l0 ++ [x])).map (fun p => p.1)
      ↔ c ∈ gs.map (fun p => p.1) ∨ c = k
    rw [mem_setA_keys]

theorem appendGroup_keys_nodup {gs : List (String × List DatasetAssociation)}
    (k : String) (x : DatasetAssociation)
    (h : (gs.map (fun p => p.1)).Nodup) :
    ((appendGroup gs k x).map (fun p => p.1)).Nodup := by
  unfold appendGroup
  cases hk : lookupA gs k with
  | none =>
    show ((gs ++ [(k, [x])]).map (fun p => p.1)).Nodup
    rw [List.map_append, List.map_cons, List.map_nil,
      (List.perm_append_singleton _ _).nodup_iff, List.nodup_cons]
    exact ⟨fun hkm => absurd ((lookupA_eq_none_iff gs k).mp hk) (by simp [hkm]),
      h⟩
  | some l0 =>
    show ((setA gs k (l0 ++ [x])).map (fun p => p.1)).Nodup
    exact setA_keys_nodup _ h

theorem groupFold_lookup :
    ∀ (rows : List DatasetAssociation)
      (gs : List (String × List DatasetAssociation)) (c : String),
    (lookupA (rows.foldl (fun gs a => appendGroup gs a.collection a) gs)
        c).getD []
      = (lookupA gs c).getD []
        ++ rows.filter (fun a => decide (a.collection = c)) := by
  intro rows
  induction rows with
  | nil => intro gs c; simp
  | cons a rest ih =>
    intro gs c
    rw [List.foldl_cons, ih, lookupA_appendGroup]
    by_cases hc : c = a.collection
    · rw [if_pos hc]
      have hfc : (a :: rest).filter (fun q => decide (q.collection = c))
          = a :: rest.filter (fun q => decide (q.collection = c)) := by
        simp [List.filter_cons, hc.symm]
      rw [hfc]
      simp
      rw [hc]
    · rw [if_neg hc]
      have hac : ¬ a.collection = c := fun h => hc h.symm
      have hfc : (a :: rest).filter (fun q => decide (q.collection = c))
          = rest.filter (fun q => decide (q.collection = c)) := by
        simp [List.filter_cons, hac]
      rw [hfc]

theorem groupFold_keys :
    ∀ (rows : List DatasetAssociation)
      (gs : List (String × List DatasetAssociation)) (c : String),
    c ∈ (rows.foldl (fun gs a => appendGroup gs a.collection a) gs).map
        (fun p => p.1)
      ↔ c ∈ gs.map (fun p => p.1) ∨ ∃ a ∈ rows, a.collection = c := by
  intro rows
  induction rows with
  | nil => intro gs c; simp
  | cons a rest ih =>
    intro gs c
    rw [List.foldl_cons, ih, mem_appendGroup_keys]
    constructor
    · rintro ((h | rfl) | ⟨b, hb, hbc⟩)
      · exact .inl h
      · exact .inr ⟨a, List.mem_cons_self _ _, rfl⟩
      · exact .inr ⟨b, List.mem_cons_of_mem _ hb, hbc⟩
    · rintro (h | ⟨b, hb, hbc⟩)
      · exact .inl (.inl h)
      · rcases List.mem_cons.mp hb with rfl | hb2
        · exact .inl (.inr hbc.symm)
        · exact .inr ⟨b, hb2, hbc⟩

theorem groupFold_keys_nodup :
    ∀ (rows : List DatasetAssociation)
      (gs : List (String × List DatasetAssociation)),
    (gs.map (fun p => p.1)).Nodup →
    ((rows.foldl (fun gs a => appendGroup gs a.collection a) gs).map
      (fun p => p.1)).Nodup := by
  intro rows
  induction rows with
  | nil => exact fun gs h => h
  | cons a rest ih =>
    intro gs h
    rw [List.foldl_cons]
    exact ih _ (appendGroup_keys_nodup _ _ h)

theorem dsRunsAll_mem_iff {cat : Catalog} {refs : List DatasetRef}
    {s : ExpState} (h : DsChar cat refs s) (run : String) :
    run ∈ dsRunsAll s.datasets ↔ ∃ r ∈ refs, r.run = run := by
  obtain ⟨hid, hknd, hkeys, hrnd, hruns, hfiles⟩ := h
  unfold dsRunsAll
  rw [List.mem_flatten]
  constructor
  · rintro ⟨l, hl, hrl⟩
    obtain ⟨p, hp, rfl⟩ := List.mem_map.mp hl
    have hlk : lookupA s.datasets p.1 = some p.2 :=
      mem_lookupA_of_nodup hknd hp
    have hrun2 : run ∈ dsRuns s.datasets p.1 := by
      unfold dsRuns
      rw [hlk]
      exact hrl
    obtain ⟨r, hr, _, h4⟩ := (hruns p.1 run).mp hrun2
    exact ⟨r, hr, h4⟩
  · rintro ⟨r, hr, rfl⟩
    have hrun2 : r.run ∈ dsRuns s.datasets r.datasetType :=
      (hruns r.datasetType r.run).mpr ⟨r, hr, rfl, rfl⟩
    unfold dsRuns at hrun2
    cases hlk : lookupA s.datasets r.datasetType with
    | none =>
      rw [hlk] at hrun2
      simp at hrun2
    | some inner =>
      rw [hlk] at hrun2
      refine ⟨inner.map (fun q => q.1), ?_, hrun2⟩
      exact List.mem_map.mpr ⟨(r.datasetType, inner), lookupA_mem hlk, rfl⟩

theorem assocRows_congr {cat : Catalog} {st1 st2 : ExpState}
    (hcoll : ∀ n, n ∈ st1.collections.map (fun p => p.1)
      ↔ n ∈ st2.collections.map (fun p => p.1))
    (hids : ∀ i, i ∈ st1.dataset_ids ↔ i ∈ st2.dataset_ids)
    (dt : ExpDatasetType) :
    assocRows cat st1 dt = assocRows cat st2 dt := by
  unfold assocRows
  have hq : queryDatasetAssociations cat dt
        (st1.collections.map (fun p => p.1))
        (if dt.isCalibration then
          [CollectionType.TAGGED, CollectionType.CALIBRATION]
        else [CollectionType.TAGGED])
      = queryDatasetAssociations cat dt (st2.collections.map (fun p => p.1))
        (if dt.isCalibration then
          [CollectionType.TAGGED, CollectionType.CALIBRATION]
        else [CollectionType.TAGGED]) := by
    unfold queryDatasetAssociations
    apply List.filter_congr
    intro a _
    rw [decide_eq_decide.mpr (hcoll a.collection)]
  rw [hq]
  apply List.filter_congr
  intro a _
  rw [decide_eq_decide.mpr (hids a.refId)]

/-- If two accumulated states describe the same saved sets (under the
key-uniqueness and id-injectivity side conditions), a successful `_finish`
of the first is reproduced verbatim by the second. -/
theorem finishExport_ok_congr {cat : Catalog}
    {N1 N2 : List String} {R1 R2 : List DimensionRecord}
    {D1 D2 : List Nat} {F1 F2 : List DatasetRef} {s1 s2 : ExpState}
    (hi1 : Inv cat N1 R1 D1 F1 s1) (hi2 : Inv cat N2 R2 D2 F2 s2)
    (hN : ∀ n, n ∈ N1 ↔ n ∈ N2) (hR : ∀ x, x ∈ R1 ↔ x ∈ R2)
    (hF : ∀ r, r ∈ F1 ↔ r ∈ F2)
    (hku : storeKeyUnique (R1 ++ R2)) :
    ∀ calls, finishExport cat s1 = .ok calls →
      finishExport cat s2 = .ok calls := by
  obtain ⟨hkn1, hmem1, hcnd1, hclk1, hdr1, hrd1, hds1⟩ := hi1
  obtain ⟨hkn2, hmem2, hcnd2, hclk2, hdr2, hrd2, hds2⟩ := hi2
  have hrecm : ∀ x, x ∈ s1.records ↔ x ∈ s2.records :=
    fun x => (hmem1 x).trans ((hR x).trans (hmem2 x).symm)
  have hkurec : storeKeyUnique (s1.records ++ s2.records) :=
    storeKeyUnique_of_sub hku (fun x hx => by
      rcases List.mem_append.mp hx with h | h
      · exact List.mem_append.mpr (.inl ((hmem1 x).mp h))
      · exact List.mem_append.mpr (.inr ((hmem2 x).mp h)))
  have hdim : (cat.elements.filter
        (fun e => s1.records.any (fun r => decide (r.definition = e)))).map
      (fun e => BackendCall.saveDimensionData e (elementRecords s1 e))
      = (cat.elements.filter
        (fun e => s2.records.any (fun r => decide (r.definition = e)))).map
      (fun e => BackendCall.saveDimensionData e (elementRecords s2 e)) := by
    rw [List.filter_congr
      (fun e _ => any_eq_of_mem hrecm (fun r => decide (r.definition = e)))]
    apply List.map_congr_left
    intro e _
    rw [elementRecords_congr hkn1 hkn2 hkurec hrecm e]
  have hdsc : datasetCalls s1 = datasetCalls s2 :=
    datasetCalls_congr hds1 hds2 hF
  have hidm : ∀ i, i ∈ s1.dataset_ids ↔ i ∈ s2.dataset_ids := by
    intro i
    rw [hds1.1 i, hds2.1 i]
    constructor
    · rintro ⟨r, hr, rfl⟩; exact ⟨r, (hF r).mp hr, rfl⟩
    · rintro ⟨r, hr, rfl⟩; exact ⟨r, (hF r).mpr hr, rfl⟩
  have hrunm : ∀ run, run ∈ dsRunsAll s1.datasets
      ↔ run ∈ dsRunsAll s2.datasets := by
    intro run
    rw [dsRunsAll_mem_iff hds1 run, dsRunsAll_mem_iff hds2 run]
    constructor
    · rintro ⟨r, hr, rfl⟩; exact ⟨r, (hF r).mp hr, rfl⟩
    · rintro ⟨r, hr, rfl⟩; exact ⟨r, (hF r).mpr hr, rfl⟩
  intro calls hok
  obtain ⟨colls1, order, collCalls, assocCalls, hr1, hcs1, hec1, hea1, hcalls⟩ :=
    finishExport_ok_decomp hok
  obtain ⟨hres1, hlk1, hnd1f⟩ :=
    resolveRuns_char cat s1.datasets s1.collections colls1 hr1
  obtain ⟨colls2, hr2⟩ :=
    resolveRuns_ok_of_resolvable cat s2.datasets s2.collections
      (fun run hrun => hres1 run ((hrunm run).mpr hrun))
  obtain ⟨hres2, hlk2, hnd2f⟩ :=
    resolveRuns_char cat s2.datasets s2.collections colls2 hr2
  have hlkeq : ∀ n, lookupA colls1 n = lookupA colls2 n := by
    intro n
    rw [hlk1 n, hlk2 n, hclk1 n, hclk2 n]
    by_cases ha : n ∈ dsRunsAll s1.datasets
    · rw [if_pos ha, if_pos ((hrunm n).mp ha)]
    · rw [if_neg ha, if_neg (fun h => ha ((hrunm n).mpr h))]
      by_cases hb : n ∈ N1
      · rw [if_pos hb, if_pos ((hN n).mp hb)]
      · rw [if_neg hb, if_neg (fun h => hb ((hN n).mpr h))]
  have hc1nd : (colls1.map (fun p => p.1)).Nodup := hnd1f hcnd1
  have hc2nd : (colls2.map (fun p => p.1)).Nodup := hnd2f hcnd2
  have hcollperm : colls1.Perm colls2 := by
    refine perm_of_nodup_mem (List.Nodup.of_map _ hc1nd)
      (List.Nodup.of_map _ hc2nd) ?_
    intro p
    obtain ⟨n, r⟩ := p
    rw [mem_lookupA_iff_nodup hc1nd n r, mem_lookupA_iff_nodup hc2nd n r,
      hlkeq n]
  have hcs2 : computeSortedCollections colls2 = .ok order := by
    rw [← computeSortedCollections_congr (hcollperm.map (fun p => p.2)), hcs1]
  have hcfun : ∀ n, emitCollection cat colls1 n = emitCollection cat colls2 n := by
    intro n
    unfold emitCollection
    rw [hlkeq n]
  have hec2 : emitEach (emitCollection cat colls2) order = .ok collCalls := by
    rw [← emitEach_congr (fun n _ => hcfun n)]
    exact hec1
  have hcollnames : ∀ n, n ∈ colls1.map (fun p => p.1)
      ↔ n ∈ colls2.map (fun p => p.1) :=
    fun n => (hcollperm.map (fun p => p.1)).mem_iff
  have hrows : ∀ dt, assocRows cat { s1 with collections := colls1 } dt
      = assocRows cat { s2 with collections := colls2 } dt :=
    assocRows_congr hcollnames hidm
  have htypesperm : (s1.datasets.map (fun p => p.1)).Perm
      (s2.datasets.map (fun p => p.1)) := by
    refine perm_of_nodup_mem hds1.2.1 hds2.2.1 ?_
    intro t
    rw [hds1.2.2.1 t, hds2.2.2.1 t]
    constructor
    · rintro ⟨r, hr, rfl⟩; exact ⟨r, (hF r).mp hr, rfl⟩
    · rintro ⟨r, hr, rfl⟩; exact ⟨r, (hF r).mpr hr, rfl⟩
  have hflatperm : (flatAccepted cat { s1 with collections := colls1 }).Perm
      (flatAccepted cat { s2 with collections := colls2 }) := by
    unfold flatAccepted
    rw [List.map_congr_left (fun dt _ => hrows dt)]
    exact (htypesperm.map (assocRows cat { s2 with collections := colls2 })).flatten
  have hG1nd : ((computeDatasetAssociations cat
      { s1 with collections := colls1 }).map (fun p => p.1)).Nodup := by
    rw [computeDatasetAssociations_eq]
    exact groupFold_keys_nodup _ [] (by simp)
  have hG2nd : ((computeDatasetAssociations cat
      { s2 with collections := colls2 }).map (fun p => p.1)).Nodup := by
    rw [computeDatasetAssociations_eq]
    exact groupFold_keys_nodup _ [] (by simp)
  have hkeysperm : ((computeDatasetAssociations cat
        { s1 with collections := colls1 }).map (fun p => p.1)).Perm
      ((computeDatasetAssociations cat
        { s2 with collections := colls2 }).map (fun p => p.1)) := by
    refine perm_of_nodup_mem hG1nd hG2nd ?_
    intro c
    rw [computeDatasetAssociations_eq, computeDatasetAssociations_eq,
      groupFold_keys, groupFold_keys]
    simp only [List.map_nil, List.not_mem_nil, false_or]
    constructor
    · rintro ⟨a, ha, hac⟩
      exact ⟨a, hflatperm.mem_iff.mp ha, hac⟩
    · rintro ⟨a, ha, hac⟩
      exact ⟨a, hflatperm.mem_iff.mpr ha, hac⟩
  have hsortkeys : List.insertionSort (· ≤ ·)
        ((computeDatasetAssociations cat
          { s1 with collections := colls1 }).map (fun p => p.1))
      = List.insertionSort (· ≤ ·)
        ((computeDatasetAssociations cat
          { s2 with collections := colls2 }).map (fun p => p.1)) :=
    insertionSort_eq_of_perm _ hkeysperm
  have hgroups : ∀ c, List.insertionSort daLe
        ((lookupA (computeDatasetAssociations cat
          { s1 with collections := colls1 }) c).getD [])
      = List.insertionSort daLe
        ((lookupA (computeDatasetAssociations cat
          { s2 with collections := colls2 }) c).getD []) := by
    intro c
    rw [computeDatasetAssociations_eq, computeDatasetAssociations_eq,
      groupFold_lookup, groupFold_lookup]
    simp only [lookupA, List.find?_nil, Option.map_none', Option.getD_none,
      List.nil_append]
    exact insertionSort_eq_of_perm daLe (hflatperm.filter _)
  have hfun : ∀ c, emitAssociation colls1
        (computeDatasetAssociations cat { s1 with collections := colls1 }) c
      = emitAssociation colls2
        (computeDatasetAssociations cat { s2 with collections := colls2 }) c := by
    intro c
    unfold emitAssociation
    rw [hlkeq c, hgroups c]
  have hea2 : emitEach
      (emitAssociation colls2
        (computeDatasetAssociations cat { s2 with collections := colls2 }))
      (List.insertionSort (· ≤ ·)
        ((computeDatasetAssociations cat
          { s2 with collections := colls2 }).map (fun p => p.1)))
      = .ok assocCalls := by
    rw [← hsortkeys, ← emitEach_congr (fun c _ => hfun c)]
    exact hea1
  rw [finishExport_build hr2 hcs2 hec2 hea2, hcalls, ← hdim, ← hdsc]

instance {α : Type} [DecidableEq α] (a b : List α) : Decidable (sameSet a b) := by
  unfold sameSet
  infer_instance

instance (refs : List DatasetRef) : Decidable (idInjective refs) := by
  unfold idInjective
  infer_instance

/-- **C1** (corrected).  Export determinism as claimed — identical backend
call sequences from two sessions that accumulate the same sets in different
orders — holds only under two consistency conditions the claim leaves
implicit: the accumulated records of both sessions must agree whenever they
share an `(element, dataId)` key (the dedup store keeps whichever arrived
first, so conflicting records make the output order-dependent), and
distinct saved refs must never share an id.  Under those conditions the two
`_finish` runs agree on every successful outcome: one succeeds with a call
sequence exactly when the other succeeds with the same sequence.  (On
failure the error payloads may still differ, e.g. which missing run is
named first.) -/
theorem c1_export_determinism (cat : Catalog) (L1 L2 : List Call)
    (s1 s2 : ExpState)
    (h1 : runSession cat L1 = .ok s1) (h2 : runSession cat L2 = .ok s2)
    (hN : sameSet (savedCollNames L1) (savedCollNames L2))
    (hR : sameSet (savedRecords L1) (savedRecords L2))
    (hD : sameSet (savedDataIds L1) (savedDataIds L2))
    (hF : sameSet (savedRefs L1) (savedRefs L2))
    (hku : storeKeyUnique (sessionRecords cat L1 ++ sessionRecords cat L2))
    (hinj : idInjective (savedRefs L1 ++ savedRefs L2)) :
    ∀ calls, finishExport cat s1 = .ok calls
      ↔ finishExport cat s2 = .ok calls := by
  have hSR : ∀ x, x ∈ sessionRecords cat L1 ↔ x ∈ sessionRecords cat L2 := by
    intro x
    unfold sessionRecords
    simp only [List.mem_append, List.mem_flatten, List.mem_map]
    constructor
    · rintro (h | ⟨l, ⟨d, hd, rfl⟩, hx⟩)
      · exact .inl ((sameSet_iff hR x).mp h)
      · exact .inr ⟨_, ⟨d, (sameSet_iff hD d).mp hd, rfl⟩, hx⟩
    · rintro (h | ⟨l, ⟨d, hd, rfl⟩, hx⟩)
      · exact .inl ((sameSet_iff hR x).mpr h)
      · exact .inr ⟨_, ⟨d, (sameSet_iff hD d).mpr hd, rfl⟩, hx⟩
  have hku1 : storeKeyUnique (sessionRecords cat L1) :=
    storeKeyUnique_of_sub hku (fun x hx => List.mem_append.mpr (.inl hx))
  have hku2 : storeKeyUnique (sessionRecords cat L2) :=
    storeKeyUnique_of_sub hku (fun x hx => List.mem_append.mpr (.inr hx))
  have hinj1 : idInjective (savedRefs L1) :=
    idInjective_of_sub hinj (fun x hx => List.mem_append.mpr (.inl hx))
  have hinj2 : idInjective (savedRefs L2) :=
    idInjective_of_sub hinj (fun x hx => List.mem_append.mpr (.inr hx))
  have inv1 := runSession_inv h1 hku1 hinj1
  have inv2 := runSession_inv h2 hku2 hinj2
  have hkuSym : storeKeyUnique
      (sessionRecords cat L2 ++ sessionRecords cat L1) :=
    storeKeyUnique_of_sub hku (fun x hx => by
      rcases List.mem_append.mp hx with h | h
      · exact List.mem_append.mpr (.inr h)
      · exact List.mem_append.mpr (.inl h))
  intro calls
  constructor
  · exact finishExport_ok_congr inv1 inv2 (sameSet_iff hN) hSR
      (sameSet_iff hF) hku calls
  · exact finishExport_ok_congr inv2 inv1 (fun n => (sameSet_iff hN n).symm)
      (fun x => (hSR x).symm) (fun r => (sameSet_iff hF r).symm) hkuSym calls

/-- Catalog for the C1 counterexample: one `visit` element, no collections,
no associations. -/
def c1cat : Catalog where
  elements := ["visit"]
  hasTable := fun _ => true
  viewOf := fun _ => none
  findCollection := fun _ => none
  collectionDoc := fun _ => none
  expand := fun _ => []
  datastoreExport := fun r => ⟨"p", r.id⟩
  associations := []

/-- First session of the counterexample: two conflicting records for the
same `(visit, 1)` key, payload `10` first. -/
def c1L1 : List Call :=
  [.saveDimensionData "visit" [⟨"visit", 1, 10⟩],
   .saveDimensionData "visit" [⟨"visit", 1, 20⟩]]

/-- The same two calls in the opposite order. -/
def c1L2 : List Call :=
  [.saveDimensionData "visit" [⟨"visit", 1, 20⟩],
   .saveDimensionData "visit" [⟨"visit", 1, 10⟩]]

/-- Counterexample to the claim as frozen: two sessions over the same
catalog accumulating the same *sets* of collections, records, data IDs and
refs, in different orders, whose `_finish` outputs differ byte-for-byte —
the dedup store keeps the record that arrived first, so the serialized
`visit` record carries payload `10` in one session and `20` in the
other. -/
theorem c1_counterexample :
    ∃ s1 s2, runSession c1cat c1L1 = .ok s1 ∧ runSession c1cat c1L2 = .ok s2 ∧
      sameSet (savedCollNames c1L1) (savedCollNames c1L2) ∧
      sameSet (savedRecords c1L1) (savedRecords c1L2) ∧
      sameSet (savedDataIds c1L1) (savedDataIds c1L2) ∧
      sameSet (savedRefs c1L1) (savedRefs c1L2) ∧
      idInjective (savedRefs c1L1 ++ savedRefs c1L2) ∧
      ¬ ∀ calls, finishExport c1cat s1 = .ok calls
          ↔ finishExport c1cat s2 = .ok calls := by
  have hchain : computeSortedCollections
      ([] : List (String × CollectionRecord)) = .ok [] := by
    rw [computeSortedCollections, chainLoop]
    simp [collChains, collNonchained]
  have hA : finishExport c1cat ⟨[⟨"visit", 1, 10⟩], [], [], []⟩
      = .ok [BackendCall.saveDimensionData "visit" [⟨"visit", 1, 10⟩],
             BackendCall.finish] :=
    (@finishExport_build c1cat ⟨[⟨"visit", 1, 10⟩], [], [], []⟩ [] [] [] []
      rfl hchain rfl rfl).trans (by decide)
  have hB : finishExport c1cat ⟨[⟨"visit", 1, 20⟩], [], [], []⟩
      = .ok [BackendCall.saveDimensionData "visit" [⟨"visit", 1, 20⟩],
             BackendCall.finish] :=
    (@finishExport_build c1cat ⟨[⟨"visit", 1, 20⟩], [], [], []⟩ [] [] [] []
      rfl hchain rfl rfl).trans (by decide)
  refine ⟨⟨[⟨"visit", 1, 10⟩], [], [], []⟩, ⟨[⟨"visit", 1, 20⟩], [], [], []⟩,
    by decide, by decide, by decide, by decide, by decide, by decide,
    by decide, ?_⟩
  intro hiff
  have hcontra := hB.symm.trans ((hiff _).mp hA)
  injection hcontra with hcontra
  exact absurd hcontra (by decide)

/-- Catalog for the C1 witness: like `c1cat` plus one registered `RUN`
collection. -/
def c1wcat : Catalog where
  elements := ["visit"]
  hasTable := fun _ => true
  viewOf := fun _ => none
  findCollection := fun n =>
    if n = "RUN" then some ⟨"RUN", .RUN, []⟩ else none
  collectionDoc := fun _ => none
  expand := fun _ => []
  datastoreExport := fun r => ⟨"p", r.id⟩
  associations := []

/-- Witness sessions: one collection save and one record save, in the two
possible orders. -/
def c1wL1 : List Call :=
  [.saveCollection "RUN", .saveDimensionData "visit" [⟨"visit", 1, 0⟩]]

/-- The same calls in the opposite order. -/
def c1wL2 : List Call :=
  [.saveDimensionData "visit" [⟨"visit", 1, 0⟩], .saveCollection "RUN"]

/-- The accumulated state both witness sessions reach. -/
def c1ws : ExpState :=
  ⟨[⟨"visit", 1, 0⟩], [], [], [("RUN", ⟨"RUN", .RUN, []⟩)]⟩

/-- Witness for C1: all hypotheses of the corrected determinism theorem
hold at the two concrete sessions and the theorem applies there. -/
theorem c1_witness :
    (runSession c1wcat c1wL1 = .ok c1ws ∧ runSession c1wcat c1wL2 = .ok c1ws ∧
      sameSet (savedCollNames c1wL1) (savedCollNames c1wL2) ∧
      sameSet (savedRecords c1wL1) (savedRecords c1wL2) ∧
      sameSet (savedDataIds c1wL1) (savedDataIds c1wL2) ∧
      sameSet (savedRefs c1wL1) (savedRefs c1wL2) ∧
      storeKeyUnique
        (sessionRecords c1wcat c1wL1 ++ sessionRecords c1wcat c1wL2) ∧
      idInjective (savedRefs c1wL1 ++ savedRefs c1wL2)) ∧
    ∀ calls, finishExport c1wcat c1ws = .ok calls
      ↔ finishExport c1wcat c1ws = .ok calls :=
  ⟨⟨by decide, by decide, by decide, by decide, by decide, by decide,
    by decide, by decide⟩,
   c1_export_determinism c1wcat c1wL1 c1wL2 c1ws c1ws (by decide) (by decide)
     (by decide) (by decide) (by decide) (by decide) (by decide) (by decide)⟩

/-! ### ByDimensionsDatasetRecordStorageManager (claims C6, C7, C9, C10) -/

mutual
/-- A storage class (spec-modelled: the manager itself only reads its name
and its declared components). -/
inductive StorageClass where
  | mk (name : String) (components : SCList)
deriving DecidableEq
/-- The declared components of a storage class: component name together
with the component's own storage class. -/
inductive SCList where
  | nil
  | cons (compName : String) (sc : StorageClass) (rest : SCList)
deriving DecidableEq
end

def StorageClass.name : StorageClass → String
  | .mk n _ => n

def StorageClass.components : StorageClass → SCList
  | .mk _ cs => cs

def SCList.toList : SCList → List (String × StorageClass)
  | .nil => []
  | .cons n sc rest => (n, sc) :: rest.toList

def SCList.isEmpty : SCList → Bool
  | .nil => true
  | .cons _ _ _ => false

/-- The slice of `DatasetType` the manager uses (the spec keys a dataset
type on its name, encoded dimension set and storage class). -/
structure MDatasetType where
  name : String
  dimensions : Nat
  storageClass : StorageClass
deriving DecidableEq

/-- `datasetType.isComposite`: the storage class declares components. -/
def MDatasetType.isComposite (t : MDatasetType) : Bool :=
  ! t.storageClass.components.isEmpty

/-- `DatasetType.makeComponentDatasetType(component)`: the component type
is named `parent.component`, shares the parent dimensions, and carries the
component storage class. -/
def makeComponentDatasetType (t : MDatasetType) (c : String × StorageClass) :
    MDatasetType :=
  ⟨t.name ++ "." ++ c.1, t.dimensions, c.2⟩

/-- One row of the static `dataset_type` directory table. -/
structure TypeRow where
  id : Nat
  name : String
  dimensions_encoded : Nat
  storage_class : String
deriving DecidableEq

/-- The slice of `ByDimensionsDatasetRecordStorage` the manager observes:
the dataset type and its private surrogate id. -/
structure Storage where
  datasetType : MDatasetType
  dataset_type_id : Nat
deriving DecidableEq

/-- One row of the static `dataset` table. -/
structure DatasetRow where
  id : Nat
  dataset_type_id : Nat
  runKey : Nat
deriving DecidableEq

/-- The relational state the manager can observe: the dataset-type
directory with its autoincrement id counter, the set of existing dynamic
tables, and the dataset table. -/
structure DbState where
  typeRows : List TypeRow
  nextId : Nat
  dynTables : List String
  datasetRows : List DatasetRow
deriving DecidableEq

/-- The manager state: database plus the two in-memory caches. -/
structure MState where
  db : DbState
  byName : List (String × Storage)
  byId : List (Nat × Storage)
deriving DecidableEq

inductive MgrError where
  /-- `ConflictingDefinitionError`, naming the requested and the cached
  definition. -/
  | conflictingDefinition (requested existing : MDatasetType)
  /-- `db.sync` failing because the existing row's compared columns
  differ. -/
  | syncConflict (name : String)
  /-- The `assert` in `getDatasetRef` failing. -/
  | assertionFailure
deriving DecidableEq

/-- An observable database side effect of `register`. -/
inductive Effect where
  | sync (name : String)
  | ensureTable (name : String)
deriving DecidableEq

/-- `db.sync(static.dataset_type, keys={name}, compared={dimensions_encoded,
storage_class}, returning=["id"])`: insert-or-verify on the directory
table. -/
def dbSync (db : DbState) (name : String) (dims : Nat) (sc : String) :
    Except MgrError (DbState × Nat × Bool) :=
  match db.typeRows.find? (fun r => decide (r.name = name)) with
  | some r =>
    if r.dimensions_encoded = dims ∧ r.storage_class = sc then
      .ok (db, r.id, false)
    else .error (.syncConflict name)
  | none =>
    .ok ({ db with
            typeRows := db.typeRows ++ [⟨db.nextId, name, dims, sc⟩],
            nextId := db.nextId + 1 },
         db.nextId, true)

/-- `makeDynamicTableName`: a pure function of the dimension set. -/
def makeDynamicTableName (dims : Nat) : String :=
  "dataset_tags_" ++ toString dims

/-- `db.ensureTableExists`. -/
def ensureTableExists (db : DbState) (name : String) : DbState :=
  if name ∈ db.dynTables then db
  else { db with dynTables := db.dynTables ++ [name] }

/-- The outcome of one `register` call: the manager state it leaves behind,
the database effects it performed, and its result or raised error. -/
structure RegOut where
  state : MState
  effects : List Effect
  result : Except MgrError (Storage × Bool)
deriving DecidableEq

/-- The outcome of the component-registration loop. -/
structure CompOut where
  state : MState
  effects : List Effect
  err : Option MgrError
deriving DecidableEq

mutual
/-- `ByDimensionsDatasetRecordStorageManager.register`, as a worker on the
requested name, encoded dimensions and storage class. -/
def registerSC (s : MState) (name : String) (dims : Nat) :
    StorageClass → RegOut
  | .mk scname comps =>
    let t : MDatasetType := ⟨name, dims, .mk scname comps⟩
    match lookupA s.byName name with
    | some storage =>
      if t = storage.datasetType then ⟨s, [], .ok (storage, false)⟩
      else ⟨s, [], .error (.conflictingDefinition t storage.datasetType)⟩
    | none =>
      match dbSync s.db name dims scname with
      | .error e => ⟨s, [.sync name], .error e⟩
      | .ok (db1, tid, inserted) =>
        let tabName := makeDynamicTableName dims
        let db2 := ensureTableExists db1 tabName
        let storage : Storage := ⟨t, tid⟩
        let s1 : MState :=
          ⟨db2, setA s.byName name storage, setA s.byId tid storage⟩
        let effs := [Effect.sync name, Effect.ensureTable tabName]
        if inserted && ! comps.isEmpty then
          let r := registerComps s1 name dims comps
          match r.err with
          | some e => ⟨r.state, effs ++ r.effects, .error e⟩
          | none => ⟨r.state, effs ++ r.effects, .ok (storage, inserted)⟩
        else ⟨s1, effs, .ok (storage, inserted)⟩

/-- The `for component in datasetType.storageClass.components` loop of
`register`: each component is recursively registered; an exception
propagates immediately. -/
def registerComps (s : MState) (baseName : String) (dims : Nat) :
    SCList → CompOut
  | .nil => ⟨s, [], none⟩
  | .cons n sc rest =>
    let r := registerSC s (baseName ++ "." ++ n) dims sc
    match r.result with
    | .error e => ⟨r.state, r.effects, some e⟩
    | .ok _ =>
      let r2 := registerComps r.state baseName dims rest
      ⟨r2.state, r.effects ++ r2.effects, r2.err⟩
end

/-- `ByDimensionsDatasetRecordStorageManager.register`. -/
def register (s : MState) (t : MDatasetType) : RegOut :=
  registerSC s t.name t.dimensions t.storageClass

/-- `ByDimensionsDatasetRecordStorageManager.find`. -/
def find (s : MState) (name : String) : Option Storage :=
  lookupA s.byName name

/-- The external collaborators of `refresh`/`getDatasetRef` (spec-modelled):
the storage-class registry, the collections manager's run lookup, and the
per-storage `getDataId`. -/
structure MCtx where
  scOf : String → StorageClass
  runName : Nat → String
  dataIdOf : Nat → Nat

/-- `ByDimensionsDatasetRecordStorageManager.refresh`: rebuild both caches
from the directory table (dict semantics: later rows win). -/
def refresh (ctx : MCtx) (s : MState) : MState :=
  s.db.typeRows.foldl
    (fun acc r =>
      { acc with
        byName := setA acc.byName r.name
          ⟨⟨r.name, r.dimensions_encoded, ctx.scOf r.storage_class⟩, r.id⟩,
        byId := setA acc.byId r.id
          ⟨⟨r.name, r.dimensions_encoded, ctx.scOf r.storage_class⟩, r.id⟩ })
    { s with byName := [], byId := [] }

/-- The `DatasetRef` slice `getDatasetRef` assembles. -/
structure MgrRef where
  datasetType : MDatasetType
  dataId : Nat
  id : Nat
  run : String
deriving DecidableEq

/-- `ByDimensionsDatasetRecordStorageManager.getDatasetRef`; the final
`Nat` counts the `refresh()` calls the invocation performed. -/
def getDatasetRef (ctx : MCtx) (s : MState) (id : Nat) :
    Except MgrError (Option MgrRef × MState × Nat) :=
  match s.db.datasetRows.find? (fun r => decide (r.id = id)) with
  | none => .ok (none, s, 0)
  | some row =>
    match lookupA s.byId row.dataset_type_id with
    | some storage =>
      .ok (some ⟨storage.datasetType, ctx.dataIdOf id, id,
        ctx.runName row.runKey⟩, s, 0)
    | none =>
      let s2 := refresh ctx s
      match lookupA s2.byId row.dataset_type_id with
      | some storage =>
        .ok (some ⟨storage.datasetType, ctx.dataIdOf id, id,
          ctx.runName row.runKey⟩, s2, 1)
      | none => .error .assertionFailure

mutual
/-- All dataset-type names a registration of `(name, sc)` can create: the
name itself and, recursively, the derived component type names. -/
def typeNames (name : String) : StorageClass → List String
  | .mk _ comps => name :: compNames name comps
/-- The names created by the component loop. -/
def compNames (baseName : String) : SCList → List String
  | .nil => []
  | .cons n sc rest =>
    typeNames (baseName ++ "." ++ n) sc ++ compNames baseName rest
end

mutual
theorem registerSC_byName_mono (s : MState) (name2 : String) (dims : Nat)
    (sc : StorageClass) (n : String) (v : Storage)
    (h : lookupA s.byName n = some v) :
    lookupA (registerSC s name2 dims sc).state.byName n = some v := by
  cases sc with
  | mk scname comps =>
    simp only [registerSC]
    split
    · split
      · exact h
      · exact h
    · rename_i hc
      have hne : ¬ n = name2 := by
        intro hn
        rw [hn, hc] at h
        exact absurd h (by simp)
      split
      · exact h
      · rename_i db1 tid inserted hs
        have hstep : lookupA (setA s.byName name2
            (⟨⟨name2, dims, .mk scname comps⟩, tid⟩ : Storage)) n = some v := by
          rw [lookupA_setA, if_neg hne]
          exact h
        split
        · split
          · exact registerComps_byName_mono _ name2 dims comps n v hstep
          · exact registerComps_byName_mono _ name2 dims comps n v hstep
        · exact hstep

theorem registerComps_byName_mono (s : MState) (baseName : String)
    (dims : Nat) (cs : SCList) (n : String) (v : Storage)
    (h : lookupA s.byName n = some v) :
    lookupA (registerComps s baseName dims cs).state.byName n = some v := by
  cases cs with
  | nil => exact h
  | cons c sc rest =>
    simp only [registerComps]
    have h1 := registerSC_byName_mono s (baseName ++ "." ++ c) dims sc n v h
    split
    · exact h1
    · exact registerComps_byName_mono _ baseName dims rest n v h1
end

theorem registerSC_ok_cached (s : MState) (name : String) (dims : Nat)
    (sc : StorageClass) :
    ∀ storage b, (registerSC s name dims sc).result = .ok (storage, b) →
      lookupA (registerSC s name dims sc).state.byName name = some storage ∧
      storage.datasetType = ⟨name, dims, sc⟩ := by
  cases sc with
  | mk scname comps =>
    intro storage b
    simp only [registerSC]
    split
    · rename_i storage0 hc
      split
      · rename_i he
        intro h
        simp only [Except.ok.injEq, Prod.mk.injEq] at h
        obtain ⟨rfl, rfl⟩ := h
        exact ⟨hc, he.symm⟩
      · intro h
        simp at h
    · rename_i hc
      split
      · intro h
        simp at h
      · rename_i db1 tid inserted hs
        split
        · split
          · intro h
            simp at h
          · intro h
            simp only [Except.ok.injEq, Prod.mk.injEq] at h
            obtain ⟨rfl, rfl⟩ := h
            refine ⟨?_, rfl⟩
            refine registerComps_byName_mono _ name dims comps name _ ?_
            rw [lookupA_setA, if_pos rfl]
        · intro h
          simp only [Except.ok.injEq, Prod.mk.injEq] at h
          obtain ⟨rfl, rfl⟩ := h
          refine ⟨?_, rfl⟩
          rw [lookupA_setA, if_pos rfl]

theorem registerComps_finds (baseName : String) (dims : Nat)
    (cs : SCList) :
    ∀ (s : MState),
    (registerComps s baseName dims cs).err = none →
    ∀ p ∈ cs.toList,
      ∃ st, lookupA (registerComps s baseName dims cs).state.byName
          (baseName ++ "." ++ p.1) = some st ∧
        st.datasetType = ⟨baseName ++ "." ++ p.1, dims, p.2⟩ := by
  cases cs with
  | nil =>
    intro s _ p hp
    simp [SCList.toList] at hp
  | cons c sc rest =>
    intro s herr p hp
    simp only [registerComps] at herr ⊢
    revert herr
    split
    · intro herr
      exact absurd herr (by simp)
    · rename_i out hres
      intro herr
      simp only [SCList.toList, List.mem_cons] at hp
      rcases hp with rfl | hp2
      · obtain ⟨hl, hdt⟩ :=
          registerSC_ok_cached s (baseName ++ "." ++ c) dims sc out.1 out.2
            (by rw [hres])
        refine ⟨out.1, ?_, hdt⟩
        exact registerComps_byName_mono _ baseName dims rest _ _ hl
      · exact registerComps_finds baseName dims rest _ herr p hp2

mutual
theorem registerSC_keys (s : MState) (name : String) (dims : Nat)
    (sc : StorageClass) (n : String)
    (h : n ∈ (registerSC s name dims sc).state.byName.map (fun p => p.1)) :
    n ∈ s.byName.map (fun p => p.1) ∨ n ∈ typeNames name sc := by
  cases sc with
  | mk scname comps =>
    simp only [registerSC] at h
    split at h
    · split at h
      · exact .inl h
      · exact .inl h
    · split at h
      · exact .inl h
      · rename_i db1 tid inserted hs
        split at h
        · split at h
          · rcases registerComps_keys _ name dims comps n h with h2 | h2
            · rcases (mem_setA_keys _ _ _ _).mp h2 with h3 | rfl
              · exact .inl h3
              · refine .inr ?_
                rw [typeNames]
                exact List.mem_cons_self _ _
            · refine .inr ?_
              rw [typeNames]
              exact List.mem_cons_of_mem _ h2
          · rcases registerComps_keys _ name dims comps n h with h2 | h2
            · rcases (mem_setA_keys _ _ _ _).mp h2 with h3 | rfl
              · exact .inl h3
              · refine .inr ?_
                rw [typeNames]
                exact List.mem_cons_self _ _
            · refine .inr ?_
              rw [typeNames]
              exact List.mem_cons_of_mem _ h2
        · rcases (mem_setA_keys _ _ _ _).mp h with h3 | rfl
          · exact .inl h3
          · refine .inr ?_
            rw [typeNames]
            exact List.mem_cons_self _ _

theorem registerComps_keys (s : MState) (baseName : String) (dims : Nat)
    (cs : SCList) (n : String)
    (h : n ∈ (registerComps s baseName dims cs).state.byName.map
      (fun p => p.1)) :
    n ∈ s.byName.map (fun p => p.1) ∨ n ∈ compNames baseName cs := by
  cases cs with
  | nil => exact .inl h
  | cons c sc rest =>
    simp only [registerComps] at h
    split at h
    · rcases registerSC_keys s (baseName ++ "." ++ c) dims sc n h with h2 | h2
      · exact .inl h2
      · refine .inr ?_
        rw [compNames]
        exact List.mem_append.mpr (.inl h2)
    · rcases registerComps_keys _ baseName dims rest n h with h2 | h2
      · rcases registerSC_keys s (baseName ++ "." ++ c) dims sc n h2 with h3 | h3
        · exact .inl h3
        · refine .inr ?_
          rw [compNames]
          exact List.mem_append.mpr (.inl h3)
      · refine .inr ?_
        rw [compNames]
        exact List.mem_append.mpr (.inr h2)
end

theorem refresh_fold_byId (ctx : MCtx) :
    ∀ (rows : List TypeRow) (acc : MState) (tid : Nat),
    ((∃ v, lookupA acc.byId tid = some v) ∨ ∃ tr ∈ rows, tr.id = tid) →
    ∃ v, lookupA (rows.foldl
        (fun acc r =>
          { acc with
            byName := setA acc.byName r.name
              ⟨⟨r.name, r.dimensions_encoded, ctx.scOf r.storage_class⟩,
                r.id⟩,
            byId := setA acc.byId r.id
              ⟨⟨r.name, r.dimensions_encoded, ctx.scOf r.storage_class⟩,
                r.id⟩ })
        acc).byId tid = some v := by
  intro rows
  induction rows with
  | nil =>
    intro acc tid h
    rcases h with ⟨v, hv⟩ | ⟨tr, htr, _⟩
    · exact ⟨v, hv⟩
    · simp at htr
  | cons r rest ih =>
    intro acc tid h
    rw [List.foldl_cons]
    apply ih
    by_cases hid : tid = r.id
    · refine .inl ⟨⟨⟨r.name, r.dimensions_encoded, ctx.scOf r.storage_class⟩,
        r.id⟩, ?_⟩
      show lookupA (setA acc.byId r.id _) tid = _
      rw [lookupA_setA, if_pos hid]
    · rcases h with ⟨v, hv⟩ | ⟨tr, htr, he⟩
      · refine .inl ⟨v, ?_⟩
        show lookupA (setA acc.byId r.id _) tid = _
        rw [lookupA_setA, if_neg hid]
        exact hv
      · rcases List.mem_cons.mp htr with rfl | htr2
        · exact absurd he.symm hid
        · exact .inr ⟨tr, htr2, he⟩

theorem registerSC_cached_hit (s : MState) (name : String) (dims : Nat)
    (sc : StorageClass) (storage : Storage)
    (hcache : lookupA s.byName name = some storage)
    (heq : storage.datasetType = ⟨name, dims, sc⟩) :
    registerSC s name dims sc = ⟨s, [], .ok (storage, false)⟩ := by
  cases sc with
  | mk scname comps =>
    simp only [registerSC]
    split
    · rename_i storage0 hl
      rw [hcache] at hl
      injection hl with hl
      subst hl
      split
      · rfl
      · rename_i hne
        exact absurd heq.symm hne
    · rename_i hl
      rw [hcache] at hl
      exact absurd hl (by simp)

/-- **C6.**  If a dataset type named as the requested one is already cached
with a structurally different definition, `register` raises
`ConflictingDefinitionError` naming both the requested and the cached
definition, and the failed call is effect-free: the manager state (both
caches and the database) is returned unchanged, with no sync and no
dynamic-table creation. -/
theorem c6_register_conflict (s : MState) (t : MDatasetType)
    (storage : Storage)
    (hcache : lookupA s.byName t.name = some storage)
    (hdiff : ¬ (storage.datasetType.dimensions = t.dimensions ∧
      storage.datasetType.storageClass = t.storageClass)) :
    register s t
      = ⟨s, [], .error (.conflictingDefinition t storage.datasetType)⟩ := by
  obtain ⟨name, dims, sc⟩ := t
  cases sc with
  | mk scname comps =>
    unfold register
    simp only [registerSC]
    split
    · rename_i storage0 hl
      rw [hcache] at hl
      injection hl with hl
      subst hl
      split
      · rename_i he
        exact absurd ⟨by rw [← he], by rw [← he]⟩ hdiff
      · rfl
    · rename_i hl
      rw [hcache] at hl
      exact absurd hl (by simp)

/-- **C10.**  Re-registering a dataset type that a previous successful
`register` call left behind returns `inserted = false` and the very same
storage object (hence the same surrogate id), and the second call changes
nothing: the state is returned unchanged, no `sync` and no table creation
is performed, and no component type is registered even when the type is
composite. -/
theorem c10_register_idempotent (s : MState) (t : MDatasetType)
    (storage : Storage) (b : Bool)
    (h1 : (register s t).result = .ok (storage, b)) :
    register (register s t).state t
      = ⟨(register s t).state, [], .ok (storage, false)⟩ := by
  obtain ⟨hc, hdt⟩ :=
    registerSC_ok_cached s t.name t.dimensions t.storageClass storage b h1
  exact registerSC_cached_hit _ t.name t.dimensions t.storageClass storage hc hdt

/-- **C7.**  A `register` call that actually inserts a composite type also
registers its declared components: each component is afterwards retrievable
by `find` under its derived name, bound to exactly the component's own
`DatasetType`.  Moreover `register` never creates cache entries outside the
recursive closure of derived type names, and for a non-composite type it
has no side effect on the name cache beyond the type named in the
argument. -/
theorem c7_composite_cascade (s : MState) (t : MDatasetType) :
    (∀ storage, (register s t).result = .ok (storage, true) →
      ∀ p ∈ SCList.toList t.storageClass.components,
        ∃ st, find (register s t).state (t.name ++ "." ++ p.1) = some st ∧
          st.datasetType = makeComponentDatasetType t p) ∧
    (∀ n, n ∈ (register s t).state.byName.map (fun p => p.1) →
      n ∈ s.byName.map (fun p => p.1) ∨ n ∈ typeNames t.name t.storageClass) ∧
    (t.isComposite = false →
      ∀ n, n ∈ (register s t).state.byName.map (fun p => p.1) →
        n ∈ s.byName.map (fun p => p.1) ∨ n = t.name) := by
  refine ⟨?_, ?_, ?_⟩
  · intro storage hres p hp
    obtain ⟨name, dims, sc⟩ := t
    cases sc with
    | mk scname comps =>
      simp only [StorageClass.components] at hp
      unfold register at hres ⊢
      simp only [registerSC] at hres ⊢
      revert hres
      split
      · split
        · intro hres
          simp at hres
        · intro hres
          simp at hres
      · split
        · intro hres
          simp at hres
        · rename_i db1 tid inserted hs
          split
          · split
            · intro hres
              simp at hres
            · rename_i herr
              intro hres
              obtain ⟨st, hst, hdt⟩ :=
                registerComps_finds name dims comps _ herr p hp
              exact ⟨st, hst, hdt⟩
          · rename_i hg
            intro hres
            simp only [Except.ok.injEq, Prod.mk.injEq] at hres
            obtain ⟨rfl, hins⟩ := hres
            cases comps with
            | nil => simp [SCList.toList] at hp
            | cons c sc2 rest =>
              exact absurd (by rw [hins]; rfl) hg
  · intro n h
    obtain ⟨name, dims, sc⟩ := t
    exact registerSC_keys s name dims sc n h
  · intro hnc n h
    obtain ⟨name, dims, sc⟩ := t
    cases sc with
    | mk scname comps =>
      cases comps with
      | cons c sc2 rest =>
        simp [MDatasetType.isComposite, StorageClass.components,
          SCList.isEmpty] at hnc
      | nil =>
        rcases registerSC_keys s name dims (.mk scname .nil) n h with h2 | h2
        · exact .inl h2
        · rw [typeNames] at h2
          rcases List.mem_cons.mp h2 with rfl | h3
          · exact .inr rfl
          · rw [compNames] at h3
            exact absurd h3 (List.not_mem_nil n)

/-- **C9.**  `getDatasetRef` returns absent exactly when no dataset row
with the requested id exists; on a row whose type id misses the id cache it
performs exactly one `refresh` and retries the lookup once, which under the
foreign-key invariant (every dataset row's type row is present in the
directory) succeeds — so the call never reaches the assertion branch and
never fails. -/
theorem c9_getDatasetRef_total (ctx : MCtx) (s : MState) (i : Nat)
    (hfk : ∀ row ∈ s.db.datasetRows, ∃ tr ∈ s.db.typeRows,
      tr.id = row.dataset_type_id) :
    (s.db.datasetRows.find? (fun r => decide (r.id = i)) = none →
      getDatasetRef ctx s i = .ok (none, s, 0)) ∧
    (∀ row, s.db.datasetRows.find? (fun r => decide (r.id = i)) = some row →
      lookupA s.byId row.dataset_type_id = none →
      ∃ storage, lookupA (refresh ctx s).byId row.dataset_type_id
          = some storage ∧
        getDatasetRef ctx s i = .ok (some ⟨storage.datasetType,
          ctx.dataIdOf i, i, ctx.runName row.runKey⟩, refresh ctx s, 1)) ∧
    (∀ e, getDatasetRef ctx s i ≠ .error e) := by
  refine ⟨?_, ?_, ?_⟩
  · intro hnone
    unfold getDatasetRef
    rw [hnone]
  · intro row hrow hmiss
    have hke : ∃ tr ∈ s.db.typeRows, tr.id = row.dataset_type_id :=
      hfk row (List.mem_of_find?_eq_some hrow)
    obtain ⟨storage, hst⟩ : ∃ v,
        lookupA (refresh ctx s).byId row.dataset_type_id = some v := by
      unfold refresh
      exact refresh_fold_byId ctx s.db.typeRows _ _ (.inr hke)
    refine ⟨storage, hst, ?_⟩
    unfold getDatasetRef
    simp only [hrow, hmiss, hst]
  · intro e
    unfold getDatasetRef
    cases hrow : s.db.datasetRows.find? (fun r => decide (r.id = i)) with
    | none => simp
    | some row =>
      cases hl : lookupA s.byId row.dataset_type_id with
      | some st => simp [hl]
      | none =>
        obtain ⟨v, hv⟩ : ∃ v,
            lookupA (refresh ctx s).byId row.dataset_type_id = some v := by
          unfold refresh
          exact refresh_fold_byId ctx _ _ _
            (.inr (hfk row (List.mem_of_find?_eq_some hrow)))
        simp [hl, hv]

/-- Manager state for the C6 witness: `T` cached with dimensions `1` and
storage class `A`. -/
def c6s : MState :=
  ⟨⟨[⟨0, "T", 1, "A"⟩], 1, [], []⟩,
   [("T", ⟨⟨"T", 1, .mk "A" .nil⟩, 0⟩)],
   [(0, ⟨⟨"T", 1, .mk "A" .nil⟩, 0⟩)]⟩

/-- Witness for C6: re-registering `T` with dimensions `2` hits the cached
conflict and raises, effect-free. -/
theorem c6_witness :
    (lookupA c6s.byName "T" = some ⟨⟨"T", 1, .mk "A" .nil⟩, 0⟩ ∧
      ¬ ((⟨⟨"T", 1, .mk "A" .nil⟩, 0⟩ : Storage).datasetType.dimensions = 2 ∧
        (⟨⟨"T", 1, .mk "A" .nil⟩, 0⟩ : Storage).datasetType.storageClass
          = .mk "A" .nil)) ∧
    register c6s ⟨"T", 2, .mk "A" .nil⟩
      = ⟨c6s, [], .error (.conflictingDefinition ⟨"T", 2, .mk "A" .nil⟩
          ⟨"T", 1, .mk "A" .nil⟩)⟩ :=
  ⟨⟨by decide, by decide⟩,
   c6_register_conflict c6s ⟨"T", 2, .mk "A" .nil⟩ ⟨⟨"T", 1, .mk "A" .nil⟩, 0⟩
     (by decide) (by decide)⟩

/-- The composite type of the C7 witness: one declared component `a`. -/
def c7t : MDatasetType := ⟨"T", 3, .mk "Comp" (.cons "a" (.mk "S" .nil) .nil)⟩

/-- Witness for C7: freshly registering the composite `T` also registers
`T.a`, retrievable by `find` with the component's own definition. -/
theorem c7_witness :
    ((register (⟨⟨[], 0, [], []⟩, [], []⟩ : MState) c7t).result
        = .ok (⟨c7t, 0⟩, true) ∧
      ("a", StorageClass.mk "S" .nil)
        ∈ SCList.toList c7t.storageClass.components) ∧
    ∃ st, find (register (⟨⟨[], 0, [], []⟩, [], []⟩ : MState) c7t).state
        (c7t.name ++ "." ++ "a") = some st ∧
      st.datasetType = makeComponentDatasetType c7t ("a", .mk "S" .nil) :=
  ⟨⟨by decide, by decide⟩,
   (c7_composite_cascade (⟨⟨[], 0, [], []⟩, [], []⟩ : MState) c7t).1
     ⟨c7t, 0⟩ (by decide) ("a", .mk "S" .nil) (by decide)⟩

/-- The simple type of the C10 witness. -/
def c10t : MDatasetType := ⟨"T", 3, .mk "S" .nil⟩

/-- Witness for C10: after a first successful registration of `T`, a second
identical `register` returns the same storage with `inserted = false` and
changes nothing. -/
theorem c10_witness :
    ((register (⟨⟨[], 0, [], []⟩, [], []⟩ : MState) c10t).result
        = .ok (⟨c10t, 0⟩, true)) ∧
    register (register (⟨⟨[], 0, [], []⟩, [], []⟩ : MState) c10t).state c10t
      = ⟨(register (⟨⟨[], 0, [], []⟩, [], []⟩ : MState) c10t).state, [],
         .ok (⟨c10t, 0⟩, false)⟩ :=
  ⟨by decide,
   c10_register_idempotent (⟨⟨[], 0, [], []⟩, [], []⟩ : MState) c10t
     ⟨c10t, 0⟩ true (by decide)⟩

/-- External collaborators for the C9 witness. -/
def c9ctx : MCtx := ⟨fun n => .mk n .nil, fun k => "run" ++ toString k,
  fun i => i⟩

/-- Manager state for the C9 witness: dataset row `7` exists with type id
`0`, which is present in the directory but absent from the id cache. -/
def c9s : MState :=
  ⟨⟨[⟨0, "T", 1, "S"⟩], 1, [], [⟨7, 0, 4⟩]⟩, [], []⟩

/-- Witness for C9: the foreign-key invariant holds at `c9s`, the lookup of
dataset `7` misses the cache, performs exactly one refresh and succeeds,
and `getDatasetRef` never errors. -/
theorem c9_witness :
    ((∀ row ∈ c9s.db.datasetRows, ∃ tr ∈ c9s.db.typeRows,
        tr.id = row.dataset_type_id) ∧
      c9s.db.datasetRows.find? (fun r => decide (r.id = 7))
        = some ⟨7, 0, 4⟩ ∧
      lookupA c9s.byId 0 = none) ∧
    (∃ storage, lookupA (refresh c9ctx c9s).byId 0 = some storage ∧
      getDatasetRef c9ctx c9s 7 = .ok (some ⟨storage.datasetType,
        c9ctx.dataIdOf 7, 7, c9ctx.runName 4⟩, refresh c9ctx c9s, 1)) ∧
    ∀ e, getDatasetRef c9ctx c9s 7 ≠ .error e :=
  ⟨⟨by decide, by decide, by decide⟩,
   (c9_getDatasetRef_total c9ctx c9s 7 (by decide)).2.1 ⟨7, 0, 4⟩ (by decide)
     (by decide),
   (c9_getDatasetRef_total c9ctx c9s 7 (by decide)).2.2⟩

end Butler
